import Mathlib

/-!
# Process Race Simulator: shared-memory coordination protocol

A shallow embedding of `RaceLogic.h`, `RaceLogic.cpp` and `main.cpp`.

* The shared segment is an array of `int` cells addressed through the index
  constants of `RaceLogic.cpp`, followed by one `long` holding the start time.
* `runRacer` (a competitor process) is a small control-flow machine whose steps
  are the stretches of code between two sleeps.
* `runDisplayParent` (the coordinator) is a function from the state of the
  parent process and the answers of its environment during one pass of the main
  loop to the next state of the parent process.
-/

namespace RaceSim

/-! ## Configuration constants (`RaceLogic.cpp`, lines 17-25) -/

/-- The constant `RACE_LENGTH`. -/
def RACE_LENGTH : Int := 100

/-- The constant `NUM_RACERS`. -/
def NUM_RACERS : Nat := 4

/-- The constant `POS_OFFSET`: first position cell. -/
def POS_OFFSET : Nat := 0

/-- The constant `PID_OFFSET`: first process-id cell. -/
def PID_OFFSET : Nat := NUM_RACERS

/-- The constant `STATUS_INDEX`: the status cell. -/
def STATUS_INDEX : Nat := NUM_RACERS * 2

/-- The constant `START_TIME_INDEX`: where the `long` start time begins. -/
def START_TIME_INDEX : Nat := STATUS_INDEX + 1

/-! ## `enum RaceStatus` (`RaceLogic.h`, lines 13-19) -/

/-- Enumerator `READY = 0`. -/
def READY : Int := 0

/-- Enumerator `RUNNING = 1`. -/
def RUNNING : Int := 1

/-- Enumerator `PAUSED = 2`. -/
def PAUSED : Int := 2

/-- Enumerator `FINISHED = 3`. -/
def FINISHED : Int := 3

/-- Enumerator `EXITING = 4`. -/
def EXITING : Int := 4

/-! ## The shared segment -/

/-- The shared segment: `cells k` is `shm_ptr[k]` (an `int`), and `start_time`
is the `long` read and written through `shm_long_ptr`, which lies behind the
last `int` cell `STATUS_INDEX`. -/
structure Shm where
  cells : Nat → Int
  start_time : Int

/-- The assignment `shm_ptr[k] = v`. -/
def Shm.write (m : Shm) (k : Nat) (v : Int) : Shm :=
  { m with cells := fun j => if j = k then v else m.cells j }

/-- The read `shm_ptr[POS_OFFSET + i]`. -/
def Shm.position (m : Shm) (i : Nat) : Int := m.cells (POS_OFFSET + i)

/-- The read `shm_ptr[PID_OFFSET + i]`. -/
def Shm.owner (m : Shm) (i : Nat) : Int := m.cells (PID_OFFSET + i)

/-- The read `shm_ptr[STATUS_INDEX]`. -/
def Shm.status (m : Shm) : Int := m.cells STATUS_INDEX

/-! ## `runRacer` (`RaceLogic.cpp`, lines 66-117) -/

/-- The step `(rand() % 4) + 1` computed from the value `rnd` of `rand()`. -/
def randStep (rnd : Nat) : Int := ((rnd % 4 : Nat) : Int) + 1

/-- Lines 73-78 of `runRacer`: the process stores its identifier in its owner
cell and zero in its position cell. `racer_id` is the 1-based racer number. -/
def racerInit (racer_id : Nat) (pid : Int) (m : Shm) : Shm :=
  let position_index := POS_OFFSET + racer_id - 1
  let pid_index := PID_OFFSET + racer_id - 1
  (m.write pid_index pid).write position_index 0

/-- Lines 93-105 of `runRacer`: the advance by `step`, the clamp, and the
switch of the status cell to `FINISHED`. The cells are `int`; the position of
a racer that enters the body of its loop is below `RACE_LENGTH`, so the sum
with a step of at most 4 is far from the ends of the range of `int`. -/
def racerMove (racer_id : Nat) (step : Int) (m : Shm) : Shm :=
  let position_index := POS_OFFSET + racer_id - 1
  let current_pos := m.cells position_index
  let m1 := m.write position_index (current_pos + step)
  if m1.cells position_index ≥ RACE_LENGTH then
    let m2 := m1.write position_index RACE_LENGTH
    if m2.cells STATUS_INDEX = RUNNING then m2.write STATUS_INDEX FINISHED else m2
  else m1

/-- The successive contents of the shared segment after each store of lines
93-105 of `runRacer`, in program order. -/
def racerMoveTrace (racer_id : Nat) (step : Int) (m : Shm) : List Shm :=
  let position_index := POS_OFFSET + racer_id - 1
  let current_pos := m.cells position_index
  let m1 := m.write position_index (current_pos + step)
  if m1.cells position_index ≥ RACE_LENGTH then
    let m2 := m1.write position_index RACE_LENGTH
    if m2.cells STATUS_INDEX = RUNNING then [m1, m2, m2.write STATUS_INDEX FINISHED]
    else [m1, m2]
  else [m1]

/-- The values stored into the position cell of racer `racer_id` by lines
93-105 of `runRacer`, in program order: line 96, then line 99 when the clamp
applies. -/
def racerMoveStores (racer_id : Nat) (step : Int) (m : Shm) : List Int :=
  let position_index := POS_OFFSET + racer_id - 1
  let current_pos := m.cells position_index
  let m1 := m.write position_index (current_pos + step)
  if m1.cells position_index ≥ RACE_LENGTH then [current_pos + step, RACE_LENGTH]
  else [current_pos + step]

/-- Where a racer process stands in the loop of `runRacer`. -/
inductive RacerPc where
  | loopHead
  | pauseWait
  | done
  deriving DecidableEq, Repr

/-- Lines 90-111 of `runRacer`: what follows the pause loop in the body of the
race loop. -/
def racerBody (racer_id : Nat) (step : Int) (m : Shm) : RacerPc × Shm :=
  if m.cells STATUS_INDEX = RUNNING then
    (RacerPc.loopHead, racerMove racer_id step m)
  else if m.cells STATUS_INDEX = EXITING then
    (RacerPc.done, m)
  else
    (RacerPc.loopHead, m)

/-- One step of a racer process on the shared segment. From `loopHead` the
condition of the race loop (line 83) is evaluated, then the condition of the
pause loop (line 86); a racer that finds `PAUSED` sleeps and is at `pauseWait`,
from where it evaluates the condition of the pause loop again. A racer that
passes the pause loop runs the rest of the body (`racerBody`). -/
def racerStep (racer_id : Nat) (step : Int) : RacerPc × Shm → RacerPc × Shm
  | (RacerPc.loopHead, m) =>
    if m.cells (POS_OFFSET + racer_id - 1) < RACE_LENGTH ∧ m.cells STATUS_INDEX ≠ EXITING then
      if m.cells STATUS_INDEX = PAUSED then (RacerPc.pauseWait, m)
      else racerBody racer_id step m
    else (RacerPc.done, m)
  | (RacerPc.pauseWait, m) =>
    if m.cells STATUS_INDEX = PAUSED then (RacerPc.pauseWait, m)
    else racerBody racer_id step m
  | (RacerPc.done, m) => (RacerPc.done, m)

/-- Several steps of one racer process with no other process running in
between; `steps` lists the step drawn for each of them. -/
def racerSteps (racer_id : Nat) : List Int → RacerPc × Shm → RacerPc × Shm
  | [], st => st
  | step :: rest, st => racerSteps racer_id rest (racerStep racer_id step st)

/-! ## The parent process (`main.cpp`, and `runDisplayParent` in `RaceLogic.cpp`) -/

/-- What the environment answers to the parent process during one pass of the
main loop of `runDisplayParent`. -/
structure Env where
  /-- value of `getch()` -/
  ch : Int
  /-- value of `system_clock::now().time_since_epoch().count()` at line 166 -/
  clock_start : Int
  /-- value of `system_clock::now().time_since_epoch().count()` at line 205 -/
  clock_end : Int
  /-- whether `shmat` in `start_race_processes` succeeds -/
  attach_ok : Bool
  /-- value of `fork()` in the parent at the loop index `i` of `start_race_processes` -/
  fork : Nat → Int
  /-- value of `waitpid(child_pid, &status, WNOHANG)` -/
  waitpid_nohang : Int → Int
  /-- value of `kill(child_pid, SIGKILL)` -/
  kill : Int → Int

/-- The state of the parent process: the shared segment, the local
`current_view`, the global vector `children`, and three records of what it
did: the calls of `logRaceResult` (winner and duration), the `winner_id` last
handed to `drawRaceTrackGUI`, and the processes killed and reaped by
`cleanup_children`. -/
structure Parent where
  shm : Shm
  current_view : Int
  children : List Int
  log : List (Int × Int)
  winner_shown : Int
  killed : List Int

/-- The key test `ch == 'q' || ch == 'Q'`. -/
def isQuit (ch : Int) : Prop := ch = 113 ∨ ch = 81

/-- The key test `ch == 's' || ch == 'S'`. -/
def isStart (ch : Int) : Prop := ch = 115 ∨ ch = 83

/-- The key test `ch == 'p' || ch == 'P'`. -/
def isPause (ch : Int) : Prop := ch = 112 ∨ ch = 80

/-- The key test `ch == 'r' || ch == 'R'`. -/
def isResults (ch : Int) : Prop := ch = 114 ∨ ch = 82

/-- The key test `ch == 'b' || ch == 'B'`. -/
def isBack (ch : Int) : Prop := ch = 98 ∨ ch = 66

instance (ch : Int) : Decidable (isQuit ch) := by unfold isQuit; infer_instance

instance (ch : Int) : Decidable (isStart ch) := by unfold isStart; infer_instance

instance (ch : Int) : Decidable (isPause ch) := by unfold isPause; infer_instance

instance (ch : Int) : Decidable (isResults ch) := by unfold isResults; infer_instance

instance (ch : Int) : Decidable (isBack ch) := by unfold isBack; infer_instance

/-- The loop of `cleanup_children` (`main.cpp`, lines 25-37): the children that
are found running, are killed and are then waited for. -/
def killLoop (env : Env) : List Int → List Int
  | [] => []
  | child_pid :: rest =>
    if env.waitpid_nohang child_pid = 0 then
      if env.kill child_pid = 0 then child_pid :: killLoop env rest
      else killLoop env rest
    else killLoop env rest

/-- The function `cleanup_children` (`main.cpp`, lines 20-39). -/
def cleanup_children (env : Env) (p : Parent) : Parent :=
  if p.children = [] then p
  else { p with killed := p.killed ++ killLoop env p.children, children := [] }

/-- The loop of `start_race_processes` that clears the cells (`main.cpp`, lines
57-60): `n` passes are left and the loop variable is `i`. -/
def clearLoop : Nat → Nat → Shm → Shm
  | 0, _, m => m
  | n + 1, i, m => clearLoop n (i + 1) ((m.write (PID_OFFSET + i) 0).write (POS_OFFSET + i) 0)

/-- The loop of `start_race_processes` that creates the processes (`main.cpp`,
lines 65-82), followed in the parent: `n` passes are left, the loop variable is
`i`. The result is `none` when the process that runs the loop does not come out
of it: `fork` failed and the program exits, or `fork` answered 0 and the
process is the new child, which runs `runRacer` and exits. -/
def forkLoop (env : Env) : Nat → Nat → List Int → Option (List Int)
  | 0, _, children => some children
  | n + 1, i, children =>
    let pid := env.fork i
    if pid = -1 then none
    else if pid = 0 then none
    else forkLoop env n (i + 1) (children ++ [pid])

/-- The function `start_race_processes` (`main.cpp`, lines 45-83), in the
parent. -/
def start_race_processes (env : Env) (p : Parent) : Option Parent :=
  let p1 := cleanup_children env p
  if env.attach_ok = false then some p1
  else
    let m := (clearLoop NUM_RACERS 0 p1.shm).write STATUS_INDEX READY
    match forkLoop env NUM_RACERS 1 p1.children with
    | none => none
    | some children => some { p1 with shm := m, children := children }

/-- The winner scan of `runDisplayParent` (lines 197-202 and 215-220): `n`
passes are left, the loop variable is `i`, and `winner_id` is the value of the
variable when the loop is entered. -/
def winnerScan (m : Shm) : Nat → Nat → Int → Int
  | 0, _, winner_id => winner_id
  | n + 1, i, winner_id =>
    if m.cells (POS_OFFSET + i) ≥ RACE_LENGTH then (i : Int) + 1
    else winnerScan m n (i + 1) winner_id

/-- The time in milliseconds computed from a clock count: `count / 1000000`. -/
def clockMs (count : Int) : Int := Int.tdiv count 1000000

/-- Lines 146-154 of `runDisplayParent`: the handling of Q. -/
def handleQuit (env : Env) (p : Parent) : Parent :=
  if isQuit env.ch then
    if p.shm.cells STATUS_INDEX = RUNNING then { p with shm := p.shm.write STATUS_INDEX PAUSED }
    else { p with shm := p.shm.write STATUS_INDEX EXITING }
  else p

/-- Lines 158-186 of `runDisplayParent`: the handling of the keys of the
current view. -/
def handleView (env : Env) (p : Parent) : Option Parent :=
  if p.current_view = 0 then
    if isStart env.ch then
      if p.shm.cells STATUS_INDEX = READY ∨ p.shm.cells STATUS_INDEX = FINISHED then
        match start_race_processes env p with
        | none => none
        | some p1 =>
          let m := p1.shm.write STATUS_INDEX RUNNING
          some { p1 with shm := { m with start_time := clockMs env.clock_start } }
      else if p.shm.cells STATUS_INDEX = PAUSED then
        some { p with shm := p.shm.write STATUS_INDEX RUNNING }
      else some p
    else if isPause env.ch then
      if p.shm.cells STATUS_INDEX = RUNNING then
        some { p with shm := p.shm.write STATUS_INDEX PAUSED }
      else some p
    else if isResults env.ch then some { p with current_view := 1 }
    else some p
  else
    if isBack env.ch then some { p with current_view := 0 }
    else some p

/-- Lines 190-226 of `runDisplayParent`: logging and drawing. -/
def logAndDraw (env : Env) (p : Parent) : Parent :=
  if p.current_view = 0 then
    let winner_id : Int := 0
    let start_time_ms := p.shm.start_time
    let (p1, winner_id) :=
      if p.shm.cells STATUS_INDEX = FINISHED ∧ start_time_ms ≠ 1 then
        let winner_id := winnerScan p.shm NUM_RACERS 0 winner_id
        let end_time := clockMs env.clock_end
        let duration_ms := end_time - start_time_ms
        ({ p with log := p.log ++ [(winner_id, duration_ms)],
                  shm := { p.shm with start_time := 1 } }, winner_id)
      else (p, winner_id)
    let winner_id :=
      if p1.shm.cells STATUS_INDEX = FINISHED then winnerScan p1.shm NUM_RACERS 0 winner_id
      else winner_id
    { p1 with winner_shown := winner_id }
  else p

/-- One pass of the main loop of `runDisplayParent` (lines 141-230). The result
is `none` when the process does not reach the end of the pass (see
`forkLoop`). -/
def tick (env : Env) (p : Parent) : Option Parent :=
  match handleView env (handleQuit env p) with
  | none => none
  | some p1 => some (logAndDraw env p1)

/-- The main loop of `runDisplayParent` (lines 141-230) over the answers of the
environment pass by pass; it is left when the status is `EXITING`. -/
def displayLoop : List Env → Parent → Option Parent
  | [], p => some p
  | env :: rest, p =>
    if p.shm.cells STATUS_INDEX ≠ EXITING then
      match tick env p with
      | none => none
      | some p1 => displayLoop rest p1
    else some p

/-- The function `runDisplayParent` (lines 123-237): the start time is made 0,
the view is the race view, and the main loop runs. -/
def runDisplayParent (envs : List Env) (p : Parent) : Option Parent :=
  displayLoop envs { p with shm := { p.shm with start_time := 0 }, current_view := 0 }

/-- The function `runRacer` (lines 66-117) run with no other process in
between: the process `pid` takes the slot of racer `racer_id` and makes one
step of its loop for each element of `steps`. -/
def runRacer (racer_id : Nat) (pid : Int) (steps : List Int) (m : Shm) : RacerPc × Shm :=
  racerSteps racer_id steps (RacerPc.loopHead, racerInit racer_id pid m)

/-! ## Processes running side by side -/

/-- What can happen next in the program: the coordinator makes one pass of its
main loop, or the racer process of a slot (slot `i` belongs to racer `i + 1`)
makes one step from some point of its loop with the value `rnd` of `rand()`. -/
inductive Event where
  | coordinator (env : Env)
  | racer (slot : Fin NUM_RACERS) (pc : RacerPc) (rnd : Nat)

/-- The effect of an event on the state of the parent process, which holds
the shared segment. The coordinator makes a pass only while the status is not
`EXITING` (line 141); in that status the event leaves everything as it is. -/
def applyEvent (p : Parent) : Event → Option Parent
  | Event.coordinator env =>
    if p.shm.cells STATUS_INDEX ≠ EXITING then tick env p else some p
  | Event.racer slot pc rnd =>
    some { p with shm := (racerStep (slot.val + 1) (randStep rnd) (pc, p.shm)).2 }

/-- The effect of a sequence of events. -/
def runEvents : List Event → Parent → Option Parent
  | [], p => some p
  | e :: rest, p =>
    match applyEvent p e with
    | none => none
    | some p1 => runEvents rest p1

/-- An event in which the coordinator begins a new race: the start key in the
race view while the status is `READY` or `FINISHED`. -/
def Event.startsRace (p : Parent) : Event → Prop
  | Event.coordinator env =>
    p.current_view = 0 ∧ isStart env.ch ∧
      (p.shm.cells STATUS_INDEX = READY ∨ p.shm.cells STATUS_INDEX = FINISHED)
  | Event.racer _ _ _ => False

/-- The state of the parent process when the main loop of `runDisplayParent`
is entered: `main` has stored `READY` (line 102), `runDisplayParent` has stored
0 as start time (line 134) and `current_view` is 0; nothing is tracked, logged
or shown yet. -/
def Parent.initial (cells : Nat → Int) : Parent :=
  { shm := { cells := fun j => if j = STATUS_INDEX then READY else cells j, start_time := 0 },
    current_view := 0, children := [], log := [], winner_shown := 0, killed := [] }

/-- The states the program can be in: those reached from an initial state by
passes of the coordinator and steps of racer processes. -/
inductive Reachable : Parent → Prop where
  | init (cells : Nat → Int) : Reachable (Parent.initial cells)
  | step (p p1 : Parent) (e : Event) : Reachable p → applyEvent p e = some p1 → Reachable p1

/-- No event of the sequence, run from `p`, begins a new race. -/
def noRaceStart : List Event → Parent → Prop
  | [], _ => True
  | e :: rest, p =>
    ¬ e.startsRace p ∧
      match applyEvent p e with
      | none => True
      | some p1 => noRaceStart rest p1

/-- The state after a sequence of events; the state is left as it is when the
parent process does not come to the end of the sequence. -/
def afterEvents (evs : List Event) (p : Parent) : Parent :=
  (runEvents evs p).getD p

/-- Every `fork` of `start_race_processes` succeeds in the parent: none of the
calls at the loop indices 1..`NUM_RACERS` answers -1 (failure) or 0 (the answer
in the child). -/
def ForksSucceed (env : Env) : Prop :=
  ∀ i : Nat, 1 ≤ i → i ≤ NUM_RACERS → env.fork i ≠ -1 ∧ env.fork i ≠ 0

/-! ## The racer processes and the parent together -/

/-- A racer process created by `fork` in `start_race_processes`: its process
identifier, the racer number handed to `runRacer`, whether it has run lines
73-78 of `runRacer`, and where it stands in the loop. A process at
`RacerPc.done` has left the loop; it detaches and exits, and touches the
segment no more. -/
structure RacerProc where
  pid : Int
  racer_id : Nat
  started : Bool
  pc : RacerPc

/-- One step of a racer process with the step `step`: lines 73-78 of
`runRacer` when it has not run them yet, a step of its loop otherwise. -/
def RacerProc.run (step : Int) (r : RacerProc) (m : Shm) : RacerProc × Shm :=
  if r.started = true then
    ({ r with pc := (racerStep r.racer_id step (r.pc, m)).1 },
      (racerStep r.racer_id step (r.pc, m)).2)
  else ({ r with started := true }, racerInit r.racer_id r.pid m)

/-- The whole program: the parent process with the shared segment, and the
racer processes that have been created and not killed. -/
structure World where
  parent : Parent
  racers : List RacerProc

/-- The pass of the coordinator that is about to run begins a race: the start
key in the race view while the status is `READY` or `FINISHED`. -/
def beginsRace (env : Env) (p : Parent) : Prop :=
  p.current_view = 0 ∧ isStart env.ch ∧
    (p.shm.cells STATUS_INDEX = READY ∨ p.shm.cells STATUS_INDEX = FINISHED)

instance (env : Env) (p : Parent) : Decidable (beginsRace env p) := by
  unfold beginsRace; infer_instance

/-- The answers of the system calls of `cleanup_children` fit the processes:
a racer process that has not left its loop is reported as running by
`waitpid` with `WNOHANG` (answer 0), and `kill` succeeds on it (answer 0). -/
def osConsistent (env : Env) (racers : List RacerProc) : Prop :=
  ∀ r ∈ racers, r.pc ≠ RacerPc.done → env.waitpid_nohang r.pid = 0 ∧ env.kill r.pid = 0

instance (env : Env) (racers : List RacerProc) : Decidable (osConsistent env racers) := by
  unfold osConsistent; infer_instance

/-- The racer processes left after `cleanup_children`: those still in their
loop that the loop of `cleanup_children` has not killed. -/
def survivors (env : Env) (children : List Int) (racers : List RacerProc) : List RacerProc :=
  racers.filter (fun r => decide (r.pc ≠ RacerPc.done ∧ r.pid ∉ killLoop env children))

/-- The processes created by the loop of `start_race_processes` (lines 65-82):
the child of the pass `i` has the identifier that `fork` answered in the
parent and calls `runRacer(i, shmid)`. -/
def newRacers (env : Env) : List RacerProc :=
  (List.range NUM_RACERS).map
    (fun k => { pid := env.fork (1 + k), racer_id := 1 + k, started := false,
                pc := RacerPc.loopHead })

/-- The racer process at place `k` of the list makes one step. -/
def stepAt (step : Int) : Nat → List RacerProc → Shm → Option (List RacerProc × Shm)
  | _, [], _ => none
  | 0, r :: rest, m => some ((r.run step m).1 :: rest, (r.run step m).2)
  | k + 1, r :: rest, m =>
    match stepAt step k rest m with
    | none => none
    | some (rs, m1) => some (r :: rs, m1)

/-- What can happen next in the program: the coordinator makes one pass of its
main loop, or the racer process at place `k` makes one step, in which it draws
the step `step` (in `runRacer` this is `randStep rnd`, a number from 1 to 4). -/
inductive WorldEvent where
  | coordinator (env : Env)
  | racer (k : Nat) (step : Int)

/-- The effect of an event on the program. A pass of the coordinator that
begins a race runs `cleanup_children`, so its system calls must fit the
processes (`osConsistent`); the processes that are not killed stay, and when
the attach succeeds the new ones join them. The result is `none` when the
event cannot happen or the parent process does not reach the end of its
pass. -/
def worldEvent (w : World) : WorldEvent → Option World
  | WorldEvent.coordinator env =>
    if w.parent.shm.cells STATUS_INDEX = EXITING then some w
    else if beginsRace env w.parent then
      if osConsistent env w.racers then
        match tick env w.parent with
        | none => none
        | some p1 =>
          some { parent := p1,
                 racers := survivors env w.parent.children w.racers ++
                   (if env.attach_ok = true then newRacers env else []) }
      else none
    else
      match tick env w.parent with
      | none => none
      | some p1 => some { parent := p1, racers := w.racers }
  | WorldEvent.racer k step =>
    match stepAt step k w.racers w.parent.shm with
    | none => none
    | some (rs, m1) => some { parent := { w.parent with shm := m1 }, racers := rs }

/-- The effect of a sequence of events on the program. -/
def runWorld : List WorldEvent → World → Option World
  | [], w => some w
  | e :: rest, w =>
    match worldEvent w e with
    | none => none
    | some w1 => runWorld rest w1

/-- The program when the main loop of `runDisplayParent` is entered: no racer
process exists yet. -/
def World.initial (cells : Nat → Int) : World :=
  { parent := Parent.initial cells, racers := [] }

/-- The states of the whole program reached from an initial one. -/
inductive WorldReachable : World → Prop where
  | init (cells : Nat → Int) : WorldReachable (World.initial cells)
  | step (w w1 : World) (e : WorldEvent) :
      WorldReachable w → worldEvent w e = some w1 → WorldReachable w1

/-- The positions of the racers 1..`NUM_RACERS` in slot order. -/
def Shm.positions (m : Shm) : List Int :=
  (List.range NUM_RACERS).map (fun i => m.cells (POS_OFFSET + i))

/-- One round of the end-to-end scenario: each racer process in slot order
makes one step with the forced step `step`, then the coordinator makes a pass
with the answers `env`. -/
def forcedRound (step : Int) (env : Env) : List WorldEvent :=
  (List.range NUM_RACERS).map (fun k => WorldEvent.racer k step) ++
    [WorldEvent.coordinator env]

/-- One round of the end-to-end scenario in the other order: the coordinator
makes its pass first, then each racer process in slot order makes one step. -/
def forcedRoundAfter (step : Int) (env : Env) : List WorldEvent :=
  WorldEvent.coordinator env ::
    (List.range NUM_RACERS).map (fun k => WorldEvent.racer k step)

/-- The beginning of the end-to-end scenario: a pass of the coordinator that
reads the start key, after which every new racer process runs lines 73-78 of
`runRacer`. -/
def raceStart (env : Env) : List WorldEvent :=
  WorldEvent.coordinator env :: (List.range NUM_RACERS).map (fun k => WorldEvent.racer k 0)

/-- The end-to-end scenario from a segment of zeros: the pass that starts the
race gets the answers `start`, then there is one round for each element of
`envs`, which holds the answers for the pass of the coordinator in that round;
the step of every racer is forced to `step`. -/
def forcedRace (step : Int) (start : Env) (envs : List Env) : Option World :=
  runWorld (raceStart start ++ (envs.map (forcedRound step)).flatten)
    (World.initial (fun _ => 0))

/-- The end-to-end scenario with the rounds in the other order. -/
def forcedRaceAfter (step : Int) (start : Env) (envs : List Env) : Option World :=
  runWorld (raceStart start ++ (envs.map (forcedRoundAfter step)).flatten)
    (World.initial (fun _ => 0))

/-- The program after a sequence of events; it is left as it is when the
sequence cannot happen to the end. -/
def afterWorld (evs : List WorldEvent) (w : World) : World :=
  (runWorld evs w).getD w

/-- What holds in every reachable state of the program: the racer processes
have racer numbers 1..`NUM_RACERS`, no two of them the same; those still in
their loop are tracked by the parent; under `FINISHED` some position is
`RACE_LENGTH` and the process of that slot has run lines 73-78 of `runRacer`;
every logged winner is a racer number. -/
def WorldInv (w : World) : Prop :=
  (∀ r ∈ w.racers, 1 ≤ r.racer_id ∧ r.racer_id ≤ NUM_RACERS) ∧
  (w.racers.map (fun r => r.racer_id)).Nodup ∧
  (∀ r ∈ w.racers, r.pc ≠ RacerPc.done → r.pid ∈ w.parent.children) ∧
  (w.parent.shm.cells STATUS_INDEX = FINISHED →
    ∃ i, i < NUM_RACERS ∧ w.parent.shm.cells (POS_OFFSET + i) = RACE_LENGTH ∧
      ∀ r ∈ w.racers, r.racer_id = i + 1 → r.started = true) ∧
  (∀ e ∈ w.parent.log, 1 ≤ e.1 ∧ e.1 ≤ (NUM_RACERS : Int))

/-- No key is read: the value of `getch()` is none of the keys the coordinator
looks for. -/
def noKey (ch : Int) : Prop :=
  ¬ isQuit ch ∧ ¬ isStart ch ∧ ¬ isPause ch ∧ ¬ isResults ch ∧ ¬ isBack ch

instance (ch : Int) : Decidable (noKey ch) := by unfold noKey; infer_instance

/-! ## `logRaceResult` (`RaceLogic.cpp`, lines 47-60) -/

/-- The local time that `localtime(&now)` returns, with the fields of
`struct tm` that the format of `logRaceResult` uses. -/
structure Tm where
  /-- years since 1900 -/
  tm_year : Nat
  /-- months since January, 0 to 11 -/
  tm_mon : Nat
  tm_mday : Nat
  tm_hour : Nat
  tm_min : Nat
  tm_sec : Nat

/-- The character of the last decimal digit of `d`. -/
def digitChar (d : Nat) : Char := Char.ofNat (48 + d % 10)

/-- The last `n` decimal digits of `v`, most significant first. -/
def lastDigits : Nat → Nat → List Char
  | 0, _ => []
  | n + 1, v => lastDigits n (v / 10) ++ [digitChar v]

/-- The call `strftime(dt, 20, "%Y-%m-%d %H:%M:%S", localtime(&now))` for a
year of four digits (with more digits the text does not fit the 20 bytes of
`dt`): the year, and the month, day, hour, minute and second with two digits
each. -/
def strftime (tm : Tm) : String :=
  String.mk (lastDigits 4 (tm.tm_year + 1900) ++ ['-'] ++ lastDigits 2 (tm.tm_mon + 1) ++
    ['-'] ++ lastDigits 2 tm.tm_mday ++ [Char.ofNat 32] ++ lastDigits 2 tm.tm_hour ++ [':'] ++
    lastDigits 2 tm.tm_min ++ [':'] ++ lastDigits 2 tm.tm_sec)

/-- Scaling of the fraction `num / den` by powers of two until its integer
part has 53 bits: the result `(num1, den1, e)` has `num / den` equal to
`num1 / den1` times two to the `e`. -/
def scaleBinary : Nat → Nat → Nat → Int → Nat × Nat × Int
  | 0, num, den, e => (num, den, e)
  | fuel + 1, num, den, e =>
    if num / den ≥ 2 ^ 53 then scaleBinary fuel num (2 * den) (e + 1)
    else if num / den < 2 ^ 52 then scaleBinary fuel (2 * num) den (e - 1)
    else (num, den, e)

/-- Rounding of `num / den` to the nearest integer, a tie to the even one. -/
def roundHalfEven (num den : Nat) : Nat :=
  if 2 * (num % den) > den ∨ (2 * (num % den) = den ∧ (num / den) % 2 = 1) then num / den + 1
  else num / den

/-- The `double` nearest to the positive fraction `a / b` (53 significant
bits, a tie to the even one), as a fraction; the fractions met here are far
from the ends of the exponent range of `double`. -/
def nearestDouble (a b : Nat) : Nat × Nat :=
  if a = 0 then (0, 1)
  else
    let s := scaleBinary 2200 a b 0
    let m := roundHalfEven s.1 s.2.1
    if s.2.2 ≥ 0 then (m * 2 ^ s.2.2.toNat, 1) else (m, 2 ^ (-s.2.2).toNat)

/-- The value of `(double)duration_ms / 1000.0` for a duration that is not
negative: the conversion to `double`, then the division of two `double`s. -/
def secondsDouble (duration_ms : Nat) : Nat × Nat :=
  nearestDouble (nearestDouble duration_ms 1).1 ((nearestDouble duration_ms 1).2 * 1000)

/-- The decimal exponent of the positive fraction `a / b`: the `x` with `a / b`
at least ten to the `x` and below ten to the `x + 1`. -/
def decimalExponent : Nat → Nat → Nat → Int → Int
  | 0, _, _, x => x
  | fuel + 1, a, b, x =>
    if a ≥ 10 * b then decimalExponent fuel a (10 * b) (x + 1)
    else if a < b then decimalExponent fuel (10 * a) b (x - 1)
    else x

/-- The fraction `a / b` times ten to the `5 - x`, rounded to an integer. -/
def sixDigits (a b : Nat) (x : Int) : Nat :=
  if x ≤ 5 then roundHalfEven (a * 10 ^ (5 - x).toNat) b
  else roundHalfEven a (b * 10 ^ (x - 5).toNat)

/-- A list of digits without its zeros at the end. -/
def dropZeros (l : List Char) : List Char :=
  (l.reverse.dropWhile (fun c => c == '0')).reverse

/-- The text that `operator<<` of a stream in its default state (no
`floatfield` flag, precision 6) writes for the positive `double` `a / b`: the
conversion `%g` of `printf`. The value is rounded to six significant digits
`s` with decimal exponent `x`; with `x` from -4 to 5 the digits are written
with the decimal point at its place, else as `d.ddddde+xx`; the zeros at the
end of the fraction are dropped, and the point with them when nothing is
left. -/
def streamDouble (a b : Nat) : String :=
  if a = 0 then "0"
  else
    let x0 := decimalExponent 1200 a b 0
    let s0 := sixDigits a b x0
    let s := if s0 ≥ 10 ^ 6 then s0 / 10 else s0
    let x := if s0 ≥ 10 ^ 6 then x0 + 1 else x0
    let ds := lastDigits 6 s
    if x < -4 ∨ x ≥ 6 then
      let frac := dropZeros (ds.drop 1)
      let mant := if frac = [] then ds.take 1 else ds.take 1 ++ ['.'] ++ frac
      let ex := x.natAbs
      let exd := if ex < 100 then lastDigits 2 ex else (Nat.repr ex).data
      String.mk (mant ++ ['e', if x < 0 then '-' else '+'] ++ exd)
    else if x ≥ 0 then
      let frac := dropZeros (ds.drop (x.toNat + 1))
      if frac = [] then String.mk (ds.take (x.toNat + 1))
      else String.mk (ds.take (x.toNat + 1) ++ ['.'] ++ frac)
    else
      String.mk (['0', '.'] ++ List.replicate ((-x).toNat - 1) '0' ++ dropZeros ds)

/-- The text written for `(double)duration_ms / 1000.0`, with the sign in
front for a negative duration. -/
def durationText (duration_ms : Int) : String :=
  if duration_ms < 0 then
    "-" ++ streamDouble (secondsDouble duration_ms.natAbs).1 (secondsDouble duration_ms.natAbs).2
  else streamDouble (secondsDouble duration_ms.natAbs).1 (secondsDouble duration_ms.natAbs).2

/-- The function `logRaceResult` (lines 47-60): the line appended to
`race_results.txt` (without the end of line of `endl`) when the file can be
opened at the local time `tm`, and `none` when it cannot (the error message
goes to `cerr`). -/
def logRaceResult (is_open : Bool) (tm : Tm) (winner_id : Int) (duration_ms : Int) :
    Option String :=
  if is_open = true then
    some (strftime tm ++ " | Winner: Racer " ++ toString winner_id ++ " | Duration: " ++
      durationText duration_ms ++ "s")
  else none

/-- The shape of a text: every decimal digit is replaced by the digit 9. -/
def shape (s : String) : String :=
  String.mk (s.data.map (fun c => if c.isDigit = true then '9' else c))

/-! ## The digits and the layout of `streamDouble` -/

/-- The six significant digits `s` and the decimal exponent `x` that
`streamDouble` writes for the positive fraction `a / b`: the fraction rounded
to `s` times ten to the `x - 5`, with `s` of six digits. -/
def sixSignificant (a b : Nat) : Nat × Int :=
  let x0 := decimalExponent 1200 a b 0
  let s0 := sixDigits a b x0
  (if s0 ≥ 10 ^ 6 then s0 / 10 else s0, if s0 ≥ 10 ^ 6 then x0 + 1 else x0)

/-- The text that `streamDouble` writes for six significant digits `s` with
the decimal exponent `x`. -/
def writeDigits (s : Nat) (x : Int) : String :=
  let ds := lastDigits 6 s
  if x < -4 ∨ x ≥ 6 then
    let frac := dropZeros (ds.drop 1)
    let mant := if frac = [] then ds.take 1 else ds.take 1 ++ ['.'] ++ frac
    let ex := x.natAbs
    let exd := if ex < 100 then lastDigits 2 ex else (Nat.repr ex).data
    String.mk (mant ++ ['e', if x < 0 then '-' else '+'] ++ exd)
  else if x ≥ 0 then
    let frac := dropZeros (ds.drop (x.toNat + 1))
    if frac = [] then String.mk (ds.take (x.toNat + 1))
    else String.mk (ds.take (x.toNat + 1) ++ ['.'] ++ frac)
  else
    String.mk (['0', '.'] ++ List.replicate ((-x).toNat - 1) '0' ++ dropZeros ds)

/-! ## The log line in the words of the specification -/

/-- The decimal numeral of `v`, padded with zeros on the left to `k`
characters. -/
def zeroPadded (k v : Nat) : String :=
  String.mk (List.replicate (k - (toString v).length) '0') ++ toString v

/-- The decimals of `r / 10 ^ k` for `r` below `10 ^ k`: the `k` digits of `r`
without the zeros at the end. -/
def fractionText : Nat → Nat → String
  | 0, _ => ""
  | k + 1, r => if r % 10 = 0 then fractionText k (r / 10) else zeroPadded (k + 1) r

/-- The number `num / 10 ^ k` written in decimal: the whole part, and when the
number is not whole a point and the decimals without zeros at the end. -/
def decimalText (num k : Nat) : String :=
  if num % 10 ^ k = 0 then toString (num / 10 ^ k)
  else toString (num / 10 ^ k) ++ "." ++ fractionText k (num % 10 ^ k)

/-- The local time `tm` written as `YYYY-MM-DD HH:MM:SS`. -/
def stampText (tm : Tm) : String :=
  toString (tm.tm_year + 1900) ++ "-" ++ zeroPadded 2 (tm.tm_mon + 1) ++ "-" ++
    zeroPadded 2 tm.tm_mday ++ " " ++ zeroPadded 2 tm.tm_hour ++ ":" ++
    zeroPadded 2 tm.tm_min ++ ":" ++ zeroPadded 2 tm.tm_sec

/-- The decimal `s` times ten to the `x - 5` is the fraction `a / b` rounded to
six significant digits, `k` being the decade of the fraction: the six digits
`s` are within half a unit of the sixth digit of the fraction, even at a tie,
and `x` is `k`, or `k + 1` when the rounding carries to the next power of
ten. -/
def SixDigitRounding (a b s x k : Nat) : Prop :=
  b * 10 ^ k ≤ a ∧ a < b * 10 ^ (k + 1) ∧ 10 ^ 5 ≤ s ∧ s < 10 ^ 6 ∧ k ≤ x ∧ x ≤ k + 1 ∧
  2 * (s * 10 ^ x * b) ≤ 2 * (a * 10 ^ 5) + 10 ^ k * b ∧
  2 * (a * 10 ^ 5) ≤ 2 * (s * 10 ^ x * b) + 10 ^ k * b ∧
  ((2 * (s * 10 ^ x * b) = 2 * (a * 10 ^ 5) + 10 ^ k * b ∨
    2 * (a * 10 ^ 5) = 2 * (s * 10 ^ x * b) + 10 ^ k * b) → s % 2 = 0)

instance (a b s x k : Nat) : Decidable (SixDigitRounding a b s x k) := by
  unfold SixDigitRounding
  infer_instance

/-! ## Sample inputs -/

/-- A segment with every racer at position `a` and the given status and start
time. -/
def sampleShm (a status start : Int) : Shm :=
  { cells := fun j => if j = STATUS_INDEX then status else if j < NUM_RACERS then a else 0,
    start_time := start }

/-- An environment in which the key `ch` is read, every system call succeeds
and the new processes get the identifiers 1001, 1002, ... -/
def sampleEnv (ch : Int) : Env :=
  { ch := ch, clock_start := 5000000000, clock_end := 17345000000, attach_ok := true,
    fork := fun i => 1000 + (i : Int), waitpid_nohang := fun _ => 0, kill := fun _ => 0 }

/-- An environment in which the key `ch` is read and the first `fork` fails. -/
def failingEnv (ch : Int) : Env :=
  { ch := ch, clock_start := 5000000000, clock_end := 17345000000, attach_ok := true,
    fork := fun _ => -1, waitpid_nohang := fun _ => 0, kill := fun _ => 0 }

/-- A segment under `FINISHED` with racer 1 at 97, racers 2 and 3 both at
`RACE_LENGTH` and racer 4 at 99. -/
def tieShm : Shm :=
  { cells := fun j =>
      if j = 0 then 97 else if j = 1 then 100 else if j = 2 then 100 else if j = 3 then 99
      else if j = STATUS_INDEX then FINISHED else 0,
    start_time := 5000 }

/-- The local time 2026-10-30 09:05:07. -/
def sampleTm : Tm :=
  { tm_year := 126, tm_mon := 9, tm_mday := 30, tm_hour := 9, tm_min := 5, tm_sec := 7 }

/-- A race in which only racer 1 is scheduled: the start, then 25 steps of
racer 1 that each draw the step 4, then a pass of the coordinator without
key. -/
def sampleRace : List WorldEvent :=
  raceStart (sampleEnv 115) ++ List.replicate 25 (WorldEvent.racer 0 (randStep 3)) ++
    [WorldEvent.coordinator (sampleEnv (-1))]

/-- The slot of racer 1. -/
def firstSlot : Fin NUM_RACERS := ⟨0, by decide⟩

/-- A parent process state over `sampleShm` that tracks the children 901..904. -/
def sampleParent (a status start view : Int) : Parent :=
  { shm := sampleShm a status start, current_view := view, children := [901, 902, 903, 904],
    log := [], winner_shown := 0, killed := [] }

/-! ## Basic facts about the shared segment -/

@[simp] theorem write_cells (m : Shm) (k : Nat) (v : Int) (j : Nat) :
    (m.write k v).cells j = if j = k then v else m.cells j := rfl

@[simp] theorem write_start_time (m : Shm) (k : Nat) (v : Int) :
    (m.write k v).start_time = m.start_time := rfl

theorem status_ne : READY ≠ RUNNING ∧ READY ≠ PAUSED ∧ READY ≠ FINISHED ∧ READY ≠ EXITING ∧
    RUNNING ≠ PAUSED ∧ RUNNING ≠ FINISHED ∧ RUNNING ≠ EXITING ∧ PAUSED ≠ FINISHED ∧
    PAUSED ≠ EXITING ∧ FINISHED ≠ EXITING := by
  decide

/-! ## Facts about one pass of the coordinator -/

theorem logAndDraw_cells (env : Env) (p : Parent) :
    (logAndDraw env p).shm.cells = p.shm.cells := by
  unfold logAndDraw
  by_cases hv : p.current_view = 0
  · by_cases hf : p.shm.cells STATUS_INDEX = FINISHED ∧ p.shm.start_time ≠ 1
    · simp [hv, hf]
    · simp [hv, hf]
  · simp [hv]

theorem logAndDraw_children (env : Env) (p : Parent) :
    (logAndDraw env p).children = p.children := by
  unfold logAndDraw
  by_cases hv : p.current_view = 0
  · by_cases hf : p.shm.cells STATUS_INDEX = FINISHED ∧ p.shm.start_time ≠ 1
    · simp [hv, hf]
    · simp [hv, hf]
  · simp [hv]

theorem logAndDraw_current_view (env : Env) (p : Parent) :
    (logAndDraw env p).current_view = p.current_view := by
  unfold logAndDraw
  by_cases hv : p.current_view = 0
  · by_cases hf : p.shm.cells STATUS_INDEX = FINISHED ∧ p.shm.start_time ≠ 1
    · simp [hv, hf]
    · simp [hv, hf]
  · simp [hv]

/-- A pass that does not find `FINISHED` with an unlogged start time when it
comes to logging leaves the start time and the log as they are. -/
theorem logAndDraw_idle (env : Env) (p : Parent)
    (h : ¬ (p.current_view = 0 ∧ p.shm.cells STATUS_INDEX = FINISHED ∧ p.shm.start_time ≠ 1)) :
    (logAndDraw env p).shm = p.shm ∧ (logAndDraw env p).log = p.log := by
  unfold logAndDraw
  by_cases hv : p.current_view = 0
  · have hf : ¬ (p.shm.cells STATUS_INDEX = FINISHED ∧ p.shm.start_time ≠ 1) :=
      fun hf => h ⟨hv, hf⟩
    simp [hv, hf]
  · simp [hv]

/-- A pass that finds `FINISHED` with an unlogged start time in the race view
when it comes to logging calls `logRaceResult` once and marks the start time. -/
theorem logAndDraw_logs (env : Env) (p : Parent)
    (hv : p.current_view = 0) (hf : p.shm.cells STATUS_INDEX = FINISHED)
    (hs : p.shm.start_time ≠ 1) :
    (logAndDraw env p).shm.start_time = 1 ∧
    (logAndDraw env p).log =
      p.log ++ [(winnerScan p.shm NUM_RACERS 0 0, clockMs env.clock_end - p.shm.start_time)] := by
  unfold logAndDraw
  simp [hv, hf, hs]

theorem quit_not_others (ch : Int) (hq : isQuit ch) :
    ¬ isStart ch ∧ ¬ isPause ch ∧ ¬ isResults ch ∧ ¬ isBack ch := by
  unfold isQuit at hq
  unfold isStart isPause isResults isBack
  omega

theorem handleView_quit (env : Env) (p : Parent) (hq : isQuit env.ch) :
    handleView env p = some p := by
  obtain ⟨h1, h2, h3, h4⟩ := quit_not_others env.ch hq
  unfold handleView
  by_cases hv : p.current_view = 0
  · simp [hv, h1, h2, h3]
  · simp [hv, h4]

theorem tick_quit (env : Env) (p : Parent) (hq : isQuit env.ch) :
    tick env p = some (logAndDraw env (handleQuit env p)) := by
  unfold tick
  rw [handleView_quit env _ hq]

theorem handleQuit_status (env : Env) (p : Parent) (hq : isQuit env.ch) :
    (handleQuit env p).shm.cells STATUS_INDEX =
      if p.shm.cells STATUS_INDEX = RUNNING then PAUSED else EXITING := by
  unfold handleQuit
  by_cases hr : p.shm.cells STATUS_INDEX = RUNNING <;> simp [hq, hr]

/-- Claim C1. For every state of the coordinator (any cells, any view), a
pass that reads the quit key ends, with status `PAUSED` when the status was
`RUNNING` and with status `EXITING` when it was `READY`, `PAUSED` or
`FINISHED`; so from `RUNNING` the first quit pass does not end in `EXITING`
and a second quit pass right after it does. -/
theorem quit_pauses_then_exits (env : Env) (p : Parent) (hq : isQuit env.ch) :
    ∃ p1, tick env p = some p1 ∧
      (p.shm.status = RUNNING → p1.shm.status = PAUSED) ∧
      (p.shm.status = READY ∨ p.shm.status = PAUSED ∨ p.shm.status = FINISHED →
        p1.shm.status = EXITING) ∧
      (p.shm.status = RUNNING → ∀ env2 : Env, isQuit env2.ch →
        ∃ p2, tick env2 p1 = some p2 ∧ p1.shm.status ≠ EXITING ∧ p2.shm.status = EXITING) := by
  have key : ∀ (e : Env) (q : Parent), isQuit e.ch →
      (logAndDraw e (handleQuit e q)).shm.status =
        if q.shm.cells STATUS_INDEX = RUNNING then PAUSED else EXITING := by
    intro e q he
    unfold Shm.status
    rw [logAndDraw_cells, handleQuit_status e q he]
  obtain ⟨n1, n2, n3, n4, n5, n6, n7, n8, n9, n10⟩ := status_ne
  refine ⟨logAndDraw env (handleQuit env p), tick_quit env p hq, ?_, ?_, ?_⟩
  · intro hr
    rw [key env p hq]
    unfold Shm.status at hr
    simp [hr]
  · intro h
    rw [key env p hq]
    unfold Shm.status at h
    have hne : p.shm.cells STATUS_INDEX ≠ RUNNING := by
      rcases h with h | h | h <;> rw [h]
      · exact n1
      · exact fun h => n5 h.symm
      · exact fun h => n6 h.symm
    simp [hne]
  · intro hr env2 hq2
    unfold Shm.status at hr
    have h1 : (logAndDraw env (handleQuit env p)).shm.status = PAUSED := by
      rw [key env p hq]
      simp [hr]
    refine ⟨logAndDraw env2 (handleQuit env2 (logAndDraw env (handleQuit env p))),
      tick_quit env2 _ hq2, ?_, ?_⟩
    · rw [h1]
      exact n9
    · rw [key env2 _ hq2]
      unfold Shm.status at h1
      rw [h1]
      exact if_neg (fun h : PAUSED = RUNNING => n5 h.symm)

/-- Claim C1 at a sample: all racers at 40, status `RUNNING`, results view,
the key Q. -/
theorem quit_pauses_then_exits_witness :
    ∃ p1, tick (sampleEnv 81) (sampleParent 40 RUNNING 5000 1) = some p1 ∧
      ((sampleParent 40 RUNNING 5000 1).shm.status = RUNNING → p1.shm.status = PAUSED) ∧
      ((sampleParent 40 RUNNING 5000 1).shm.status = READY ∨
        (sampleParent 40 RUNNING 5000 1).shm.status = PAUSED ∨
        (sampleParent 40 RUNNING 5000 1).shm.status = FINISHED → p1.shm.status = EXITING) ∧
      ((sampleParent 40 RUNNING 5000 1).shm.status = RUNNING → ∀ env2 : Env, isQuit env2.ch →
        ∃ p2, tick env2 p1 = some p2 ∧ p1.shm.status ≠ EXITING ∧ p2.shm.status = EXITING) :=
  quit_pauses_then_exits (sampleEnv 81) (sampleParent 40 RUNNING 5000 1) (Or.inr rfl)

/-! ## Facts about `start_race_processes` -/

theorem cleanup_children_shm (env : Env) (p : Parent) :
    (cleanup_children env p).shm = p.shm := by
  unfold cleanup_children
  by_cases h : p.children = [] <;> simp [h]

theorem cleanup_children_children (env : Env) (p : Parent) :
    (cleanup_children env p).children = [] := by
  unfold cleanup_children
  by_cases h : p.children = [] <;> simp [h]

theorem cleanup_children_view (env : Env) (p : Parent) :
    (cleanup_children env p).current_view = p.current_view ∧
    (cleanup_children env p).log = p.log := by
  unfold cleanup_children
  by_cases h : p.children = [] <;> simp [h]

theorem clearLoop_start_time (n i : Nat) (m : Shm) :
    (clearLoop n i m).start_time = m.start_time := by
  induction n generalizing i m with
  | zero => rfl
  | succ n ih =>
    unfold clearLoop
    rw [ih]
    rfl

theorem clearLoop_keeps_zero (n i : Nat) (m : Shm) (j : Nat) (h : m.cells j = 0) :
    (clearLoop n i m).cells j = 0 := by
  induction n generalizing i m with
  | zero => exact h
  | succ n ih =>
    unfold clearLoop
    apply ih
    simp only [write_cells]
    split_ifs <;> first | rfl | exact h

theorem clearLoop_cleared (n i : Nat) (m : Shm) (k : Nat) (h1 : i ≤ k) (h2 : k < i + n) :
    (clearLoop n i m).cells (PID_OFFSET + k) = 0 ∧ (clearLoop n i m).cells (POS_OFFSET + k) = 0 := by
  induction n generalizing i m with
  | zero => omega
  | succ n ih =>
    unfold clearLoop
    by_cases hk : k = i
    · subst hk
      constructor
      · apply clearLoop_keeps_zero
        simp only [write_cells]
        split_ifs <;> rfl
      · apply clearLoop_keeps_zero
        simp only [write_cells]
        split_ifs <;> rfl
    · exact ih (i + 1) _ (by omega) (by omega)

theorem clearLoop_other (n i : Nat) (m : Shm) (j : Nat)
    (h : ∀ k, i ≤ k → k < i + n → j ≠ PID_OFFSET + k ∧ j ≠ POS_OFFSET + k) :
    (clearLoop n i m).cells j = m.cells j := by
  induction n generalizing i m with
  | zero => rfl
  | succ n ih =>
    unfold clearLoop
    rw [ih (i + 1) _ (fun k hk1 hk2 => h k (by omega) (by omega))]
    have := h i (le_refl i) (by omega)
    simp only [write_cells]
    rw [if_neg this.2, if_neg this.1]

theorem forkLoop_ok (env : Env) (n i : Nat) (children : List Int)
    (h : ∀ k, i ≤ k → k < i + n → env.fork k ≠ -1 ∧ env.fork k ≠ 0) :
    forkLoop env n i children =
      some (children ++ (List.range n).map (fun k => env.fork (i + k))) := by
  induction n generalizing i children with
  | zero => simp [forkLoop]
  | succ n ih =>
    unfold forkLoop
    have hi := h i (le_refl i) (by omega)
    simp only [hi.1, hi.2, if_false]
    rw [ih (i + 1) _ (fun k hk1 hk2 => h k (by omega) (by omega))]
    rw [List.range_succ_eq_map]
    simp only [List.map_cons, List.map_map, List.append_assoc, List.singleton_append,
      Nat.add_zero]
    congr 3
    apply List.map_congr_left
    intro k _
    simp only [Function.comp_apply]
    congr 1
    omega

theorem forkLoop_fails (env : Env) (n i : Nat) (children : List Int) (h : env.fork i = -1) :
    forkLoop env (n + 1) i children = none := by
  unfold forkLoop
  simp [h]

/-- What `start_race_processes` leaves in the parent when the attach and every
`fork` succeed. -/
theorem start_race_processes_ok (env : Env) (p : Parent) (ha : env.attach_ok = true)
    (hf : ForksSucceed env) :
    start_race_processes env p =
      some { cleanup_children env p with
        shm := (clearLoop NUM_RACERS 0 p.shm).write STATUS_INDEX READY,
        children := (List.range NUM_RACERS).map (fun k => env.fork (1 + k)) } := by
  unfold start_race_processes
  have h := forkLoop_ok env NUM_RACERS 1 (cleanup_children env p).children
    (fun k hk1 hk2 => hf k hk1 (by omega))
  simp only [ha, Bool.true_eq_false, if_false]
  rw [h, cleanup_children_children, cleanup_children_shm]
  rfl

/-- Without the attach, `start_race_processes` only forgets the children. -/
theorem start_race_processes_no_attach (env : Env) (p : Parent) (ha : env.attach_ok = false) :
    start_race_processes env p = some (cleanup_children env p) := by
  unfold start_race_processes
  simp [ha]

/-- With the attach and every `fork` succeeding, or without the attach,
`start_race_processes` returns, and keeps the start time. -/
theorem start_race_processes_returns (env : Env) (p : Parent)
    (hf : env.attach_ok = true → ForksSucceed env) :
    ∃ p1, start_race_processes env p = some p1 ∧ p1.shm.start_time = p.shm.start_time ∧
      p1.current_view = p.current_view ∧ p1.log = p.log := by
  by_cases ha : env.attach_ok = true
  · refine ⟨_, start_race_processes_ok env p ha (hf ha), ?_, ?_, ?_⟩
    · simp only [write_start_time, clearLoop_start_time]
    · exact (cleanup_children_view env p).1
    · exact (cleanup_children_view env p).2
  · have ha2 : env.attach_ok = false := by simpa using ha
    refine ⟨_, start_race_processes_no_attach env p ha2, ?_, ?_, ?_⟩
    · rw [cleanup_children_shm]
    · exact (cleanup_children_view env p).1
    · exact (cleanup_children_view env p).2

/-! ## The start key -/

theorem handleQuit_not_quit (env : Env) (p : Parent) (hq : ¬ isQuit env.ch) :
    handleQuit env p = p := by
  unfold handleQuit
  simp [hq]

theorem start_not_quit (ch : Int) (hs : isStart ch) : ¬ isQuit ch := by
  unfold isStart at hs
  unfold isQuit
  omega

/-- A status other than `FINISHED` when logging comes leaves the segment as it is. -/
theorem logAndDraw_not_finished (env : Env) (p : Parent)
    (h : p.shm.cells STATUS_INDEX ≠ FINISHED) :
    (logAndDraw env p).shm = p.shm ∧ (logAndDraw env p).log = p.log :=
  logAndDraw_idle env p (fun hh => h hh.2.1)

/-- Claim C2, as amended. In the race view (`current_view = 0`), when the
status is `READY`, `PAUSED` or `FINISHED` and, for `READY` and `FINISHED`, no
process creation fails, a pass that reads the start key ends with status
`RUNNING`; from `PAUSED` no other
cell of the segment and not the start time changes; from `READY` or `FINISHED`
the start time is the clock reading in milliseconds. -/
theorem start_key_in_race_view (env : Env) (p : Parent)
    (hv : p.current_view = 0) (hs : isStart env.ch)
    (hst : p.shm.status = READY ∨ p.shm.status = PAUSED ∨ p.shm.status = FINISHED)
    (hf : p.shm.status = READY ∨ p.shm.status = FINISHED → env.attach_ok = true →
      ForksSucceed env) :
    ∃ p1, tick env p = some p1 ∧ p1.shm.status = RUNNING ∧
      (p.shm.status = PAUSED →
        p1.shm.start_time = p.shm.start_time ∧
        ∀ j, j ≠ STATUS_INDEX → p1.shm.cells j = p.shm.cells j) ∧
      (p.shm.status = READY ∨ p.shm.status = FINISHED →
        p1.shm.start_time = clockMs env.clock_start) := by
  obtain ⟨n1, n2, n3, n4, n5, n6, n7, n8, n9, n10⟩ := status_ne
  unfold Shm.status at hst hf
  unfold Shm.status
  unfold tick
  rw [handleQuit_not_quit env p (start_not_quit _ hs)]
  by_cases hrf : p.shm.cells STATUS_INDEX = READY ∨ p.shm.cells STATUS_INDEX = FINISHED
  · obtain ⟨q, hq, -, -, -⟩ := start_race_processes_returns env p (hf hrf)
    have hview : handleView env p = some { q with shm :=
        { q.shm.write STATUS_INDEX RUNNING with start_time := clockMs env.clock_start } } := by
      unfold handleView
      simp only [hv, hs, hrf, if_true, hq]
    rw [hview]
    have hnf : ({ q with shm := { q.shm.write STATUS_INDEX RUNNING with
        start_time := clockMs env.clock_start } } : Parent).shm.cells STATUS_INDEX ≠ FINISHED := by
      simp only [write_cells, if_true]
      exact n6
    refine ⟨_, rfl, ?_, ?_, ?_⟩
    · rw [(logAndDraw_not_finished env _ hnf).1]
      simp only [write_cells, if_true]
    · intro hp
      rcases hrf with h | h
      · exact absurd (hp.symm.trans h) (fun h => n2 h.symm)
      · exact absurd (hp.symm.trans h) n8
    · intro _
      rw [(logAndDraw_not_finished env _ hnf).1]
  · have hp : p.shm.cells STATUS_INDEX = PAUSED := by
      rcases hst with h | h | h
      · exact absurd (Or.inl h) hrf
      · exact h
      · exact absurd (Or.inr h) hrf
    have hview : handleView env p = some { p with shm := p.shm.write STATUS_INDEX RUNNING } := by
      unfold handleView
      rw [if_pos hv, if_pos hs, if_neg hrf, if_pos hp]
    rw [hview]
    have hnf : ({ p with shm := p.shm.write STATUS_INDEX RUNNING } : Parent).shm.cells
        STATUS_INDEX ≠ FINISHED := by
      simp only [write_cells, if_true]
      exact n6
    refine ⟨_, rfl, ?_, ?_, ?_⟩
    · rw [(logAndDraw_not_finished env _ hnf).1]
      simp only [write_cells, if_true]
    · intro _
      rw [(logAndDraw_not_finished env _ hnf).1]
      refine ⟨rfl, ?_⟩
      intro j hj
      simp only [write_cells, if_neg hj]
    · intro h
      exact absurd h hrf

/-- Claim C2 as stated fails. In the results view (`current_view = 1`) a pass
that reads the start key with status `READY` ends with status `READY`, not
`RUNNING`; and in the race view a pass in which `fork` fails does not end. -/
theorem start_key_counterexample :
    isStart (sampleEnv 115).ch ∧ (sampleParent 0 READY 0 1).shm.status = READY ∧
    (tick (sampleEnv 115) (sampleParent 0 READY 0 1)).map (fun p1 => p1.shm.status) =
      some READY ∧ READY ≠ RUNNING ∧
    tick (failingEnv 115) (sampleParent 0 READY 0 0) = none := by
  refine ⟨Or.inl rfl, rfl, ?_, by decide, ?_⟩
  · rfl
  · rfl

/-- Claim C2 as amended, at a sample: all racers at 100, status `FINISHED`,
race view, the key s. -/
theorem start_key_in_race_view_witness :
    ∃ p1, tick (sampleEnv 115) (sampleParent 100 FINISHED 1 0) = some p1 ∧
      p1.shm.status = RUNNING ∧
      ((sampleParent 100 FINISHED 1 0).shm.status = PAUSED →
        p1.shm.start_time = (sampleParent 100 FINISHED 1 0).shm.start_time ∧
        ∀ j, j ≠ STATUS_INDEX → p1.shm.cells j = (sampleParent 100 FINISHED 1 0).shm.cells j) ∧
      ((sampleParent 100 FINISHED 1 0).shm.status = READY ∨
        (sampleParent 100 FINISHED 1 0).shm.status = FINISHED →
        p1.shm.start_time = clockMs (sampleEnv 115).clock_start) :=
  start_key_in_race_view (sampleEnv 115) (sampleParent 100 FINISHED 1 0) rfl (Or.inl rfl)
    (Or.inr (Or.inr rfl))
    (fun _ _ i h1 _ => by
      have e : (sampleEnv 115).fork i = 1000 + (i : Int) := rfl
      rw [e]
      constructor <;> omega)

/-! ## Keys without effect -/

theorem logAndDraw_killed (env : Env) (p : Parent) :
    (logAndDraw env p).killed = p.killed := by
  unfold logAndDraw
  by_cases hv : p.current_view = 0
  · by_cases hf : p.shm.cells STATUS_INDEX = FINISHED ∧ p.shm.start_time ≠ 1
    · simp [hv, hf]
    · simp [hv, hf]
  · simp [hv]

theorem pause_not_others (ch : Int) (hp : isPause ch) :
    ¬ isQuit ch ∧ ¬ isStart ch ∧ ¬ isResults ch ∧ ¬ isBack ch := by
  unfold isPause at hp
  unfold isQuit isStart isResults isBack
  omega

theorem start_not_others (ch : Int) (hs : isStart ch) :
    ¬ isQuit ch ∧ ¬ isPause ch ∧ ¬ isResults ch ∧ ¬ isBack ch := by
  unfold isStart at hs
  unfold isQuit isPause isResults isBack
  omega

/-- Claim C3. A pass that reads the pause key while the status is `READY`,
`PAUSED` or `FINISHED`, and a pass that reads the start key while the status is
`RUNNING`, end with the status unchanged, in every view; the tracked children
are the same (nothing is spawned, nothing is killed) and every cell of the
segment, so every position and owner, is unchanged. -/
theorem keys_without_effect (env : Env) (p : Parent)
    (h : (isPause env.ch ∧
          (p.shm.status = READY ∨ p.shm.status = PAUSED ∨ p.shm.status = FINISHED)) ∨
        (isStart env.ch ∧ p.shm.status = RUNNING)) :
    ∃ p1, tick env p = some p1 ∧ p1.shm.status = p.shm.status ∧
      p1.children = p.children ∧ p1.killed = p.killed ∧
      ∀ j, p1.shm.cells j = p.shm.cells j := by
  obtain ⟨n1, n2, n3, n4, n5, n6, n7, n8, n9, n10⟩ := status_ne
  unfold Shm.status at h
  have hview : handleView env p = some p := by
    unfold handleView
    rcases h with ⟨hp, hst⟩ | ⟨hs, hst⟩
    · obtain ⟨-, k2, k3, k4⟩ := pause_not_others _ hp
      have hnr : p.shm.cells STATUS_INDEX ≠ RUNNING := by
        rcases hst with h | h | h <;> rw [h]
        · exact n1
        · exact fun h => n5 h.symm
        · exact fun h => n6 h.symm
      by_cases hv : p.current_view = 0
      · rw [if_pos hv, if_neg k2, if_pos hp, if_neg hnr]
      · rw [if_neg hv, if_neg k4]
    · obtain ⟨-, k2, k3, k4⟩ := start_not_others _ hs
      have h1 : ¬ (p.shm.cells STATUS_INDEX = READY ∨ p.shm.cells STATUS_INDEX = FINISHED) := by
        rw [hst]
        rintro (h | h)
        · exact n1 h.symm
        · exact n6 h
      have h2 : p.shm.cells STATUS_INDEX ≠ PAUSED := by
        rw [hst]
        exact n5
      by_cases hv : p.current_view = 0
      · rw [if_pos hv, if_pos hs, if_neg h1, if_neg h2]
      · rw [if_neg hv, if_neg k4]
  have hquit : handleQuit env p = p := by
    apply handleQuit_not_quit
    rcases h with ⟨hp, -⟩ | ⟨hs, -⟩
    · exact (pause_not_others _ hp).1
    · exact (start_not_others _ hs).1
  refine ⟨logAndDraw env p, ?_, ?_, logAndDraw_children env p, logAndDraw_killed env p, ?_⟩
  · unfold tick
    rw [hquit, hview]
  · unfold Shm.status
    rw [logAndDraw_cells]
  · intro j
    rw [logAndDraw_cells]

/-- Claim C3 at a sample: all racers at 100, status `FINISHED`, race view,
the key p. -/
theorem keys_without_effect_witness :
    ∃ p1, tick (sampleEnv 112) (sampleParent 100 FINISHED 5000 0) = some p1 ∧
      p1.shm.status = (sampleParent 100 FINISHED 5000 0).shm.status ∧
      p1.children = (sampleParent 100 FINISHED 5000 0).children ∧
      p1.killed = (sampleParent 100 FINISHED 5000 0).killed ∧
      ∀ j, p1.shm.cells j = (sampleParent 100 FINISHED 5000 0).shm.cells j :=
  keys_without_effect (sampleEnv 112) (sampleParent 100 FINISHED 5000 0)
    (Or.inl ⟨Or.inl rfl, Or.inr (Or.inr rfl)⟩)

/-! ## The winner scan -/

theorem winnerScan_found (m : Shm) (n i : Nat) (w : Int) (k : Nat) (h1 : i ≤ k)
    (h2 : k < i + n) (hk : m.cells (POS_OFFSET + k) ≥ RACE_LENGTH)
    (hbefore : ∀ j, i ≤ j → j < k → m.cells (POS_OFFSET + j) < RACE_LENGTH) :
    winnerScan m n i w = (k : Int) + 1 := by
  induction n generalizing i with
  | zero => omega
  | succ n ih =>
    unfold winnerScan
    by_cases hi : k = i
    · subst hi
      rw [if_pos hk]
    · have hlt : m.cells (POS_OFFSET + i) < RACE_LENGTH := hbefore i (le_refl i) (by omega)
      rw [if_neg (by omega)]
      exact ih (i + 1) (by omega) (by omega) (fun j hj1 hj2 => hbefore j (by omega) hj2)

theorem winnerScan_none (m : Shm) (n i : Nat) (w : Int)
    (h : ∀ k, i ≤ k → k < i + n → m.cells (POS_OFFSET + k) < RACE_LENGTH) :
    winnerScan m n i w = w := by
  induction n generalizing i with
  | zero => rfl
  | succ n ih =>
    unfold winnerScan
    have hi := h i (le_refl i) (by omega)
    rw [if_neg (by omega)]
    exact ih (i + 1) (fun k hk1 hk2 => h k (by omega) (by omega))

/-- The scan returns the value it was entered with, or the number of a racer
of the scanned range that is at the finish. -/
theorem winnerScan_cases (m : Shm) (n i : Nat) (w : Int) :
    (winnerScan m n i w = w ∧ ∀ k, i ≤ k → k < i + n → m.cells (POS_OFFSET + k) < RACE_LENGTH) ∨
    ∃ k, i ≤ k ∧ k < i + n ∧ m.cells (POS_OFFSET + k) ≥ RACE_LENGTH ∧
      (∀ j, i ≤ j → j < k → m.cells (POS_OFFSET + j) < RACE_LENGTH) ∧
      ∀ w1, winnerScan m n i w1 = (k : Int) + 1 := by
  induction n generalizing i with
  | zero =>
    left
    exact ⟨rfl, fun k hk1 hk2 => by omega⟩
  | succ n ih =>
    by_cases hi : m.cells (POS_OFFSET + i) ≥ RACE_LENGTH
    · right
      refine ⟨i, le_refl i, by omega, hi, fun j hj1 hj2 => by omega, fun w1 => ?_⟩
      unfold winnerScan
      rw [if_pos hi]
    · rcases ih (i + 1) with ⟨h1, h2⟩ | ⟨k, hk1, hk2, hk3, hk4, hk5⟩
      · left
        constructor
        · unfold winnerScan
          rw [if_neg hi]
          exact h1
        · intro k hk1 hk2
          by_cases hki : k = i
          · subst hki
            omega
          · exact h2 k (by omega) (by omega)
      · right
        refine ⟨k, by omega, by omega, hk3, ?_, fun w1 => ?_⟩
        · intro j hj1 hj2
          by_cases hji : j = i
          · subst hji
            omega
          · exact hk4 j (by omega) hj2
        · unfold winnerScan
          rw [if_neg hi]
          exact hk5 w1

/-- The scan does not depend on the value it is entered with once that value
is its own result from 0. -/
theorem winnerScan_again (m : Shm) (n i : Nat) :
    winnerScan m n i (winnerScan m n i 0) = winnerScan m n i 0 := by
  rcases winnerScan_cases m n i 0 with ⟨h1, h2⟩ | ⟨k, -, -, -, -, hk⟩
  · rw [h1]
    exact winnerScan_none m n i 0 h2
  · rw [hk, hk]

/-- Claim C4. The winner scan over the `NUM_RACERS` positions returns `i + 1`
for the smallest slot `i` whose position is at least `RACE_LENGTH`, and 0
exactly when no position is at least `RACE_LENGTH`; and in a pass that logs,
the winner that is logged (first scan) and the winner that is shown (second
scan) are the same, as is the winner shown in a later pass on the same
positions. -/
theorem winner_is_lowest_slot (m : Shm) :
    (∀ i, i < NUM_RACERS → m.position i ≥ RACE_LENGTH →
      (∀ j, j < i → m.position j < RACE_LENGTH) →
      winnerScan m NUM_RACERS 0 0 = (i : Int) + 1) ∧
    (winnerScan m NUM_RACERS 0 0 = 0 ↔ ∀ i, i < NUM_RACERS → m.position i < RACE_LENGTH) ∧
    (∀ (env : Env) (p : Parent), p.shm = m → p.current_view = 0 → m.status = FINISHED →
      (logAndDraw env p).winner_shown = winnerScan m NUM_RACERS 0 0 ∧
      (m.start_time ≠ 1 → (logAndDraw env p).log =
        p.log ++ [(winnerScan m NUM_RACERS 0 0, clockMs env.clock_end - m.start_time)])) := by
  refine ⟨?_, ?_, ?_⟩
  · intro i hi hpos hbefore
    exact winnerScan_found m NUM_RACERS 0 0 i (Nat.zero_le i) (by omega) hpos
      (fun j _ hj => hbefore j hj)
  · constructor
    · intro h0 i hi
      rcases winnerScan_cases m NUM_RACERS 0 0 with ⟨-, h2⟩ | ⟨k, -, -, -, -, hk⟩
      · exact h2 i (Nat.zero_le i) (by omega)
      · rw [hk 0] at h0
        omega
    · intro h
      exact winnerScan_none m NUM_RACERS 0 0 (fun k _ hk => h k (by omega))
  · intro env p hp hv hf
    subst hp
    unfold Shm.status at hf
    constructor
    · unfold logAndDraw
      by_cases hs : p.shm.start_time ≠ 1
      · simp only [hv, hf, hs, if_true, and_self, ne_eq, not_false_eq_true]
        exact winnerScan_again p.shm NUM_RACERS 0
      · simp only [hv, hf, hs, if_true, and_false, if_false]
    · intro hs
      exact (logAndDraw_logs env p hv hf hs).2

/-- Claim C4 at a sample: racers 2 and 3 are both at `RACE_LENGTH`, racer 1 is
not; the scan returns 2. -/
theorem winner_is_lowest_slot_witness :
    winnerScan tieShm NUM_RACERS 0 0 = ((1 : Nat) : Int) + 1 :=
  (winner_is_lowest_slot tieShm).1 1 (by decide) (by decide)
    (fun j hj => by
      have hj0 : j = 0 := by omega
      subst hj0
      decide)

/-! ## Facts about one step of a racer -/

/-- The position cell of a racer 1..`NUM_RACERS` is none of the owner cells
and not the status cell. -/
theorem position_index_lt (racer_id : Nat) (h1 : 1 ≤ racer_id) (h2 : racer_id ≤ NUM_RACERS) :
    POS_OFFSET + racer_id - 1 < PID_OFFSET ∧ POS_OFFSET + racer_id - 1 ≠ STATUS_INDEX ∧
    POS_OFFSET + racer_id - 1 = POS_OFFSET + (racer_id - 1) := by
  unfold POS_OFFSET PID_OFFSET STATUS_INDEX
  unfold NUM_RACERS at *
  omega

theorem racerMove_start_time (racer_id : Nat) (step : Int) (m : Shm) :
    (racerMove racer_id step m).start_time = m.start_time := by
  unfold racerMove
  simp only []
  split_ifs <;> rfl

theorem racerMove_cells_other (racer_id : Nat) (step : Int) (m : Shm) (j : Nat)
    (h1 : j ≠ POS_OFFSET + racer_id - 1) (h2 : j ≠ STATUS_INDEX) :
    (racerMove racer_id step m).cells j = m.cells j := by
  unfold racerMove
  simp only []
  split_ifs <;> simp only [write_cells, if_neg h1, if_neg h2]

/-- The position after the advance is the old position plus the step, clamped
to `RACE_LENGTH`. -/
theorem racerMove_position (racer_id : Nat) (step : Int) (m : Shm)
    (hne : POS_OFFSET + racer_id - 1 ≠ STATUS_INDEX) :
    (racerMove racer_id step m).cells (POS_OFFSET + racer_id - 1) =
      min (m.cells (POS_OFFSET + racer_id - 1) + step) RACE_LENGTH := by
  unfold racerMove
  simp only [write_cells, if_true]
  by_cases hge : m.cells (POS_OFFSET + racer_id - 1) + step ≥ RACE_LENGTH
  · rw [if_pos hge, min_eq_right hge]
    split_ifs <;> simp only [write_cells, if_true, if_neg hne]
  · rw [if_neg hge, min_eq_left (by omega)]
    simp only [write_cells, if_true]

/-- The status after the advance is the old status, or `FINISHED` in place of
`RUNNING` with the position clamped to `RACE_LENGTH`. -/
theorem racerMove_status (racer_id : Nat) (step : Int) (m : Shm)
    (hne : POS_OFFSET + racer_id - 1 ≠ STATUS_INDEX) :
    (racerMove racer_id step m).cells STATUS_INDEX = m.cells STATUS_INDEX ∨
    (m.cells STATUS_INDEX = RUNNING ∧
      (racerMove racer_id step m).cells STATUS_INDEX = FINISHED ∧
      m.cells (POS_OFFSET + racer_id - 1) + step ≥ RACE_LENGTH ∧
      (racerMove racer_id step m).cells (POS_OFFSET + racer_id - 1) = RACE_LENGTH) := by
  have hne2 : STATUS_INDEX ≠ POS_OFFSET + racer_id - 1 := fun h => hne h.symm
  unfold racerMove
  simp only [write_cells, if_true, if_neg hne2]
  by_cases hge : m.cells (POS_OFFSET + racer_id - 1) + step ≥ RACE_LENGTH
  · rw [if_pos hge]
    by_cases hr : m.cells STATUS_INDEX = RUNNING
    · right
      rw [if_pos hr]
      refine ⟨hr, ?_, hge, ?_⟩
      · simp only [write_cells, if_true]
      · simp only [write_cells, if_true, if_neg hne]
    · left
      rw [if_neg hr]
      simp only [write_cells, if_neg hne2]
  · left
    rw [if_neg hge]
    simp only [write_cells, if_neg hne2]

/-- A racer step is the advance `racerMove` when the racer is in its loop, the
status is `RUNNING` and (at the head of the loop) the racer is short of the
finish; any other step leaves the segment as it is. -/
theorem racerStep_cases (racer_id : Nat) (step : Int) (pc : RacerPc) (m : Shm) :
    (racerStep racer_id step (pc, m)).2 = m ∨
    (m.cells STATUS_INDEX = RUNNING ∧ pc ≠ RacerPc.done ∧
      (racerStep racer_id step (pc, m)).2 = racerMove racer_id step m) := by
  have hbody : (racerBody racer_id step m).2 = m ∨
      (m.cells STATUS_INDEX = RUNNING ∧
        (racerBody racer_id step m).2 = racerMove racer_id step m) := by
    unfold racerBody
    by_cases hr : m.cells STATUS_INDEX = RUNNING
    · right
      rw [if_pos hr]
      exact ⟨hr, rfl⟩
    · left
      rw [if_neg hr]
      split_ifs <;> rfl
  cases pc with
  | loopHead =>
    simp only [racerStep]
    split_ifs
    · left; rfl
    · rcases hbody with h | ⟨h1, h2⟩
      · left; exact h
      · right; exact ⟨h1, by decide, h2⟩
    · left; rfl
  | pauseWait =>
    simp only [racerStep]
    split_ifs
    · left; rfl
    · rcases hbody with h | ⟨h1, h2⟩
      · left; exact h
      · right; exact ⟨h1, by decide, h2⟩
  | done =>
    left
    rfl

theorem racerStep_start_time (racer_id : Nat) (step : Int) (pc : RacerPc) (m : Shm) :
    (racerStep racer_id step (pc, m)).2.start_time = m.start_time := by
  rcases racerStep_cases racer_id step pc m with h | ⟨-, -, h⟩
  · rw [h]
  · rw [h, racerMove_start_time]

/-- A step under a status other than `RUNNING` leaves the segment as it is. -/
theorem racerStep_not_running (racer_id : Nat) (step : Int) (pc : RacerPc) (m : Shm)
    (h : m.cells STATUS_INDEX ≠ RUNNING) :
    (racerStep racer_id step (pc, m)).2 = m := by
  rcases racerStep_cases racer_id step pc m with h1 | ⟨h1, -, -⟩
  · exact h1
  · exact absurd h1 h

/-! ## Logging of the result -/

theorem handleQuit_frame (env : Env) (p : Parent) :
    (handleQuit env p).log = p.log ∧
    (handleQuit env p).shm.start_time = p.shm.start_time ∧
    (handleQuit env p).current_view = p.current_view := by
  unfold handleQuit
  split_ifs <;> exact ⟨rfl, rfl, rfl⟩

/-- The key handling of a pass that does not begin a race returns and keeps
the log and the start time. -/
theorem handle_no_start (env : Env) (p : Parent)
    (h : ¬ (p.current_view = 0 ∧ isStart env.ch ∧
      (p.shm.cells STATUS_INDEX = READY ∨ p.shm.cells STATUS_INDEX = FINISHED))) :
    ∃ p1, handleView env (handleQuit env p) = some p1 ∧ p1.log = p.log ∧
      p1.shm.start_time = p.shm.start_time := by
  by_cases hq : isQuit env.ch
  · rw [handleView_quit env _ hq]
    exact ⟨_, rfl, (handleQuit_frame env p).1, (handleQuit_frame env p).2.1⟩
  · rw [handleQuit_not_quit env p hq]
    unfold handleView
    by_cases hv : p.current_view = 0
    · rw [if_pos hv]
      by_cases hs : isStart env.ch
      · have hrf : ¬ (p.shm.cells STATUS_INDEX = READY ∨ p.shm.cells STATUS_INDEX = FINISHED) :=
          fun hrf => h ⟨hv, hs, hrf⟩
        rw [if_pos hs, if_neg hrf]
        split_ifs <;> exact ⟨_, rfl, rfl, rfl⟩
      · rw [if_neg hs]
        split_ifs <;> exact ⟨_, rfl, rfl, rfl⟩
    · rw [if_neg hv]
      split_ifs <;> exact ⟨_, rfl, rfl, rfl⟩

/-- An event that does not begin a race happens, and either keeps the log and
the start time, or finds a start time other than 1, appends one entry to the
log and makes the start time 1. -/
theorem applyEvent_no_start (p : Parent) (e : Event) (h : ¬ e.startsRace p) :
    ∃ p1, applyEvent p e = some p1 ∧
      ((p1.log = p.log ∧ p1.shm.start_time = p.shm.start_time) ∨
       (p.shm.start_time ≠ 1 ∧ p1.shm.start_time = 1 ∧ ∃ entry, p1.log = p.log ++ [entry])) := by
  cases e with
  | coordinator env =>
    have happ : applyEvent p (Event.coordinator env) =
        if p.shm.cells STATUS_INDEX ≠ EXITING then tick env p else some p := rfl
    rw [happ]
    by_cases hx : p.shm.cells STATUS_INDEX ≠ EXITING
    · rw [if_pos hx]
      obtain ⟨q, hq, hlog, hst⟩ := handle_no_start env p h
      unfold tick
      rw [hq]
      refine ⟨_, rfl, ?_⟩
      by_cases hc : q.current_view = 0 ∧ q.shm.cells STATUS_INDEX = FINISHED ∧
          q.shm.start_time ≠ 1
      · right
        obtain ⟨l1, l2⟩ := logAndDraw_logs env q hc.1 hc.2.1 hc.2.2
        refine ⟨?_, l1,
          (winnerScan q.shm NUM_RACERS 0 0, clockMs env.clock_end - q.shm.start_time), ?_⟩
        · rw [← hst]
          exact hc.2.2
        · rw [l2, hlog]
      · left
        obtain ⟨l1, l2⟩ := logAndDraw_idle env q hc
        rw [l1, l2]
        exact ⟨hlog, hst⟩
    · rw [if_neg hx]
      exact ⟨p, rfl, Or.inl ⟨rfl, rfl⟩⟩
  | racer slot pc rnd =>
    exact ⟨_, rfl, Or.inl ⟨rfl, racerStep_start_time _ _ _ _⟩⟩

/-- A sequence of events none of which begins a race happens; once the start
time is 1 it logs nothing, and in any case it logs at most one result. -/
theorem runEvents_no_start (evs : List Event) (p : Parent) (h : noRaceStart evs p) :
    ∃ p1, runEvents evs p = some p1 ∧
      (p.shm.start_time = 1 → p1.log = p.log ∧ p1.shm.start_time = 1) ∧
      (p1.log = p.log ∨ ∃ entry, p1.log = p.log ++ [entry]) := by
  induction evs generalizing p with
  | nil => exact ⟨p, rfl, fun h1 => ⟨rfl, h1⟩, Or.inl rfl⟩
  | cons e rest ih =>
    obtain ⟨hns, hrest⟩ := h
    obtain ⟨q, hq, hstep⟩ := applyEvent_no_start p e hns
    rw [hq] at hrest
    obtain ⟨r, hr, hr1, hr2⟩ := ih q hrest
    refine ⟨r, ?_, ?_, ?_⟩
    · unfold runEvents
      rw [hq]
      exact hr
    · intro h1
      rcases hstep with ⟨s1, s2⟩ | ⟨s1, -, -⟩
      · obtain ⟨a, b⟩ := hr1 (s2.trans h1)
        exact ⟨a.trans s1, b⟩
      · exact absurd h1 s1
    · rcases hstep with ⟨s1, s2⟩ | ⟨s1, s2, entry, s3⟩
      · rw [← s1]
        exact hr2
      · right
        refine ⟨entry, ?_⟩
        rw [(hr1 s2).1, s3]

theorem start_race_processes_log (env : Env) (p q : Parent)
    (h : start_race_processes env p = some q) : q.log = p.log := by
  unfold start_race_processes at h
  simp only [] at h
  split_ifs at h
  · cases h
    exact (cleanup_children_view env p).2
  · cases hf : forkLoop env NUM_RACERS 1 (cleanup_children env p).children with
    | none =>
      rw [hf] at h
      cases h
    | some ch =>
      rw [hf] at h
      cases h
      exact (cleanup_children_view env p).2

/-- A pass that finds the start time 1 logs nothing, whatever key it reads. -/
theorem tick_after_log (env : Env) (p p1 : Parent) (hs : p.shm.start_time = 1)
    (h : tick env p = some p1) : p1.log = p.log := by
  by_cases hr : p.current_view = 0 ∧ isStart env.ch ∧
      (p.shm.cells STATUS_INDEX = READY ∨ p.shm.cells STATUS_INDEX = FINISHED)
  · obtain ⟨hv, hst, hrf⟩ := hr
    unfold tick at h
    rw [handleQuit_not_quit env p (start_not_quit _ hst)] at h
    unfold handleView at h
    rw [if_pos hv, if_pos hst, if_pos hrf] at h
    cases hq : start_race_processes env p with
    | none =>
      rw [hq] at h
      cases h
    | some q =>
      rw [hq] at h
      cases h
      have hnf : ({ q with shm := { q.shm.write STATUS_INDEX RUNNING with
          start_time := clockMs env.clock_start } } : Parent).shm.cells STATUS_INDEX ≠
          FINISHED := by
        simp only [write_cells, if_true]
        exact status_ne.2.2.2.2.2.1
      rw [(logAndDraw_not_finished env _ hnf).2]
      exact start_race_processes_log env p q hq
  · obtain ⟨q, hq, hlog, hst⟩ := handle_no_start env p hr
    unfold tick at h
    rw [hq] at h
    cases h
    have hc : ¬ (q.current_view = 0 ∧ q.shm.cells STATUS_INDEX = FINISHED ∧
        q.shm.start_time ≠ 1) := fun hc => hc.2.2 (hst.trans hs)
    rw [(logAndDraw_idle env q hc).2]
    exact hlog

/-- Claim C5, as amended. The result of a race is logged at most once. A pass
in the race view that finds status `FINISHED` and a start time other than 1
and reads no quit, start or results key calls `logRaceResult` once, with the
winner of the scan and the time since the start, and makes the start time 1
with the status still `FINISHED`. A pass that finds the start time 1 logs
nothing, whatever key it reads. Over any sequence of coordinator passes and
racer steps in which no race is begun, nothing is logged once the start time
is 1, and at most one result is logged in any case. -/
theorem logged_at_most_once :
    (∀ (env : Env) (p : Parent), p.current_view = 0 → p.shm.status = FINISHED →
      p.shm.start_time ≠ 1 → ¬ isQuit env.ch → ¬ isStart env.ch → ¬ isResults env.ch →
      ∃ p1, tick env p = some p1 ∧
        p1.log = p.log ++
          [(winnerScan p.shm NUM_RACERS 0 0, clockMs env.clock_end - p.shm.start_time)] ∧
        p1.shm.start_time = 1 ∧ p1.shm.status = FINISHED) ∧
    (∀ (env : Env) (p p1 : Parent), p.shm.start_time = 1 → tick env p = some p1 →
      p1.log = p.log) ∧
    (∀ (evs : List Event) (p : Parent), noRaceStart evs p →
      ∃ p1, runEvents evs p = some p1 ∧
        (p.shm.start_time = 1 → p1.log = p.log ∧ p1.shm.start_time = 1) ∧
        (p1.log = p.log ∨ ∃ entry, p1.log = p.log ++ [entry])) := by
  refine ⟨?_, tick_after_log, runEvents_no_start⟩
  intro env p hv hf hs hq hstart hres
  unfold Shm.status at hf
  have hview : handleView env p = some p := by
    unfold handleView
    rw [if_pos hv, if_neg hstart]
    have hnr : p.shm.cells STATUS_INDEX ≠ RUNNING := by
      rw [hf]
      exact fun h => status_ne.2.2.2.2.2.1 h.symm
    split_ifs <;> rfl
  refine ⟨logAndDraw env p, ?_, (logAndDraw_logs env p hv hf hs).2,
    (logAndDraw_logs env p hv hf hs).1, ?_⟩
  · unfold tick
    rw [handleQuit_not_quit env p hq, hview]
  · unfold Shm.status
    rw [logAndDraw_cells]
    exact hf

/-- Claim C5 as amended, at a sample: all racers at 100, status `FINISHED`,
start time 4000, race view. A pass without key logs; then a pass without key,
a pass that reads the pause key and a racer step log nothing more. -/
theorem logged_at_most_once_witness :
    (∃ p1, tick (sampleEnv (-1)) (sampleParent 100 FINISHED 4000 0) = some p1 ∧
      p1.log = (sampleParent 100 FINISHED 4000 0).log ++
        [(winnerScan (sampleParent 100 FINISHED 4000 0).shm NUM_RACERS 0 0,
          clockMs (sampleEnv (-1)).clock_end - (sampleParent 100 FINISHED 4000 0).shm.start_time)] ∧
      p1.shm.start_time = 1 ∧ p1.shm.status = FINISHED) ∧
    (∃ p1, runEvents [Event.coordinator (sampleEnv (-1)), Event.coordinator (sampleEnv 112),
        Event.racer firstSlot RacerPc.loopHead 2] (sampleParent 100 FINISHED 1 0) = some p1 ∧
      ((sampleParent 100 FINISHED 1 0).shm.start_time = 1 →
        p1.log = (sampleParent 100 FINISHED 1 0).log ∧ p1.shm.start_time = 1) ∧
      (p1.log = (sampleParent 100 FINISHED 1 0).log ∨
        ∃ entry, p1.log = (sampleParent 100 FINISHED 1 0).log ++ [entry])) :=
  ⟨logged_at_most_once.1 (sampleEnv (-1)) (sampleParent 100 FINISHED 4000 0) rfl rfl
      (by decide) (by decide) (by decide) (by decide),
    logged_at_most_once.2.2 _ (sampleParent 100 FINISHED 1 0)
      ⟨fun h => absurd h.2.1 (by decide), fun h => absurd h.2.1 (by decide), fun h => h,
        trivial⟩⟩

/-- Claim C5 as stated fails. With status `FINISHED` and the start time 4000
not yet logged, a pass in the race view that reads the start key begins a new
race without logging; and in the results view a pass without key, followed by
a pass that reads the quit key, ends the program with nothing logged. -/
theorem logged_once_counterexample :
    (sampleParent 100 FINISHED 4000 0).shm.status = FINISHED ∧
    (tick (sampleEnv 115) (sampleParent 100 FINISHED 4000 0)).map
      (fun p1 => (p1.log, p1.shm.start_time, p1.shm.status)) = some ([], 5000, RUNNING) ∧
    (runEvents [Event.coordinator (sampleEnv (-1)), Event.coordinator (sampleEnv 113)]
      (sampleParent 100 FINISHED 4000 1)).map
      (fun p1 => (p1.log, p1.shm.start_time, p1.shm.status)) = some ([], 4000, EXITING) := by
  refine ⟨rfl, ?_, ?_⟩
  · rfl
  · rfl

/-! ## The advance of a racer -/

theorem randStep_bounds (rnd : Nat) : 1 ≤ randStep rnd ∧ randStep rnd ≤ 4 := by
  unfold randStep
  omega

/-- The segment after the last store of the advance is the result of the
advance. -/
theorem racerMoveTrace_last (racer_id : Nat) (step : Int) (m : Shm) :
    (racerMoveTrace racer_id step m).getLast? = some (racerMove racer_id step m) := by
  unfold racerMoveTrace racerMove
  simp only []
  split_ifs <;> rfl

/-- Every value of `racerMoveStores` is the content of the position cell in
one of the segments of `racerMoveTrace`. -/
theorem racerMoveStores_in_trace (racer_id : Nat) (step : Int) (m : Shm) (v : Int)
    (hv : v ∈ racerMoveStores racer_id step m) :
    ∃ m1 ∈ racerMoveTrace racer_id step m, m1.cells (POS_OFFSET + racer_id - 1) = v := by
  unfold racerMoveStores at hv
  unfold racerMoveTrace
  simp only [write_cells, if_true] at hv ⊢
  by_cases hge : m.cells (POS_OFFSET + racer_id - 1) + step ≥ RACE_LENGTH
  · rw [if_pos hge] at hv ⊢
    simp only [List.mem_cons, List.mem_singleton, List.not_mem_nil, or_false] at hv
    rcases hv with hv | hv
    · refine ⟨m.write (POS_OFFSET + racer_id - 1) (m.cells (POS_OFFSET + racer_id - 1) + step),
        ?_, ?_⟩
      · split_ifs <;> simp
      · simp only [write_cells, if_true]
        exact hv.symm
    · refine ⟨(m.write (POS_OFFSET + racer_id - 1)
        (m.cells (POS_OFFSET + racer_id - 1) + step)).write (POS_OFFSET + racer_id - 1)
        RACE_LENGTH, ?_, ?_⟩
      · split_ifs <;> simp
      · simp only [write_cells, if_true]
        exact hv.symm
  · rw [if_neg hge] at hv ⊢
    simp only [List.mem_singleton] at hv
    refine ⟨_, List.mem_singleton.mpr rfl, ?_⟩
    simp only [write_cells, if_true]
    exact hv.symm

/-- A racer in its loop that finds `RUNNING` and is short of the finish makes
the advance. -/
theorem racerStep_running (racer_id : Nat) (step : Int) (pc : RacerPc) (m : Shm)
    (hpc : pc ≠ RacerPc.done) (hr : m.cells STATUS_INDEX = RUNNING)
    (hlt : m.cells (POS_OFFSET + racer_id - 1) < RACE_LENGTH) :
    (racerStep racer_id step (pc, m)).2 = racerMove racer_id step m := by
  obtain ⟨n1, n2, n3, n4, n5, n6, n7, n8, n9, n10⟩ := status_ne
  have hbody : racerBody racer_id step m = (RacerPc.loopHead, racerMove racer_id step m) := by
    unfold racerBody
    rw [if_pos hr]
  have hnp : m.cells STATUS_INDEX ≠ PAUSED := by
    rw [hr]
    exact n5
  have hne : m.cells STATUS_INDEX ≠ EXITING := by
    rw [hr]
    exact n7
  cases pc with
  | loopHead =>
    simp only [racerStep]
    rw [if_pos ⟨hlt, hne⟩, if_neg hnp, hbody]
  | pauseWait =>
    simp only [racerStep]
    rw [if_neg hnp, hbody]
  | done => exact absurd rfl hpc

/-- The status after a racer step is the old status, or `FINISHED` in place
of `RUNNING` with the position clamped to `RACE_LENGTH`. -/
theorem racerStep_status (racer_id : Nat) (step : Int) (pc : RacerPc) (m : Shm)
    (hne : POS_OFFSET + racer_id - 1 ≠ STATUS_INDEX) :
    (racerStep racer_id step (pc, m)).2.cells STATUS_INDEX = m.cells STATUS_INDEX ∨
    (m.cells STATUS_INDEX = RUNNING ∧
      (racerStep racer_id step (pc, m)).2.cells STATUS_INDEX = FINISHED ∧
      m.cells (POS_OFFSET + racer_id - 1) + step ≥ RACE_LENGTH ∧
      (racerStep racer_id step (pc, m)).2.cells (POS_OFFSET + racer_id - 1) = RACE_LENGTH) := by
  rcases racerStep_cases racer_id step pc m with h | ⟨-, -, h⟩
  · left
    rw [h]
  · rw [h]
    exact racerMove_status racer_id step m hne

/-- After a whole step of a racer 1..`NUM_RACERS` whose position was at most
`RACE_LENGTH`, its position is not below the old one and at most
`RACE_LENGTH`. -/
theorem racerStep_position_bounds (racer_id : Nat) (h1 : 1 ≤ racer_id)
    (h2 : racer_id ≤ NUM_RACERS) (rnd : Nat) (pc : RacerPc) (m : Shm)
    (hle : m.cells (POS_OFFSET + racer_id - 1) ≤ RACE_LENGTH) :
    m.cells (POS_OFFSET + racer_id - 1) ≤
      (racerStep racer_id (randStep rnd) (pc, m)).2.cells (POS_OFFSET + racer_id - 1) ∧
    (racerStep racer_id (randStep rnd) (pc, m)).2.cells (POS_OFFSET + racer_id - 1) ≤
      RACE_LENGTH := by
  obtain ⟨-, k2, -⟩ := position_index_lt racer_id h1 h2
  rcases racerStep_cases racer_id (randStep rnd) pc m with h | ⟨-, -, h⟩
  · rw [h]
    exact ⟨le_refl _, hle⟩
  · rw [h, racerMove_position racer_id (randStep rnd) m k2]
    have hb := (randStep_bounds rnd).1
    exact ⟨le_min (by omega) hle, min_le_right _ _⟩

/-- Claim C6, the code at the failing input. Racer 1 at position 99 under
status `RUNNING` draws the step 4: line 96 stores 103 into its position cell,
which is more than `RACE_LENGTH`, and line 99 then stores 100, which is less
than the value stored before; the position cell reads 103, 100, 100 after the
three stores of the step, and 100 when the step is over. -/
theorem racer_stores_beyond_race_length :
    randStep 3 = 4 ∧
    racerMoveStores 1 (randStep 3) (sampleShm 99 RUNNING 5000) = [103, 100] ∧
    (racerMoveTrace 1 (randStep 3) (sampleShm 99 RUNNING 5000)).map (fun m => m.position 0) =
      [103, 100, 100] ∧
    ((racerStep 1 (randStep 3) (RacerPc.loopHead, sampleShm 99 RUNNING 5000)).2).position 0 =
      100 ∧
    (103 : Int) > RACE_LENGTH := by
  refine ⟨rfl, rfl, rfl, rfl, by decide⟩

/-- Claim C7. One step of the racer of slot `racer_id - 1` leaves the
positions of the other slots, every owner cell and the start time as they
are; the status is unchanged, or was `RUNNING` and is `FINISHED`, and this
change comes only with the racer's own position clamped to `RACE_LENGTH`;
under any status other than `RUNNING` (so under `READY`, `PAUSED`, `FINISHED`
and `EXITING`) the step leaves the whole segment as it is. -/
theorem racer_step_frame (racer_id : Nat) (h1 : 1 ≤ racer_id) (h2 : racer_id ≤ NUM_RACERS)
    (rnd : Nat) (pc : RacerPc) (m : Shm) :
    (∀ j, j < NUM_RACERS → j ≠ racer_id - 1 →
      ((racerStep racer_id (randStep rnd) (pc, m)).2).position j = m.position j) ∧
    (∀ j, j < NUM_RACERS →
      ((racerStep racer_id (randStep rnd) (pc, m)).2).owner j = m.owner j) ∧
    ((racerStep racer_id (randStep rnd) (pc, m)).2).start_time = m.start_time ∧
    (((racerStep racer_id (randStep rnd) (pc, m)).2).status = m.status ∨
      (m.status = RUNNING ∧ ((racerStep racer_id (randStep rnd) (pc, m)).2).status = FINISHED ∧
        m.position (racer_id - 1) + randStep rnd ≥ RACE_LENGTH ∧
        ((racerStep racer_id (randStep rnd) (pc, m)).2).position (racer_id - 1) =
          RACE_LENGTH)) ∧
    (m.status ≠ RUNNING → (racerStep racer_id (randStep rnd) (pc, m)).2 = m) := by
  obtain ⟨k1, k2, k3⟩ := position_index_lt racer_id h1 h2
  unfold Shm.position Shm.owner Shm.status
  refine ⟨?_, ?_, racerStep_start_time _ _ _ _, ?_, racerStep_not_running _ _ _ _⟩
  · intro j hj hne
    rcases racerStep_cases racer_id (randStep rnd) pc m with h | ⟨-, -, h⟩
    · rw [h]
    · rw [h]
      apply racerMove_cells_other
      · rw [k3]
        omega
      · unfold POS_OFFSET STATUS_INDEX
        omega
  · intro j hj
    rcases racerStep_cases racer_id (randStep rnd) pc m with h | ⟨-, -, h⟩
    · rw [h]
    · rw [h]
      apply racerMove_cells_other
      · omega
      · unfold PID_OFFSET STATUS_INDEX
        omega
  · rw [← k3]
    exact racerStep_status racer_id (randStep rnd) pc m k2

/-- Claim C7 at a sample: racer 2 at position 98 under `RUNNING`, with the
other racers at 98 too, draws the step 3. -/
theorem racer_step_frame_witness :
    (∀ j, j < NUM_RACERS → j ≠ 2 - 1 →
      ((racerStep 2 (randStep 6) (RacerPc.loopHead, sampleShm 98 RUNNING 5000)).2).position j =
        (sampleShm 98 RUNNING 5000).position j) ∧
    (∀ j, j < NUM_RACERS →
      ((racerStep 2 (randStep 6) (RacerPc.loopHead, sampleShm 98 RUNNING 5000)).2).owner j =
        (sampleShm 98 RUNNING 5000).owner j) ∧
    ((racerStep 2 (randStep 6) (RacerPc.loopHead, sampleShm 98 RUNNING 5000)).2).start_time =
      (sampleShm 98 RUNNING 5000).start_time ∧
    (((racerStep 2 (randStep 6) (RacerPc.loopHead, sampleShm 98 RUNNING 5000)).2).status =
        (sampleShm 98 RUNNING 5000).status ∨
      ((sampleShm 98 RUNNING 5000).status = RUNNING ∧
        ((racerStep 2 (randStep 6) (RacerPc.loopHead, sampleShm 98 RUNNING 5000)).2).status =
          FINISHED ∧
        (sampleShm 98 RUNNING 5000).position (2 - 1) + randStep 6 ≥ RACE_LENGTH ∧
        ((racerStep 2 (randStep 6) (RacerPc.loopHead,
          sampleShm 98 RUNNING 5000)).2).position (2 - 1) = RACE_LENGTH)) ∧
    ((sampleShm 98 RUNNING 5000).status ≠ RUNNING →
      (racerStep 2 (randStep 6) (RacerPc.loopHead, sampleShm 98 RUNNING 5000)).2 =
        sampleShm 98 RUNNING 5000) :=
  racer_step_frame 2 (by decide) (by decide) 6 RacerPc.loopHead (sampleShm 98 RUNNING 5000)

/-- Steps of a racer under a status other than `RUNNING` leave the segment as
it is, however many they are. -/
theorem racerSteps_not_running (racer_id : Nat) (steps : List Int) (pc : RacerPc) (m : Shm)
    (h : m.cells STATUS_INDEX ≠ RUNNING) :
    (racerSteps racer_id steps (pc, m)).2 = m := by
  induction steps generalizing pc with
  | nil => rfl
  | cons step rest ih =>
    unfold racerSteps
    have hm := racerStep_not_running racer_id step pc m h
    have hpair : racerStep racer_id step (pc, m) = ((racerStep racer_id step (pc, m)).1, m) :=
      Prod.ext rfl hm
    rw [hpair]
    exact ih _

/-- Claim C8. Under a status other than `RUNNING` (so under `PAUSED`) any
number of steps of a racer, from any point of its loop and with any steps
drawn, leaves the whole segment, so every position, as it is; and under
`RUNNING` the next step of a racer that is in its loop with its position
below `RACE_LENGTH` makes its position strictly greater. -/
theorem racer_moves_only_when_running (racer_id : Nat) (h1 : 1 ≤ racer_id)
    (h2 : racer_id ≤ NUM_RACERS) :
    (∀ (steps : List Int) (pc : RacerPc) (m : Shm), m.status ≠ RUNNING →
      (racerSteps racer_id steps (pc, m)).2 = m) ∧
    (∀ (rnd : Nat) (pc : RacerPc) (m : Shm), pc ≠ RacerPc.done → m.status = RUNNING →
      m.position (racer_id - 1) < RACE_LENGTH →
      m.position (racer_id - 1) <
        ((racerStep racer_id (randStep rnd) (pc, m)).2).position (racer_id - 1)) := by
  obtain ⟨k1, k2, k3⟩ := position_index_lt racer_id h1 h2
  unfold Shm.status Shm.position
  refine ⟨fun steps pc m h => racerSteps_not_running racer_id steps pc m h, ?_⟩
  intro rnd pc m hpc hr hlt
  rw [← k3] at hlt ⊢
  rw [racerStep_running racer_id (randStep rnd) pc m hpc hr hlt,
    racerMove_position racer_id (randStep rnd) m k2]
  have hb := (randStep_bounds rnd).1
  exact lt_min (by omega) hlt

/-- Claim C8 at a sample: racer 3. -/
theorem racer_moves_only_when_running_witness :
    (∀ (steps : List Int) (pc : RacerPc) (m : Shm), m.status ≠ RUNNING →
      (racerSteps 3 steps (pc, m)).2 = m) ∧
    (∀ (rnd : Nat) (pc : RacerPc) (m : Shm), pc ≠ RacerPc.done → m.status = RUNNING →
      m.position (3 - 1) < RACE_LENGTH →
      m.position (3 - 1) < ((racerStep 3 (randStep rnd) (pc, m)).2).position (3 - 1)) :=
  racer_moves_only_when_running 3 (by decide) (by decide)

/-! ## The start time and the status -/

/-- The states reached by running events from a reachable state are reachable. -/
theorem reachable_runEvents (evs : List Event) (p p1 : Parent) (hp : Reachable p)
    (h : runEvents evs p = some p1) : Reachable p1 := by
  induction evs generalizing p with
  | nil =>
    unfold runEvents at h
    cases h
    exact hp
  | cons e rest ih =>
    unfold runEvents at h
    cases hq : applyEvent p e with
    | none =>
      rw [hq] at h
      cases h
    | some q =>
      rw [hq] at h
      exact ih q (Reachable.step p q e hp hq) h

/-- What a pass of the coordinator does to the status and the start time: the
status at the end is `RUNNING`, `PAUSED` or `EXITING`, or it is the status at
the beginning, and then the start time is the same or has been made 1 under
`FINISHED`. -/
theorem tick_status (env : Env) (p p1 : Parent) (h : tick env p = some p1) :
    p1.shm.cells STATUS_INDEX = RUNNING ∨ p1.shm.cells STATUS_INDEX = PAUSED ∨
    p1.shm.cells STATUS_INDEX = EXITING ∨
    (p1.shm.cells STATUS_INDEX = p.shm.cells STATUS_INDEX ∧
      (p1.shm.start_time = p.shm.start_time ∨
        (p.shm.cells STATUS_INDEX = FINISHED ∧ p1.shm.start_time = 1))) := by
  have hlog : ∀ q : Parent, (logAndDraw env q).shm.start_time = q.shm.start_time ∨
      (q.shm.cells STATUS_INDEX = FINISHED ∧ (logAndDraw env q).shm.start_time = 1) := by
    intro q
    by_cases hc : q.current_view = 0 ∧ q.shm.cells STATUS_INDEX = FINISHED ∧
        q.shm.start_time ≠ 1
    · right
      exact ⟨hc.2.1, (logAndDraw_logs env q hc.1 hc.2.1 hc.2.2).1⟩
    · left
      rw [(logAndDraw_idle env q hc).1]
  unfold tick at h
  by_cases hq : isQuit env.ch
  · rw [handleView_quit env _ hq] at h
    cases h
    rw [logAndDraw_cells, handleQuit_status env p hq]
    split_ifs
    · right; left; rfl
    · right; right; left; rfl
  · rw [handleQuit_not_quit env p hq] at h
    have hkeep : ∀ q : Parent, q.shm = p.shm →
        (logAndDraw env q).shm.cells STATUS_INDEX = p.shm.cells STATUS_INDEX ∧
        ((logAndDraw env q).shm.start_time = p.shm.start_time ∨
          (p.shm.cells STATUS_INDEX = FINISHED ∧ (logAndDraw env q).shm.start_time = 1)) := by
      intro q hqp
      rw [logAndDraw_cells, ← hqp]
      exact ⟨rfl, hlog q⟩
    have hset : ∀ (q : Parent) (v : Int), q.shm.cells STATUS_INDEX = v →
        (logAndDraw env q).shm.cells STATUS_INDEX = v := by
      intro q v hv
      rw [logAndDraw_cells]
      exact hv
    unfold handleView at h
    split_ifs at h
    · cases hs : start_race_processes env p with
      | none =>
        rw [hs] at h
        cases h
      | some q =>
        rw [hs] at h
        cases h
        left
        apply hset
        simp only [write_cells, if_true]
    · cases h
      left
      apply hset
      simp only [write_cells, if_true]
    · cases h
      right; right; right
      exact hkeep p rfl
    · cases h
      right; left
      apply hset
      simp only [write_cells, if_true]
    · cases h
      right; right; right
      exact hkeep p rfl
    · cases h
      right; right; right
      exact hkeep _ rfl
    · cases h
      right; right; right
      exact hkeep p rfl
    · cases h
      right; right; right
      exact hkeep _ rfl
    · cases h
      right; right; right
      exact hkeep p rfl

/-- In every reachable state the status is one of the five enumerators, and
the start time is 0 while the status is `READY`. -/
theorem reachable_invariant (p : Parent) (h : Reachable p) :
    (p.shm.cells STATUS_INDEX = READY ∨ p.shm.cells STATUS_INDEX = RUNNING ∨
      p.shm.cells STATUS_INDEX = PAUSED ∨ p.shm.cells STATUS_INDEX = FINISHED ∨
      p.shm.cells STATUS_INDEX = EXITING) ∧
    (p.shm.cells STATUS_INDEX = READY → p.shm.start_time = 0) := by
  obtain ⟨n1, n2, n3, n4, n5, n6, n7, n8, n9, n10⟩ := status_ne
  induction h with
  | init cells =>
    have hst : (Parent.initial cells).shm.cells STATUS_INDEX = READY := by
      show (if STATUS_INDEX = STATUS_INDEX then READY else cells STATUS_INDEX) = READY
      exact if_pos rfl
    exact ⟨Or.inl hst, fun _ => rfl⟩
  | step p p1 e _ hstep ih =>
    obtain ⟨ih1, ih2⟩ := ih
    cases e with
    | coordinator env =>
      have happ : applyEvent p (Event.coordinator env) =
          if p.shm.cells STATUS_INDEX ≠ EXITING then tick env p else some p := rfl
      rw [happ] at hstep
      by_cases hx : p.shm.cells STATUS_INDEX ≠ EXITING
      · rw [if_pos hx] at hstep
        rcases tick_status env p p1 hstep with h | h | h | ⟨h, hs⟩
        · exact ⟨Or.inr (Or.inl h), fun h0 => absurd (h.symm.trans h0) (fun h => n1 h.symm)⟩
        · exact ⟨Or.inr (Or.inr (Or.inl h)),
            fun h0 => absurd (h.symm.trans h0) (fun h => n2 h.symm)⟩
        · exact ⟨Or.inr (Or.inr (Or.inr (Or.inr h))),
            fun h0 => absurd (h.symm.trans h0) (fun h => n4 h.symm)⟩
        · rw [h]
          refine ⟨ih1, fun h0 => ?_⟩
          rcases hs with hs | ⟨hf, -⟩
          · rw [hs]
            exact ih2 h0
          · exact absurd (h0.symm.trans hf) n3
      · rw [if_neg hx] at hstep
        cases hstep
        exact ⟨ih1, ih2⟩
    | racer slot pc rnd =>
      have happ : applyEvent p (Event.racer slot pc rnd) = some { p with
          shm := (racerStep (slot.val + 1) (randStep rnd) (pc, p.shm)).2 } := rfl
      rw [happ] at hstep
      cases hstep
      have hslot := slot.isLt
      have f3 := racerStep_start_time (slot.val + 1) (randStep rnd) pc p.shm
      have f4 := racerStep_status (slot.val + 1) (randStep rnd) pc p.shm
        (position_index_lt (slot.val + 1) (by omega) (by omega)).2.1
      simp only []
      rw [f3]
      rcases f4 with f4 | ⟨-, f4, -, -⟩
      · rw [f4]
        exact ⟨ih1, ih2⟩
      · rw [f4]
        exact ⟨Or.inr (Or.inr (Or.inr (Or.inl rfl))), fun h0 => absurd h0 (fun h => n3 h.symm)⟩

theorem reachable_afterEvents (evs : List Event) (p : Parent) (hp : Reachable p) :
    Reachable (afterEvents evs p) := by
  unfold afterEvents
  cases h : runEvents evs p with
  | none => exact hp
  | some p1 => exact reachable_runEvents evs p p1 hp h

/-- Claim C9, as amended. In every state reached from the initial state by
coordinator passes with any keys and racer steps, a start time that is neither
0 nor 1 comes with status `RUNNING`, `PAUSED`, `FINISHED` or `EXITING`: never
with `READY`. -/
theorem start_time_set_after_start (p : Parent) (h : Reachable p)
    (h0 : p.shm.start_time ≠ 0) (_h1 : p.shm.start_time ≠ 1) :
    p.shm.status = RUNNING ∨ p.shm.status = PAUSED ∨ p.shm.status = FINISHED ∨
    p.shm.status = EXITING := by
  obtain ⟨i1, i2⟩ := reachable_invariant p h
  unfold Shm.status
  rcases i1 with i1 | i1
  · exact absurd (i2 i1) h0
  · exact i1

/-- Claim C9 as stated fails. From the initial state a pass that reads the
start key and a pass that reads the pause key lead to a reachable state with
the start time 5000, neither 0 nor 1, and status `PAUSED`, which is neither
`RUNNING` nor `FINISHED`; a third pass that reads the quit key leads to status
`EXITING` with the same start time. -/
theorem start_time_counterexample :
    Reachable (afterEvents [Event.coordinator (sampleEnv 115), Event.coordinator (sampleEnv 112)]
      (Parent.initial (fun _ => 0))) ∧
    (afterEvents [Event.coordinator (sampleEnv 115), Event.coordinator (sampleEnv 112)]
      (Parent.initial (fun _ => 0))).shm.start_time = 5000 ∧
    (afterEvents [Event.coordinator (sampleEnv 115), Event.coordinator (sampleEnv 112)]
      (Parent.initial (fun _ => 0))).shm.status = PAUSED ∧
    PAUSED ≠ RUNNING ∧ PAUSED ≠ FINISHED ∧
    Reachable (afterEvents [Event.coordinator (sampleEnv 115), Event.coordinator (sampleEnv 112),
      Event.coordinator (sampleEnv 113)] (Parent.initial (fun _ => 0))) ∧
    (afterEvents [Event.coordinator (sampleEnv 115), Event.coordinator (sampleEnv 112),
      Event.coordinator (sampleEnv 113)] (Parent.initial (fun _ => 0))).shm.start_time = 5000 ∧
    (afterEvents [Event.coordinator (sampleEnv 115), Event.coordinator (sampleEnv 112),
      Event.coordinator (sampleEnv 113)] (Parent.initial (fun _ => 0))).shm.status = EXITING ∧
    EXITING ≠ RUNNING ∧ EXITING ≠ FINISHED := by
  refine ⟨reachable_afterEvents _ _ (Reachable.init _), rfl, rfl, by decide, by decide,
    reachable_afterEvents _ _ (Reachable.init _), rfl, rfl, by decide, by decide⟩

/-- Claim C9 as amended, at a sample: the state after a pass that reads the
start key and a racer step. -/
theorem start_time_set_after_start_witness :
    (afterEvents [Event.coordinator (sampleEnv 115), Event.racer firstSlot RacerPc.loopHead 2]
      (Parent.initial (fun _ => 0))).shm.status = RUNNING ∨
    (afterEvents [Event.coordinator (sampleEnv 115), Event.racer firstSlot RacerPc.loopHead 2]
      (Parent.initial (fun _ => 0))).shm.status = PAUSED ∨
    (afterEvents [Event.coordinator (sampleEnv 115), Event.racer firstSlot RacerPc.loopHead 2]
      (Parent.initial (fun _ => 0))).shm.status = FINISHED ∨
    (afterEvents [Event.coordinator (sampleEnv 115), Event.racer firstSlot RacerPc.loopHead 2]
      (Parent.initial (fun _ => 0))).shm.status = EXITING :=
  start_time_set_after_start _ (reachable_afterEvents _ _ (Reachable.init _))
    (by decide) (by decide)

/-! ## Restart of the racer processes -/

/-- Claim C10. Whatever children were tracked and whatever the segment held,
when the attach and all `NUM_RACERS` process creations succeed,
`start_race_processes` returns and leaves in the parent every position 0,
every owner cell 0, status `READY`, and as tracked children exactly the
identifiers of the new processes in the order of the racers 1..`NUM_RACERS`,
whatever was tracked before. -/
theorem start_race_processes_resets (env : Env) (p : Parent) (ha : env.attach_ok = true)
    (hf : ForksSucceed env) :
    ∃ p1, start_race_processes env p = some p1 ∧
      (∀ i, i < NUM_RACERS → p1.shm.position i = 0 ∧ p1.shm.owner i = 0) ∧
      p1.shm.status = READY ∧
      p1.children = (List.range NUM_RACERS).map (fun k => env.fork (1 + k)) ∧
      p1.children = [env.fork 1, env.fork 2, env.fork 3, env.fork 4] ∧
      p1.children.length = NUM_RACERS := by
  refine ⟨_, start_race_processes_ok env p ha hf, ?_, ?_, rfl, rfl, ?_⟩
  · intro i hi
    obtain ⟨c1, c2⟩ := clearLoop_cleared NUM_RACERS 0 p.shm i (Nat.zero_le i) (by omega)
    unfold Shm.position Shm.owner
    simp only [write_cells]
    have e1 : POS_OFFSET + i ≠ STATUS_INDEX := by
      unfold POS_OFFSET STATUS_INDEX
      omega
    have e2 : PID_OFFSET + i ≠ STATUS_INDEX := by
      unfold PID_OFFSET STATUS_INDEX
      omega
    rw [if_neg e1, if_neg e2]
    exact ⟨c2, c1⟩
  · unfold Shm.status
    simp only [write_cells, if_true]
  · simp only [List.length_map, List.length_range]

/-- Claim C10 at a sample: a restart from `FINISHED` with all racers at 100 and
the children 901..904 tracked. -/
theorem start_race_processes_resets_witness :
    ∃ p1, start_race_processes (sampleEnv 115) (sampleParent 100 FINISHED 1 0) = some p1 ∧
      (∀ i, i < NUM_RACERS → p1.shm.position i = 0 ∧ p1.shm.owner i = 0) ∧
      p1.shm.status = READY ∧
      p1.children = (List.range NUM_RACERS).map (fun k => (sampleEnv 115).fork (1 + k)) ∧
      p1.children = [(sampleEnv 115).fork 1, (sampleEnv 115).fork 2, (sampleEnv 115).fork 3,
        (sampleEnv 115).fork 4] ∧
      p1.children.length = NUM_RACERS :=
  start_race_processes_resets (sampleEnv 115) (sampleParent 100 FINISHED 1 0) rfl
    (fun i h1 _ => by
      have e : (sampleEnv 115).fork i = 1000 + (i : Int) := rfl
      rw [e]
      constructor <;> omega)

/-! ## The end-to-end race with forced steps -/

/-- Claim C11, as amended. With every step forced to 25, a race started from
`READY` on a segment of zeros, and four rounds in each of which the racers 1 to
4 make one step of their loop in slot order and the coordinator then makes a
pass without key: after three rounds every position is 75, the status is
`RUNNING` and nothing is logged; after the fourth round the position of racer
1 is 100 and the other three positions are still 75, because racer 1 has set
`FINISHED` and the others move only under `RUNNING`; the winner scan returns
1, and exactly one result is logged, with winner 1 and the time between the
two clock readings. The start time read at the start is supposed not to be
the mark 1. -/
theorem forced_race_four_rounds (start e1 e2 e3 e4 : Env) (hs : isStart start.ch)
    (ha : start.attach_ok = true) (hf : ForksSucceed start)
    (hc : clockMs start.clock_start ≠ 1)
    (h1 : noKey e1.ch) (h2 : noKey e2.ch) (h3 : noKey e3.ch) (h4 : noKey e4.ch) :
    (∃ w, forcedRace 25 start [e1, e2, e3] = some w ∧
      w.parent.shm.positions = [75, 75, 75, 75] ∧ w.parent.shm.status = RUNNING ∧
      w.parent.log = []) ∧
    (∃ w, forcedRace 25 start [e1, e2, e3, e4] = some w ∧
      w.parent.shm.positions = [100, 75, 75, 75] ∧ w.parent.shm.status = FINISHED ∧
      winnerScan w.parent.shm NUM_RACERS 0 0 = 1 ∧ w.parent.winner_shown = 1 ∧
      w.parent.log = [(1, clockMs e4.clock_end - clockMs start.clock_start)] ∧
      w.parent.log.length = 1) := by
  have f1 := hf 1 (by decide) (by decide)
  have f2 := hf 2 (by decide) (by decide)
  have f3 := hf 3 (by decide) (by decide)
  have f4 := hf 4 (by decide) (by decide)
  have hq := start_not_others _ hs
  obtain ⟨a1, a2, a3, a4, a5⟩ := h1
  obtain ⟨b1, b2, b3, b4, b5⟩ := h2
  obtain ⟨c1, c2, c3, c4, c5⟩ := h3
  obtain ⟨d1, d2, d3, d4, d5⟩ := h4
  constructor
  · simp [forcedRace, raceStart, forcedRound, runWorld, worldEvent, World.initial,
      Parent.initial, beginsRace, hs, hq, a1, a2, a3, a4, a5, b1, b2, b3, b4, b5, c1, c2, c3,
      c4, c5, ha, tick, handleQuit, handleView, start_race_processes, cleanup_children,
      forkLoop, clearLoop, f1, f2, f3, f4, NUM_RACERS, STATUS_INDEX, POS_OFFSET, PID_OFFSET,
      READY, RUNNING, FINISHED, EXITING, PAUSED, osConsistent, survivors, newRacers,
      logAndDraw, List.range, List.range.loop, stepAt, RacerProc.run, racerInit, racerStep,
      racerBody, racerMove, RACE_LENGTH, Shm.positions, Shm.write, Shm.status, hc, winnerScan]
  · simp [forcedRace, raceStart, forcedRound, runWorld, worldEvent, World.initial,
      Parent.initial, beginsRace, hs, hq, a1, a2, a3, a4, a5, b1, b2, b3, b4, b5, c1, c2, c3,
      c4, c5, d1, d2, d3, d4, d5, ha, tick, handleQuit, handleView, start_race_processes,
      cleanup_children, forkLoop, clearLoop, f1, f2, f3, f4, NUM_RACERS, STATUS_INDEX,
      POS_OFFSET, PID_OFFSET, READY, RUNNING, FINISHED, EXITING, PAUSED, osConsistent,
      survivors, newRacers, logAndDraw, List.range, List.range.loop, stepAt, RacerProc.run,
      racerInit, racerStep, racerBody, racerMove, RACE_LENGTH, Shm.positions, Shm.write,
      Shm.status, hc, winnerScan]

/-- Claim C11 as amended, at a sample: the start key `s`, process identifiers
1001 to 1004, the start read at 5000 ms and the end at 17345 ms. -/
theorem forced_race_four_rounds_witness :
    (∃ w, forcedRace 25 (sampleEnv 115) [sampleEnv (-1), sampleEnv (-1), sampleEnv (-1)] =
        some w ∧
      w.parent.shm.positions = [75, 75, 75, 75] ∧ w.parent.shm.status = RUNNING ∧
      w.parent.log = []) ∧
    (∃ w, forcedRace 25 (sampleEnv 115)
        [sampleEnv (-1), sampleEnv (-1), sampleEnv (-1), sampleEnv (-1)] = some w ∧
      w.parent.shm.positions = [100, 75, 75, 75] ∧ w.parent.shm.status = FINISHED ∧
      winnerScan w.parent.shm NUM_RACERS 0 0 = 1 ∧ w.parent.winner_shown = 1 ∧
      w.parent.log =
        [(1, clockMs (sampleEnv (-1)).clock_end - clockMs (sampleEnv 115).clock_start)] ∧
      w.parent.log.length = 1) :=
  forced_race_four_rounds (sampleEnv 115) (sampleEnv (-1)) (sampleEnv (-1)) (sampleEnv (-1))
    (sampleEnv (-1)) (Or.inl rfl) rfl
    (fun i h1 _ => by
      have e : (sampleEnv 115).fork i = 1000 + (i : Int) := rfl
      rw [e]
      constructor <;> omega)
    (by decide) (by decide) (by decide) (by decide) (by decide)

/-- Claim C11 as stated fails. In the scenario the positions after exactly
four rounds are 100, 75, 75, 75 and not all 100: racer 2 is at 75. They are the
same when the coordinator makes its pass before the racers in each round, and
they are still the same after seven rounds. -/
theorem forced_race_counterexample :
    (forcedRace 25 (sampleEnv 115)
        [sampleEnv (-1), sampleEnv (-1), sampleEnv (-1), sampleEnv (-1)]).map
      (fun w => w.parent.shm.positions) = some [100, 75, 75, 75] ∧
    (forcedRaceAfter 25 (sampleEnv 115)
        [sampleEnv (-1), sampleEnv (-1), sampleEnv (-1), sampleEnv (-1)]).map
      (fun w => w.parent.shm.positions) = some [100, 75, 75, 75] ∧
    (forcedRace 25 (sampleEnv 115)
        [sampleEnv (-1), sampleEnv (-1), sampleEnv (-1), sampleEnv (-1), sampleEnv (-1),
          sampleEnv (-1), sampleEnv (-1)]).map
      (fun w => w.parent.shm.positions) = some [100, 75, 75, 75] ∧
    (75 : Int) ≠ RACE_LENGTH := by
  refine ⟨rfl, rfl, rfl, by decide⟩

/-! ## The racer processes and the parent together: facts -/

theorem killLoop_mem (env : Env) (l : List Int) (c : Int) (hc : c ∈ l)
    (hw : env.waitpid_nohang c = 0) (hk : env.kill c = 0) : c ∈ killLoop env l := by
  induction l with
  | nil => cases hc
  | cons a rest ih =>
    unfold killLoop
    rcases List.mem_cons.mp hc with h | h
    · subst h
      rw [if_pos hw, if_pos hk]
      exact List.mem_cons_self _ _
    · have := ih h
      split_ifs
      · exact List.mem_cons_of_mem _ this
      · exact this
      · exact this

/-- When every racer process still in its loop is tracked and the system calls
fit the processes, `cleanup_children` leaves no racer process. -/
theorem survivors_nil (env : Env) (children : List Int) (racers : List RacerProc)
    (htracked : ∀ r ∈ racers, r.pc ≠ RacerPc.done → r.pid ∈ children)
    (hos : osConsistent env racers) : survivors env children racers = [] := by
  unfold survivors
  apply List.eq_nil_iff_forall_not_mem.mpr
  intro r hr
  obtain ⟨hmem, hp⟩ := List.mem_filter.mp hr
  have hp2 := of_decide_eq_true hp
  obtain ⟨hw, hk⟩ := hos r hmem hp2.1
  exact hp2.2 (killLoop_mem env children r.pid (htracked r hmem hp2.1) hw hk)

/-- A step at a place of the list replaces the process at that place by the
process after its step. -/
theorem stepAt_spec (step : Int) (k : Nat) (rs rs1 : List RacerProc) (m m1 : Shm)
    (h : stepAt step k rs m = some (rs1, m1)) :
    ∃ pre r post, rs = pre ++ r :: post ∧ rs1 = pre ++ (r.run step m).1 :: post ∧
      m1 = (r.run step m).2 := by
  induction rs generalizing k rs1 with
  | nil =>
    simp [stepAt] at h
  | cons a rest ih =>
    cases k with
    | zero =>
      unfold stepAt at h
      cases h
      exact ⟨[], a, rest, rfl, rfl, rfl⟩
    | succ k =>
      unfold stepAt at h
      cases hrec : stepAt step k rest m with
      | none =>
        rw [hrec] at h
        cases h
      | some res =>
        obtain ⟨rs2, m2⟩ := res
        rw [hrec] at h
        cases h
        obtain ⟨pre, r, post, e1, e2, e3⟩ := ih k rs2 hrec
        exact ⟨a :: pre, r, post, by rw [e1]; rfl, by rw [e2]; rfl, e3⟩

theorem run_racer_id (step : Int) (r : RacerProc) (m : Shm) :
    (r.run step m).1.racer_id = r.racer_id ∧ (r.run step m).1.pid = r.pid := by
  unfold RacerProc.run
  split_ifs <;> exact ⟨rfl, rfl⟩

theorem run_started (step : Int) (r : RacerProc) (m : Shm) :
    (r.run step m).1.started = true := by
  unfold RacerProc.run
  split_ifs with h
  · exact h
  · rfl

theorem racerStep_done (racer_id : Nat) (step : Int) (m : Shm) :
    (racerStep racer_id step (RacerPc.done, m)).1 = RacerPc.done := rfl

theorem run_not_done (step : Int) (r : RacerProc) (m : Shm)
    (h : (r.run step m).1.pc ≠ RacerPc.done) : r.pc ≠ RacerPc.done := by
  intro hd
  apply h
  unfold RacerProc.run
  split_ifs
  · simp only [hd]
    rfl
  · exact hd

/-- Lines 73-78 of `runRacer` of a racer 1..`NUM_RACERS` leave the status and
the positions of the other slots as they are. -/
theorem racerInit_frame (racer_id : Nat) (pid : Int) (m : Shm) (h1 : 1 ≤ racer_id)
    (h2 : racer_id ≤ NUM_RACERS) :
    (racerInit racer_id pid m).cells STATUS_INDEX = m.cells STATUS_INDEX ∧
    ∀ i, i < NUM_RACERS → i + 1 ≠ racer_id →
      (racerInit racer_id pid m).cells (POS_OFFSET + i) = m.cells (POS_OFFSET + i) := by
  unfold racerInit
  simp only [write_cells]
  unfold NUM_RACERS at h2
  constructor
  · rw [if_neg, if_neg]
    · unfold STATUS_INDEX PID_OFFSET NUM_RACERS
      omega
    · unfold STATUS_INDEX POS_OFFSET NUM_RACERS
      omega
  · intro i hi hne
    unfold NUM_RACERS at hi
    rw [if_neg, if_neg]
    · unfold POS_OFFSET PID_OFFSET NUM_RACERS
      omega
    · unfold POS_OFFSET
      omega

theorem forkLoop_some (env : Env) (n i : Nat) (children res : List Int)
    (h : forkLoop env n i children = some res) :
    res = children ++ (List.range n).map (fun k => env.fork (i + k)) := by
  induction n generalizing i children with
  | zero =>
    unfold forkLoop at h
    cases h
    simp
  | succ n ih =>
    unfold forkLoop at h
    simp only [] at h
    split_ifs at h
    rw [ih (i + 1) _ h, List.range_succ_eq_map]
    simp only [List.map_cons, List.map_map, List.append_assoc, List.singleton_append,
      Nat.add_zero]
    congr 2
    apply List.map_congr_left
    intro k _
    simp only [Function.comp_apply]
    congr 1
    omega

/-- The children tracked after `start_race_processes`: the new processes when
the attach succeeds, none when it fails. -/
theorem start_race_processes_children (env : Env) (p q : Parent)
    (h : start_race_processes env p = some q) :
    q.children = if env.attach_ok = true then
      (List.range NUM_RACERS).map (fun k => env.fork (1 + k)) else [] := by
  unfold start_race_processes at h
  simp only [] at h
  by_cases ha : env.attach_ok = true
  · rw [if_pos ha]
    rw [if_neg (by simp [ha])] at h
    cases hf : forkLoop env NUM_RACERS 1 (cleanup_children env p).children with
    | none =>
      rw [hf] at h
      cases h
    | some ch =>
      rw [hf] at h
      cases h
      have := forkLoop_some env NUM_RACERS 1 _ ch hf
      rw [cleanup_children_children] at this
      simpa using this
  · rw [if_neg ha]
    rw [if_pos (by simpa using ha)] at h
    cases h
    exact cleanup_children_children env p

theorem set_status_facts (p : Parent) (v : Int) (hv : v ≠ FINISHED) :
    ({ p with shm := p.shm.write STATUS_INDEX v } : Parent).children = p.children ∧
    ({ p with shm := p.shm.write STATUS_INDEX v } : Parent).log = p.log ∧
    (∀ j, j ≠ STATUS_INDEX →
      ({ p with shm := p.shm.write STATUS_INDEX v } : Parent).shm.cells j = p.shm.cells j) ∧
    (({ p with shm := p.shm.write STATUS_INDEX v } : Parent).shm.cells STATUS_INDEX = FINISHED →
      p.shm.cells STATUS_INDEX = FINISHED) := by
  refine ⟨rfl, rfl, ?_, ?_⟩
  · intro j hj
    simp only [write_cells, if_neg hj]
  · intro h
    simp only [write_cells, if_true] at h
    exact absurd h hv

/-- The key handling of a pass that does not begin a race returns, keeps the
tracked children, the log and every cell but the status, and does not make the
status `FINISHED`. -/
theorem handle_no_begin (env : Env) (p : Parent) (h : ¬ beginsRace env p) :
    ∃ q, handleView env (handleQuit env p) = some q ∧ q.children = p.children ∧
      q.log = p.log ∧ (∀ j, j ≠ STATUS_INDEX → q.shm.cells j = p.shm.cells j) ∧
      (q.shm.cells STATUS_INDEX = FINISHED → p.shm.cells STATUS_INDEX = FINISHED) := by
  obtain ⟨n1, n2, n3, n4, n5, n6, n7, n8, n9, n10⟩ := status_ne
  have same : p.children = p.children ∧ p.log = p.log ∧
      (∀ j, j ≠ STATUS_INDEX → p.shm.cells j = p.shm.cells j) ∧
      (p.shm.cells STATUS_INDEX = FINISHED → p.shm.cells STATUS_INDEX = FINISHED) :=
    ⟨rfl, rfl, fun _ _ => rfl, fun h => h⟩
  by_cases hq : isQuit env.ch
  · rw [handleView_quit env _ hq]
    refine ⟨_, rfl, ?_⟩
    unfold handleQuit
    rw [if_pos hq]
    split_ifs
    · exact set_status_facts p PAUSED n8
    · exact set_status_facts p EXITING (fun h => n10 h.symm)
  · rw [handleQuit_not_quit env p hq]
    unfold handleView
    by_cases hv : p.current_view = 0
    · rw [if_pos hv]
      by_cases hs : isStart env.ch
      · have hrf : ¬ (p.shm.cells STATUS_INDEX = READY ∨ p.shm.cells STATUS_INDEX = FINISHED) :=
          fun hrf => h ⟨hv, hs, hrf⟩
        rw [if_pos hs, if_neg hrf]
        split_ifs
        · exact ⟨_, rfl, set_status_facts p RUNNING n6⟩
        · exact ⟨_, rfl, same⟩
      · rw [if_neg hs]
        split_ifs
        · exact ⟨_, rfl, set_status_facts p PAUSED n8⟩
        · exact ⟨_, rfl, same⟩
        · exact ⟨_, rfl, same⟩
        · exact ⟨_, rfl, same⟩
    · rw [if_neg hv]
      split_ifs
      · exact ⟨_, rfl, same⟩
      · exact ⟨_, rfl, same⟩

theorem winnerScan_cells (m m1 : Shm) (h : m.cells = m1.cells) (n i : Nat) (w : Int) :
    winnerScan m n i w = winnerScan m1 n i w := by
  induction n generalizing i with
  | zero => rfl
  | succ n ih =>
    unfold winnerScan
    rw [h, ih]

/-- A pass that does not begin a race keeps the tracked children and every
cell but the status, does not make the status `FINISHED`, and logs nothing or,
under `FINISHED`, one result with the winner of the scan. -/
theorem tick_no_begin (env : Env) (p p1 : Parent) (h : ¬ beginsRace env p)
    (ht : tick env p = some p1) :
    p1.children = p.children ∧ (∀ j, j ≠ STATUS_INDEX → p1.shm.cells j = p.shm.cells j) ∧
    (p1.shm.cells STATUS_INDEX = FINISHED → p.shm.cells STATUS_INDEX = FINISHED) ∧
    (p1.log = p.log ∨ (p1.shm.cells STATUS_INDEX = FINISHED ∧
      ∃ d, p1.log = p.log ++ [(winnerScan p1.shm NUM_RACERS 0 0, d)])) := by
  obtain ⟨q, hq, hch, hlog, hcells, hfin⟩ := handle_no_begin env p h
  unfold tick at ht
  rw [hq] at ht
  cases ht
  refine ⟨?_, ?_, ?_, ?_⟩
  · rw [logAndDraw_children, hch]
  · intro j hj
    rw [logAndDraw_cells, hcells j hj]
  · rw [logAndDraw_cells]
    exact hfin
  · by_cases hc : q.current_view = 0 ∧ q.shm.cells STATUS_INDEX = FINISHED ∧
        q.shm.start_time ≠ 1
    · right
      obtain ⟨-, l2⟩ := logAndDraw_logs env q hc.1 hc.2.1 hc.2.2
      refine ⟨?_, clockMs env.clock_end - q.shm.start_time, ?_⟩
      · rw [logAndDraw_cells]
        exact hc.2.1
      · rw [l2, hlog, winnerScan_cells q.shm (logAndDraw env q).shm
          (logAndDraw_cells env q).symm]
    · left
      rw [(logAndDraw_idle env q hc).2, hlog]

/-- A pass that begins a race ends with status `RUNNING`, logs nothing, and
tracks the new processes, or none when the attach fails. -/
theorem tick_begins (env : Env) (p p1 : Parent) (h : beginsRace env p)
    (ht : tick env p = some p1) :
    p1.shm.cells STATUS_INDEX = RUNNING ∧ p1.log = p.log ∧
    p1.children = if env.attach_ok = true then
      (List.range NUM_RACERS).map (fun k => env.fork (1 + k)) else [] := by
  obtain ⟨hv, hst, hrf⟩ := h
  unfold tick at ht
  rw [handleQuit_not_quit env p (start_not_quit _ hst)] at ht
  unfold handleView at ht
  rw [if_pos hv, if_pos hst, if_pos hrf] at ht
  cases hq : start_race_processes env p with
  | none =>
    rw [hq] at ht
    cases ht
  | some q =>
    rw [hq] at ht
    cases ht
    have hnf : ({ q with shm := { q.shm.write STATUS_INDEX RUNNING with
        start_time := clockMs env.clock_start } } : Parent).shm.cells STATUS_INDEX ≠
        FINISHED := by
      simp only [write_cells, if_true]
      exact status_ne.2.2.2.2.2.1
    refine ⟨?_, ?_, ?_⟩
    · rw [logAndDraw_cells]
      simp only [write_cells, if_true]
    · rw [(logAndDraw_not_finished env _ hnf).2]
      exact start_race_processes_log env p q hq
    · rw [logAndDraw_children]
      exact start_race_processes_children env p q hq

/-- When some position is `RACE_LENGTH`, the winner scan returns a racer
number. -/
theorem winnerScan_range (m : Shm) (i : Nat) (hi : i < NUM_RACERS)
    (hpos : m.cells (POS_OFFSET + i) = RACE_LENGTH) :
    1 ≤ winnerScan m NUM_RACERS 0 0 ∧ winnerScan m NUM_RACERS 0 0 ≤ (NUM_RACERS : Int) := by
  rcases winnerScan_cases m NUM_RACERS 0 0 with ⟨-, h2⟩ | ⟨k, -, hk2, -, -, hk⟩
  · have := h2 i (Nat.zero_le i) (by omega)
    omega
  · rw [hk 0]
    omega

theorem mem_replaced (pre post : List RacerProc) (r r1 x : RacerProc)
    (h : x ∈ pre ++ r1 :: post) : x = r1 ∨ (x ∈ pre ++ r :: post ∧ (x ∈ pre ∨ x ∈ post)) := by
  rcases List.mem_append.mp h with h | h
  · exact Or.inr ⟨List.mem_append.mpr (Or.inl h), Or.inl h⟩
  · rcases List.mem_cons.mp h with h | h
    · exact Or.inl h
    · exact Or.inr ⟨List.mem_append.mpr (Or.inr (List.mem_cons_of_mem _ h)), Or.inr h⟩

theorem nodup_map_middle (pre post : List RacerProc) (r x : RacerProc)
    (h : ((pre ++ r :: post).map (fun r => r.racer_id)).Nodup) (hx : x ∈ pre ∨ x ∈ post) :
    x.racer_id ≠ r.racer_id := by
  rw [List.map_append, List.map_cons, List.nodup_middle, List.nodup_cons] at h
  intro he
  apply h.1
  rw [← he]
  rcases hx with hx | hx
  · exact List.mem_append.mpr (Or.inl (List.mem_map.mpr ⟨x, hx, rfl⟩))
  · exact List.mem_append.mpr (Or.inr (List.mem_map.mpr ⟨x, hx, rfl⟩))

/-- A step of a racer process keeps what holds in every reachable state. -/
theorem racer_event_invariant (w w1 : World) (k : Nat) (step : Int) (ih : WorldInv w)
    (hstep : worldEvent w (WorldEvent.racer k step) = some w1) : WorldInv w1 := by
  obtain ⟨ia, ib, ic, id, ie⟩ := ih
  have happ : worldEvent w (WorldEvent.racer k step) =
      match stepAt step k w.racers w.parent.shm with
      | none => none
      | some (rs, m1) => some { parent := { w.parent with shm := m1 }, racers := rs } := rfl
  rw [happ] at hstep
  cases hs : stepAt step k w.racers w.parent.shm with
  | none =>
    rw [hs] at hstep
    cases hstep
  | some res =>
    obtain ⟨rs, m1⟩ := res
    rw [hs] at hstep
    cases hstep
    obtain ⟨pre, r, post, e1, e2, e3⟩ := stepAt_spec step k w.racers rs w.parent.shm m1 hs
    have hrmem : r ∈ w.racers := by
      rw [e1]
      exact List.mem_append.mpr (Or.inr (List.mem_cons_self _ _))
    obtain ⟨hid, hpid⟩ := run_racer_id step r w.parent.shm
    obtain ⟨hr1, hr2⟩ := ia r hrmem
    obtain ⟨-, k2, k3⟩ := position_index_lt r.racer_id hr1 hr2
    have hold : ∀ x, x ∈ rs → x = (r.run step w.parent.shm).1 ∨
        (x ∈ w.racers ∧ (x ∈ pre ∨ x ∈ post)) := by
      intro x hx
      rw [e2] at hx
      rw [e1]
      exact mem_replaced pre post r _ x hx
    refine ⟨?_, ?_, ?_, ?_, ie⟩
    · intro x hx
      rcases hold x hx with h | ⟨h, -⟩
      · rw [h, hid]
        exact ⟨hr1, hr2⟩
      · exact ia x h
    · show (rs.map (fun r => r.racer_id)).Nodup
      rw [e2, List.map_append, List.map_cons, hid, ← List.map_cons (fun r => r.racer_id) r post,
        ← List.map_append, ← e1]
      exact ib
    · intro x hx hpc
      rcases hold x hx with h | ⟨h, -⟩
      · rw [h] at hpc ⊢
        rw [hpid]
        exact ic r hrmem (run_not_done step r w.parent.shm hpc)
      · exact ic x h hpc
    · show m1.cells STATUS_INDEX = FINISHED → ∃ i, i < NUM_RACERS ∧
        m1.cells (POS_OFFSET + i) = RACE_LENGTH ∧ ∀ x ∈ rs, x.racer_id = i + 1 → x.started = true
      intro hfin
      have keep : m1.cells STATUS_INDEX = w.parent.shm.cells STATUS_INDEX →
          (∀ i, i < NUM_RACERS → (∀ x ∈ w.racers, x.racer_id = i + 1 → x.started = true) →
            m1.cells (POS_OFFSET + i) = w.parent.shm.cells (POS_OFFSET + i)) →
          ∃ i, i < NUM_RACERS ∧ m1.cells (POS_OFFSET + i) = RACE_LENGTH ∧
            ∀ x ∈ rs, x.racer_id = i + 1 → x.started = true := by
        intro hst hposs
        obtain ⟨i, hi, hpos, hall⟩ := id (hst ▸ hfin)
        refine ⟨i, hi, ?_, ?_⟩
        · rw [hposs i hi hall, hpos]
        · intro x hx hxid
          rcases hold x hx with h | ⟨h, -⟩
          · rw [h]
            exact run_started step r w.parent.shm
          · exact hall x h hxid
      by_cases hstarted : r.started = true
      · have hm1 : m1 = (racerStep r.racer_id step (r.pc, w.parent.shm)).2 := by
          rw [e3]
          unfold RacerProc.run
          rw [if_pos hstarted]
        rcases racerStep_status r.racer_id step r.pc w.parent.shm k2 with h | ⟨-, -, -, hpos⟩
        · have hsame : m1 = w.parent.shm := by
            rw [hm1]
            apply racerStep_not_running
            rw [← h, ← hm1, hfin]
            exact fun hh => status_ne.2.2.2.2.2.1 hh.symm
          apply keep
          · rw [hsame]
          · intro i _ _
            rw [hsame]
        · refine ⟨r.racer_id - 1, by omega, ?_, ?_⟩
          · rw [hm1, ← k3]
            exact hpos
          · intro x hx hxid
            rcases hold x hx with h | ⟨-, h⟩
            · rw [h]
              exact run_started step r w.parent.shm
            · exfalso
              apply nodup_map_middle pre post r x (e1 ▸ ib) h
              omega
      · have hm1 : m1 = racerInit r.racer_id r.pid w.parent.shm := by
          rw [e3]
          unfold RacerProc.run
          rw [if_neg hstarted]
        obtain ⟨f1, f2⟩ := racerInit_frame r.racer_id r.pid w.parent.shm hr1 hr2
        apply keep
        · rw [hm1]
          exact f1
        · intro i hi hall
          rw [hm1]
          apply f2 i hi
          intro he
          exact hstarted (hall r hrmem he.symm)

theorem newRacers_facts (env : Env) :
    (∀ r ∈ newRacers env, 1 ≤ r.racer_id ∧ r.racer_id ≤ NUM_RACERS) ∧
    ((newRacers env).map (fun r => r.racer_id)).Nodup ∧
    (∀ r ∈ newRacers env,
      r.pid ∈ (List.range NUM_RACERS).map (fun k => env.fork (1 + k))) := by
  refine ⟨?_, ?_, ?_⟩
  · intro r hr
    obtain ⟨k, hk, rfl⟩ := List.mem_map.mp hr
    have := List.mem_range.mp hk
    simp only []
    omega
  · have e : (newRacers env).map (fun r => r.racer_id) = [1, 2, 3, 4] := rfl
    rw [e]
    decide
  · intro r hr
    obtain ⟨k, hk, rfl⟩ := List.mem_map.mp hr
    exact List.mem_map.mpr ⟨k, hk, rfl⟩

/-- A pass of the coordinator keeps what holds in every reachable state. -/
theorem coordinator_event_invariant (w w1 : World) (env : Env) (ih : WorldInv w)
    (hstep : worldEvent w (WorldEvent.coordinator env) = some w1) : WorldInv w1 := by
  obtain ⟨ia, ib, ic, id, ie⟩ := ih
  have happ : worldEvent w (WorldEvent.coordinator env) =
      if w.parent.shm.cells STATUS_INDEX = EXITING then some w
      else if beginsRace env w.parent then
        if osConsistent env w.racers then
          match tick env w.parent with
          | none => none
          | some p1 =>
            some { parent := p1,
                   racers := survivors env w.parent.children w.racers ++
                     (if env.attach_ok = true then newRacers env else []) }
        else none
      else
        match tick env w.parent with
        | none => none
        | some p1 => some { parent := p1, racers := w.racers } := rfl
  rw [happ] at hstep
  by_cases hx : w.parent.shm.cells STATUS_INDEX = EXITING
  · rw [if_pos hx] at hstep
    cases hstep
    exact ⟨ia, ib, ic, id, ie⟩
  · rw [if_neg hx] at hstep
    by_cases hb : beginsRace env w.parent
    · rw [if_pos hb] at hstep
      by_cases hos : osConsistent env w.racers
      · rw [if_pos hos] at hstep
        cases ht : tick env w.parent with
        | none =>
          rw [ht] at hstep
          cases hstep
        | some p1 =>
          rw [ht] at hstep
          cases hstep
          obtain ⟨t1, t2, t3⟩ := tick_begins env w.parent p1 hb ht
          obtain ⟨g1, g2, g3⟩ := newRacers_facts env
          rw [survivors_nil env w.parent.children w.racers ic hos, List.nil_append]
          by_cases ha : env.attach_ok = true
          · rw [if_pos ha] at t3 ⊢
            refine ⟨g1, g2, ?_, ?_, ?_⟩
            · intro r hr _
              show r.pid ∈ p1.children
              rw [t3]
              exact g3 r hr
            · intro hfin
              exact absurd (t1.symm.trans hfin) status_ne.2.2.2.2.2.1
            · show ∀ e ∈ p1.log, 1 ≤ e.1 ∧ e.1 ≤ (NUM_RACERS : Int)
              rw [t2]
              exact ie
          · rw [if_neg ha]
            refine ⟨fun r hr => absurd hr (List.not_mem_nil r), List.nodup_nil,
              fun r hr => absurd hr (List.not_mem_nil r), ?_, ?_⟩
            · intro hfin
              exact absurd (t1.symm.trans hfin) status_ne.2.2.2.2.2.1
            · show ∀ e ∈ p1.log, 1 ≤ e.1 ∧ e.1 ≤ (NUM_RACERS : Int)
              rw [t2]
              exact ie
      · rw [if_neg hos] at hstep
        cases hstep
    · rw [if_neg hb] at hstep
      cases ht : tick env w.parent with
      | none =>
        rw [ht] at hstep
        cases hstep
      | some p1 =>
        rw [ht] at hstep
        cases hstep
        obtain ⟨t1, t2, t3, t4⟩ := tick_no_begin env w.parent p1 hb ht
        have hd : p1.shm.cells STATUS_INDEX = FINISHED →
            ∃ i, i < NUM_RACERS ∧ p1.shm.cells (POS_OFFSET + i) = RACE_LENGTH ∧
              ∀ r ∈ w.racers, r.racer_id = i + 1 → r.started = true := by
          intro hfin
          obtain ⟨i, hi, hpos, hall⟩ := id (t3 hfin)
          refine ⟨i, hi, ?_, hall⟩
          rw [t2 (POS_OFFSET + i), hpos]
          unfold POS_OFFSET STATUS_INDEX
          unfold NUM_RACERS at hi ⊢
          omega
        refine ⟨ia, ib, ?_, hd, ?_⟩
        · intro r hr hpc
          show r.pid ∈ p1.children
          rw [t1]
          exact ic r hr hpc
        · show ∀ e ∈ p1.log, 1 ≤ e.1 ∧ e.1 ≤ (NUM_RACERS : Int)
          rcases t4 with t4 | ⟨hfin, d, t4⟩
          · rw [t4]
            exact ie
          · rw [t4]
            intro e he
            rcases List.mem_append.mp he with he | he
            · exact ie e he
            · rw [List.mem_singleton.mp he]
              obtain ⟨i, hi, hpos, -⟩ := hd hfin
              exact winnerScan_range p1.shm i hi hpos

/-- What `WorldInv` says holds in every reachable state of the program. -/
theorem world_invariant (w : World) (h : WorldReachable w) : WorldInv w := by
  induction h with
  | init cells =>
    refine ⟨fun r hr => absurd hr (List.not_mem_nil r), List.nodup_nil,
      fun r hr => absurd hr (List.not_mem_nil r), ?_, fun e he => absurd he (List.not_mem_nil e)⟩
    intro hfin
    have hst : (World.initial cells).parent.shm.cells STATUS_INDEX = READY := by
      show (if STATUS_INDEX = STATUS_INDEX then READY else cells STATUS_INDEX) = READY
      exact if_pos rfl
    exact absurd (hst.symm.trans hfin) status_ne.2.2.1
  | step w w1 e _ hstep ih =>
    cases e with
    | coordinator env => exact coordinator_event_invariant w w1 env ih hstep
    | racer k step => exact racer_event_invariant w w1 k step ih hstep

theorem reachable_runWorld (evs : List WorldEvent) (w w1 : World) (hw : WorldReachable w)
    (h : runWorld evs w = some w1) : WorldReachable w1 := by
  induction evs generalizing w with
  | nil =>
    unfold runWorld at h
    cases h
    exact hw
  | cons e rest ih =>
    unfold runWorld at h
    cases hq : worldEvent w e with
    | none =>
      rw [hq] at h
      cases h
    | some q =>
      rw [hq] at h
      exact ih q (WorldReachable.step w q e hw hq) h

theorem reachable_afterWorld (evs : List WorldEvent) (w : World) (hw : WorldReachable w) :
    WorldReachable (afterWorld evs w) := by
  unfold afterWorld
  cases h : runWorld evs w with
  | none => exact hw
  | some w1 => exact reachable_runWorld evs w w1 hw h

/-- Claim C13. In every state of the program reached from the initial state
by passes of the coordinator (whose `cleanup_children` kills every racer
process still in its loop before the positions are cleared on a restart) and
by steps of racer processes (lines 73-78 of `runRacer`, or one step of the
loop, with any step drawn), if the status is `FINISHED` then some position is
`RACE_LENGTH` and the winner scan returns a racer number 1..`NUM_RACERS`, not
0; and every result that was logged names a racer 1..`NUM_RACERS`. -/
theorem finished_names_a_racer (w : World) (h : WorldReachable w) :
    (w.parent.shm.status = FINISHED →
      (∃ i, i < NUM_RACERS ∧ w.parent.shm.position i = RACE_LENGTH) ∧
      winnerScan w.parent.shm NUM_RACERS 0 0 ≠ 0 ∧
      1 ≤ winnerScan w.parent.shm NUM_RACERS 0 0 ∧
      winnerScan w.parent.shm NUM_RACERS 0 0 ≤ (NUM_RACERS : Int)) ∧
    (∀ e ∈ w.parent.log, 1 ≤ e.1 ∧ e.1 ≤ (NUM_RACERS : Int)) := by
  obtain ⟨-, -, -, id, ie⟩ := world_invariant w h
  refine ⟨?_, ie⟩
  intro hfin
  obtain ⟨i, hi, hpos, -⟩ := id hfin
  obtain ⟨r1, r2⟩ := winnerScan_range w.parent.shm i hi hpos
  exact ⟨⟨i, hi, hpos⟩, by omega, r1, r2⟩

/-- Claim C13 at a sample: after the race `sampleRace` the status is
`FINISHED`, racer 1 is at `RACE_LENGTH` and the result logged names racer 1. -/
theorem finished_names_a_racer_witness :
    (afterWorld sampleRace (World.initial (fun _ => 0))).parent.shm.status = FINISHED ∧
    (afterWorld sampleRace (World.initial (fun _ => 0))).parent.log = [(1, 12345)] ∧
    ((afterWorld sampleRace (World.initial (fun _ => 0))).parent.shm.status = FINISHED →
      (∃ i, i < NUM_RACERS ∧
        (afterWorld sampleRace (World.initial (fun _ => 0))).parent.shm.position i =
          RACE_LENGTH) ∧
      winnerScan (afterWorld sampleRace (World.initial (fun _ => 0))).parent.shm
        NUM_RACERS 0 0 ≠ 0 ∧
      1 ≤ winnerScan (afterWorld sampleRace (World.initial (fun _ => 0))).parent.shm
        NUM_RACERS 0 0 ∧
      winnerScan (afterWorld sampleRace (World.initial (fun _ => 0))).parent.shm
        NUM_RACERS 0 0 ≤ (NUM_RACERS : Int)) ∧
    (∀ e ∈ (afterWorld sampleRace (World.initial (fun _ => 0))).parent.log,
      1 ≤ e.1 ∧ e.1 ≤ (NUM_RACERS : Int)) :=
  ⟨rfl, rfl,
    finished_names_a_racer (afterWorld sampleRace (World.initial (fun _ => 0)))
      (reachable_afterWorld _ _ (WorldReachable.init _))⟩

/-! ## The line of `logRaceResult` -/

theorem digitChar_isDigit (d : Nat) : (digitChar d).isDigit = true := by
  unfold digitChar
  have h : d % 10 < 10 := Nat.mod_lt d (by decide)
  interval_cases d % 10 <;> rfl

/-- The time stamp has the shape of `YYYY-MM-DD HH:MM:SS`: 19 characters, the
digits and the separators at their places. -/
theorem strftime_shape (tm : Tm) :
    shape (strftime tm) = "9999-99-99 99:99:99" ∧ (strftime tm).length = 19 := by
  constructor
  · unfold shape strftime
    simp only [lastDigits, List.nil_append, List.append_assoc, List.cons_append, List.map_cons,
      List.map_nil, digitChar_isDigit, if_true]
    rfl
  · unfold strftime
    simp only [lastDigits, List.nil_append, List.append_assoc, List.cons_append]
    rfl

/-! ## Rounding -/

theorem roundHalfEven_bound (num den : Nat) (hd : 0 < den) :
    2 * (roundHalfEven num den * den) ≤ 2 * num + den ∧
    2 * num ≤ 2 * (roundHalfEven num den * den) + den := by
  have h1 := Nat.div_add_mod num den
  have h2 := Nat.mod_lt num hd
  have h3 : den * (num / den) = num / den * den := Nat.mul_comm _ _
  unfold roundHalfEven
  split_ifs with h
  · rw [Nat.add_mul, Nat.one_mul]
    rcases h with h | ⟨h, -⟩ <;> omega
  · have : ¬ 2 * (num % den) > den := fun hh => h (Or.inl hh)
    omega

theorem roundHalfEven_eq (num den t : Nat) (hd : 0 < den)
    (h1 : 2 * (t * den) < 2 * num + den) (h2 : 2 * num < 2 * (t * den) + den) :
    roundHalfEven num den = t := by
  obtain ⟨b1, b2⟩ := roundHalfEven_bound num den hd
  rcases Nat.lt_trichotomy (roundHalfEven num den) t with h | h | h
  · have : (roundHalfEven num den + 1) * den ≤ t * den := Nat.mul_le_mul_right den h
    rw [Nat.add_mul, Nat.one_mul] at this
    omega
  · exact h
  · have : (t + 1) * den ≤ roundHalfEven num den * den := Nat.mul_le_mul_right den h
    rw [Nat.add_mul, Nat.one_mul] at this
    omega

theorem scaleBinary_down (fuel num den : Nat) (e : Int) (hd : 0 < den)
    (h1 : 2 ^ 52 ≤ num / den) (h2 : num / den < 2 ^ (53 + fuel)) :
    ∃ j : Nat, scaleBinary fuel num den e = (num, den * 2 ^ j, e + (j : Int)) ∧
      2 ^ 52 ≤ num / (den * 2 ^ j) ∧ num / (den * 2 ^ j) < 2 ^ 53 := by
  induction fuel generalizing den e with
  | zero =>
    exact ⟨0, by simp [scaleBinary], by simpa using h1, by simpa using h2⟩
  | succ fuel ih =>
    unfold scaleBinary
    by_cases hge : num / den ≥ 2 ^ 53
    · rw [if_pos hge]
      have hdiv : num / (2 * den) = num / den / 2 := by
        rw [Nat.mul_comm, Nat.div_div_eq_div_mul]
      have h1' : 2 ^ 52 ≤ num / (2 * den) := by
        rw [hdiv]
        omega
      have h2' : num / (2 * den) < 2 ^ (53 + fuel) := by
        rw [hdiv]
        have : 2 ^ (53 + (fuel + 1)) = 2 * 2 ^ (53 + fuel) := by
          rw [← Nat.add_assoc, Nat.pow_succ, Nat.mul_comm]
        omega
      obtain ⟨j, e1, e2, e3⟩ := ih (2 * den) (e + 1) (by omega) h1' h2'
      refine ⟨j + 1, ?_, ?_, ?_⟩
      · rw [e1]
        have : 2 * den * 2 ^ j = den * 2 ^ (j + 1) := by
          rw [Nat.pow_succ]
          ring
        rw [this]
        congr 2
        push_cast
        ring
      · have : den * 2 ^ (j + 1) = 2 * den * 2 ^ j := by
          rw [Nat.pow_succ]
          ring
        rw [this]
        exact e2
      · have : den * 2 ^ (j + 1) = 2 * den * 2 ^ j := by
          rw [Nat.pow_succ]
          ring
        rw [this]
        exact e3
    · rw [if_neg hge, if_neg (by omega)]
      exact ⟨0, by simp, by simpa using h1, by simpa using (by omega : num / den < 2 ^ 53)⟩

theorem scaleBinary_up (fuel num den : Nat) (e : Int) (hd : 0 < den)
    (h1 : num / den < 2 ^ 53) (h2 : 2 ^ 52 ≤ num * 2 ^ fuel / den) :
    ∃ i : Nat, scaleBinary fuel num den e = (num * 2 ^ i, den, e - (i : Int)) ∧
      2 ^ 52 ≤ num * 2 ^ i / den ∧ num * 2 ^ i / den < 2 ^ 53 := by
  induction fuel generalizing num e with
  | zero =>
    exact ⟨0, by simp [scaleBinary], by simpa using h2, by simpa using h1⟩
  | succ fuel ih =>
    unfold scaleBinary
    rw [if_neg (by omega)]
    by_cases hlt : num / den < 2 ^ 52
    · rw [if_pos hlt]
      have h1' : 2 * num / den < 2 ^ 53 := by
        rw [Nat.div_lt_iff_lt_mul hd] at hlt ⊢
        omega
      have h2' : 2 ^ 52 ≤ 2 * num * 2 ^ fuel / den := by
        have : 2 * num * 2 ^ fuel = num * 2 ^ (fuel + 1) := by
          rw [Nat.pow_succ]
          ring
        rw [this]
        exact h2
      obtain ⟨i, e1, e2, e3⟩ := ih (2 * num) (e - 1) h1' h2'
      have hm : 2 * num * 2 ^ i = num * 2 ^ (i + 1) := by
        rw [Nat.pow_succ]
        ring
      refine ⟨i + 1, ?_, ?_, ?_⟩
      · rw [e1, hm]
        congr 2
        push_cast
        ring
      · rw [← hm]
        exact e2
      · rw [← hm]
        exact e3
    · rw [if_neg hlt]
      exact ⟨0, by simp, by simpa using (by omega : 2 ^ 52 ≤ num / den), by simpa using h1⟩

theorem decimalExponent_up (fuel a b : Nat) (x : Int) (hb : 0 < b) (h1 : b ≤ a)
    (h2 : a < b * 10 ^ (fuel + 1)) :
    ∃ k : Nat, decimalExponent fuel a b x = x + (k : Int) ∧ b * 10 ^ k ≤ a ∧ a < b * 10 ^ (k + 1) := by
  induction fuel generalizing b x with
  | zero =>
    exact ⟨0, by simp [decimalExponent], by simpa using h1, by simpa using h2⟩
  | succ fuel ih =>
    unfold decimalExponent
    by_cases hge : a ≥ 10 * b
    · rw [if_pos hge]
      have h2' : a < 10 * b * 10 ^ (fuel + 1) := by
        have : b * 10 ^ (fuel + 1 + 1) = 10 * b * 10 ^ (fuel + 1) := by
          rw [Nat.pow_succ]
          ring
        omega
      obtain ⟨k, e1, e2, e3⟩ := ih (10 * b) (x + 1) (by omega) hge h2'
      have hm : ∀ n, 10 * b * 10 ^ n = b * 10 ^ (n + 1) := by
        intro n
        rw [Nat.pow_succ]
        ring
      refine ⟨k + 1, ?_, ?_, ?_⟩
      · rw [e1]
        push_cast
        ring
      · rw [← hm]
        exact e2
      · rw [← hm]
        exact e3
    · rw [if_neg hge, if_neg (by omega)]
      exact ⟨0, by simp, by simpa using h1, by simpa using (by omega : a < b * 10)⟩

theorem decimalExponent_down (fuel a b : Nat) (x : Int) (h1 : a < 10 * b)
    (h2 : b ≤ a * 10 ^ fuel) :
    ∃ k : Nat, decimalExponent fuel a b x = x - (k : Int) ∧ b ≤ a * 10 ^ k ∧ a * 10 ^ k < 10 * b := by
  induction fuel generalizing a x with
  | zero =>
    exact ⟨0, by simp [decimalExponent], by simpa using h2, by simpa using h1⟩
  | succ fuel ih =>
    unfold decimalExponent
    rw [if_neg (by omega)]
    by_cases hlt : a < b
    · rw [if_pos hlt]
      have h2' : b ≤ 10 * a * 10 ^ fuel := by
        have : a * 10 ^ (fuel + 1) = 10 * a * 10 ^ fuel := by
          rw [Nat.pow_succ]
          ring
        omega
      obtain ⟨k, e1, e2, e3⟩ := ih (10 * a) (x - 1) (by omega) h2'
      have hm : ∀ n, 10 * a * 10 ^ n = a * 10 ^ (n + 1) := by
        intro n
        rw [Nat.pow_succ]
        ring
      refine ⟨k + 1, ?_, ?_, ?_⟩
      · rw [e1]
        push_cast
        ring
      · rw [← hm]
        exact e2
      · rw [← hm]
        exact e3
    · rw [if_neg hlt]
      exact ⟨0, by simp, by simpa using (by omega : b ≤ a), by simpa using h1⟩

theorem streamDouble_eq (a b : Nat) :
    streamDouble a b =
      if a = 0 then "0" else writeDigits (sixSignificant a b).1 (sixSignificant a b).2 := rfl

theorem roundHalfEven_one (num : Nat) : roundHalfEven num 1 = num := by
  unfold roundHalfEven
  simp [Nat.mod_one]

/-- The `double` nearest to a fraction: the fraction is scaled by a power of
two until its integer part has 53 bits, and rounded there. -/
theorem nearestDouble_spec (a b : Nat) (ha : 0 < a) (hb : 0 < b)
    (hlo : 2 ^ 52 ≤ a * 2 ^ 2200 / b) (hhi : a / b < 2 ^ (53 + 2200)) :
    ∃ i j : Nat, nearestDouble a b = (roundHalfEven (a * 2 ^ i) (b * 2 ^ j) * 2 ^ j, 2 ^ i) ∧
      (i = 0 ∨ j = 0) ∧ 2 ^ 52 ≤ a * 2 ^ i / (b * 2 ^ j) ∧ a * 2 ^ i / (b * 2 ^ j) < 2 ^ 53 := by
  unfold nearestDouble
  rw [if_neg (by omega)]
  by_cases h : 2 ^ 52 ≤ a / b
  · obtain ⟨j, e1, e2, e3⟩ := scaleBinary_down 2200 a b 0 hb h hhi
    refine ⟨0, j, ?_, Or.inl rfl, by simpa using e2, by simpa using e3⟩
    simp only [e1]
    rw [if_pos (by omega)]
    simp
  · have h' : a / b < 2 ^ 53 := by omega
    obtain ⟨i, e1, e2, e3⟩ := scaleBinary_up 2200 a b 0 hb h' hlo
    refine ⟨i, 0, ?_, Or.inr rfl, by simpa using e2, by simpa using e3⟩
    simp only [e1]
    by_cases hi : i = 0
    · subst hi
      simp
    · rw [if_neg (by omega)]
      simp

/-- The `double` nearest to a fraction differs from it by at most one part in
two to the 53. -/
theorem nearestDouble_close (a b : Nat) (ha : 0 < a) (hb : 0 < b)
    (hlo : 2 ^ 52 ≤ a * 2 ^ 2200 / b) (hhi : a / b < 2 ^ (53 + 2200)) :
    0 < (nearestDouble a b).2 ∧
    (2 ^ 53 - 1) * (a * (nearestDouble a b).2) ≤ 2 ^ 53 * ((nearestDouble a b).1 * b) ∧
    2 ^ 53 * ((nearestDouble a b).1 * b) ≤ (2 ^ 53 + 1) * (a * (nearestDouble a b).2) ∧
    ∃ i : Nat, (nearestDouble a b).2 = 2 ^ i := by
  obtain ⟨i, j, e, hij, h1, h2⟩ := nearestDouble_spec a b ha hb hlo hhi
  have hD : 0 < b * 2 ^ j := Nat.mul_pos hb (pow_pos (by decide) _)
  obtain ⟨r1, r2⟩ := roundHalfEven_bound (a * 2 ^ i) (b * 2 ^ j) hD
  have h3 : 2 ^ 52 * (b * 2 ^ j) ≤ a * 2 ^ i := by
    have := (Nat.le_div_iff_mul_le hD).mp h1
    exact this
  rw [e]
  simp only []
  have e1 : roundHalfEven (a * 2 ^ i) (b * 2 ^ j) * 2 ^ j * b =
      roundHalfEven (a * 2 ^ i) (b * 2 ^ j) * (b * 2 ^ j) := by ring
  rw [e1]
  refine ⟨pow_pos (by decide) _, ?_, ?_, i, rfl⟩
  · generalize roundHalfEven (a * 2 ^ i) (b * 2 ^ j) * (b * 2 ^ j) = P at *
    generalize a * 2 ^ i = N at *
    generalize b * 2 ^ j = D at *
    omega
  · generalize roundHalfEven (a * 2 ^ i) (b * 2 ^ j) * (b * 2 ^ j) = P at *
    generalize a * 2 ^ i = N at *
    generalize b * 2 ^ j = D at *
    omega

/-- A whole number below two to the 53 is a `double`. -/
theorem nearestDouble_nat (n : Nat) (hn : 0 < n) (hlt : n < 2 ^ 53) :
    ∃ i : Nat, nearestDouble n 1 = (n * 2 ^ i, 2 ^ i) := by
  have hlo : 2 ^ 52 ≤ n * 2 ^ 2200 / 1 := by
    rw [Nat.div_one]
    calc 2 ^ 52 ≤ 1 * 2 ^ 2200 := by
          rw [Nat.one_mul]
          exact pow_le_pow_right₀ (by decide) (by decide)
      _ ≤ n * 2 ^ 2200 := Nat.mul_le_mul_right _ hn
  have hhi : n / 1 < 2 ^ (53 + 2200) := by
    rw [Nat.div_one]
    exact lt_of_lt_of_le hlt (pow_le_pow_right₀ (by decide) (by decide))
  obtain ⟨i, j, e, hij, h1, h2⟩ := nearestDouble_spec n 1 hn (by decide) hlo hhi
  have hj : j = 0 := by
    rcases hij with h | h
    · subst h
      simp only [pow_zero, Nat.mul_one, Nat.one_mul] at h1
      by_contra hj
      have : 2 ≤ 2 ^ j := by
        calc 2 = 2 ^ 1 := rfl
          _ ≤ 2 ^ j := pow_le_pow_right₀ (by decide) (by omega)
      have h4 := (Nat.le_div_iff_mul_le (pow_pos (by decide) _)).mp h1
      have : 2 ^ 52 * 2 ≤ 2 ^ 52 * 2 ^ j := Nat.mul_le_mul_left _ this
      omega
    · exact h
  subst hj
  refine ⟨i, ?_⟩
  rw [e]
  simp [roundHalfEven_one]

/-- The value of `(double)duration_ms / 1000.0` for a positive duration below
two to the 53: a fraction over a power of two that differs from
`duration_ms / 1000` by at most one part in two to the 53. -/
theorem secondsDouble_close (n : Nat) (hn : 0 < n) (hlt : n < 2 ^ 53) :
    0 < (secondsDouble n).2 ∧
    (2 ^ 53 - 1) * (n * (secondsDouble n).2) ≤ 2 ^ 53 * (1000 * (secondsDouble n).1) ∧
    2 ^ 53 * (1000 * (secondsDouble n).1) ≤ (2 ^ 53 + 1) * (n * (secondsDouble n).2) := by
  obtain ⟨i, e⟩ := nearestDouble_nat n hn hlt
  have hB1 : 0 < 2 ^ i := pow_pos (by decide) _
  unfold secondsDouble
  rw [e]
  simp only []
  have hdiv : n * 2 ^ i / (2 ^ i * 1000) = n / 1000 := by
    rw [Nat.mul_comm n, Nat.mul_div_mul_left _ _ hB1]
  have hhi : n * 2 ^ i / (2 ^ i * 1000) < 2 ^ (53 + 2200) := by
    rw [hdiv]
    calc n / 1000 ≤ n := Nat.div_le_self _ _
      _ < 2 ^ 53 := hlt
      _ ≤ 2 ^ (53 + 2200) := pow_le_pow_right₀ (by decide) (Nat.le_add_right _ _)
  have hlo : 2 ^ 52 ≤ n * 2 ^ i * 2 ^ 2200 / (2 ^ i * 1000) := by
    rw [Nat.le_div_iff_mul_le (Nat.mul_pos hB1 (by decide))]
    have h1 : 2 ^ 52 * 1000 ≤ 2 ^ 2200 := by
      calc 2 ^ 52 * 1000 ≤ 2 ^ 52 * 2 ^ 10 := Nat.mul_le_mul_left _ (by decide)
        _ = 2 ^ 62 := by rw [← Nat.pow_add]
        _ ≤ 2 ^ 2200 := pow_le_pow_right₀ (by decide) (by decide)
    calc 2 ^ 52 * (2 ^ i * 1000) = 2 ^ i * (2 ^ 52 * 1000) := by ring
      _ ≤ 2 ^ i * 2 ^ 2200 := Nat.mul_le_mul_left _ h1
      _ = 1 * 2 ^ i * 2 ^ 2200 := by ring
      _ ≤ n * 2 ^ i * 2 ^ 2200 :=
        Nat.mul_le_mul_right _ (Nat.mul_le_mul_right _ hn)
  obtain ⟨c1, c2, c3, -⟩ := nearestDouble_close (n * 2 ^ i) (2 ^ i * 1000)
    (Nat.mul_pos hn hB1) (Nat.mul_pos hB1 (by decide)) hlo hhi
  refine ⟨c1, ?_, ?_⟩
  · apply Nat.le_of_mul_le_mul_right _ hB1
    calc (2 ^ 53 - 1) * (n * (nearestDouble (n * 2 ^ i) (2 ^ i * 1000)).2) * 2 ^ i
        = (2 ^ 53 - 1) * (n * 2 ^ i * (nearestDouble (n * 2 ^ i) (2 ^ i * 1000)).2) := by ring
      _ ≤ 2 ^ 53 * ((nearestDouble (n * 2 ^ i) (2 ^ i * 1000)).1 * (2 ^ i * 1000)) := c2
      _ = 2 ^ 53 * (1000 * (nearestDouble (n * 2 ^ i) (2 ^ i * 1000)).1) * 2 ^ i := by ring
  · apply Nat.le_of_mul_le_mul_right _ hB1
    calc 2 ^ 53 * (1000 * (nearestDouble (n * 2 ^ i) (2 ^ i * 1000)).1) * 2 ^ i
        = 2 ^ 53 * ((nearestDouble (n * 2 ^ i) (2 ^ i * 1000)).1 * (2 ^ i * 1000)) := by ring
      _ ≤ (2 ^ 53 + 1) * (n * 2 ^ i * (nearestDouble (n * 2 ^ i) (2 ^ i * 1000)).2) := c3
      _ = (2 ^ 53 + 1) * (n * (nearestDouble (n * 2 ^ i) (2 ^ i * 1000)).2) * 2 ^ i := by ring

/-- Rounding to six digits is exact for a fraction that is within one part in
two to the 53 of `n / 1000`, when the six digits are `n` times `c`. -/
theorem roundHalfEven_exact (n A B c : Nat) (hB : 0 < B) (hc : c * n < 2 ^ 52)
    (R1 : (2 ^ 53 - 1) * (n * B) ≤ 2 ^ 53 * (1000 * A))
    (R2 : 2 ^ 53 * (1000 * A) ≤ (2 ^ 53 + 1) * (n * B)) :
    roundHalfEven (A * (1000 * c)) B = n * c := by
  have hX : c * n * B < 2 ^ 52 * B := Nat.mul_lt_mul_of_pos_right hc hB
  have m1 := Nat.mul_le_mul_left c R1
  have m2 := Nat.mul_le_mul_left c R2
  have e1 : c * ((2 ^ 53 - 1) * (n * B)) = (2 ^ 53 - 1) * (c * n * B) := by ring
  have e2 : c * (2 ^ 53 * (1000 * A)) = 2 ^ 53 * (A * (1000 * c)) := by ring
  have e3 : c * ((2 ^ 53 + 1) * (n * B)) = (2 ^ 53 + 1) * (c * n * B) := by ring
  rw [e1, e2] at m1
  rw [e2, e3] at m2
  have e4 : n * c * B = c * n * B := by ring
  apply roundHalfEven_eq _ _ _ hB
  · rw [e4]
    generalize c * n * B = X at *
    generalize A * (1000 * c) = Y at *
    omega
  · rw [e4]
    generalize c * n * B = X at *
    generalize A * (1000 * c) = Y at *
    omega

set_option maxHeartbeats 1600000 in
/-- The six significant digits of a fraction within one part in two to the 53
of `n / 1000`, for `n` from 1 to 999999: the digits of `n` itself. -/
theorem sixSignificant_exact (n A B : Nat) (hn : 0 < n) (hlt : n < 10 ^ 6) (hB : 0 < B)
    (R1 : (2 ^ 53 - 1) * (n * B) ≤ 2 ^ 53 * (1000 * A))
    (R2 : 2 ^ 53 * (1000 * A) ≤ (2 ^ 53 + 1) * (n * B)) :
    sixSignificant A B =
      if n < 10 then (n * 100000, -3) else if n < 100 then (n * 10000, -2)
      else if n < 1000 then (n * 1000, -1) else if n < 10000 then (n * 100, 0)
      else if n < 100000 then (n * 10, 1) else (n, 2) := by
  have mono : ∀ c : Nat, (n < c → n * B + B ≤ c * B) ∧ (c ≤ n → c * B ≤ n * B) := by
    intro c
    constructor
    · intro h
      have := Nat.mul_le_mul_right B (Nat.succ_le_of_lt h)
      rw [Nat.succ_mul] at this
      exact this
    · intro h
      exact Nat.mul_le_mul_right B h
  have t1 := mono 10
  have t2 := mono 100
  have t3 := mono 1000
  have t4 := mono 10000
  have t5 := mono 100000
  have t6 := mono 1000000
  have t0 := mono 1
  have rhe : ∀ c : Nat, c ≤ 10 ^ 6 → roundHalfEven (A * (1000 * c)) B = n * c := by
    intro c hc
    apply roundHalfEven_exact n A B c hB _ R1 R2
    calc c * n ≤ 10 ^ 6 * n := Nat.mul_le_mul_right n hc
      _ < 10 ^ 6 * 10 ^ 6 := Nat.mul_lt_mul_of_pos_left hlt (by decide)
      _ < 2 ^ 52 := by decide
  norm_num at hlt t1 t2 t3 t4 t5 t6 t0 R1 R2
  have toNat5 : Int.toNat 5 = 5 := rfl
  have toNat4 : Int.toNat 4 = 4 := rfl
  have toNat3 : Int.toNat 3 = 3 := rfl
  unfold sixSignificant
  simp only []
  by_cases hAB : B ≤ A
  · obtain ⟨k, e1, e2, e3⟩ := decimalExponent_up 1200 A B 0 hB hAB (by
      have : B * 10 ^ 4 ≤ B * 10 ^ (1200 + 1) :=
        Nat.mul_le_mul_left B (pow_le_pow_right₀ (by decide) (by decide))
      norm_num at this ⊢
      omega)
    have hk : k ≤ 2 := by
      by_contra hk
      have : B * 10 ^ 3 ≤ B * 10 ^ k :=
        Nat.mul_le_mul_left B (pow_le_pow_right₀ (by decide) (by omega))
      norm_num at this
      omega
    rw [e1]
    interval_cases k
    · have r := rhe 100 (by decide)
      norm_num [sixDigits, toNat5, toNat4, toNat3] at e2 e3 r ⊢
      rw [r]
      split_ifs <;> refine Prod.ext ?_ ?_ <;> simp only [] <;> omega
    · have r := rhe 10 (by decide)
      norm_num [sixDigits, toNat5, toNat4, toNat3] at e2 e3 r ⊢
      rw [r]
      split_ifs <;> refine Prod.ext ?_ ?_ <;> simp only [] <;> omega
    · have r := rhe 1 (by decide)
      norm_num [sixDigits, toNat5, toNat4, toNat3] at e2 e3 r ⊢
      rw [r]
      split_ifs <;> refine Prod.ext ?_ ?_ <;> simp only [] <;> omega
  · have hAB2 : A < B := Nat.lt_of_not_le hAB
    obtain ⟨k, e1, e2, e3⟩ := decimalExponent_down 1200 A B 0 (by omega) (by
      have h4 : A * 10 ^ 4 ≤ A * 10 ^ 1200 :=
        Nat.mul_le_mul_left A (pow_le_pow_right₀ (by decide) (by decide))
      norm_num at h4 ⊢
      omega)
    have hk : k ≤ 4 := by
      by_contra hk
      have h5 : A * 10 ^ 5 ≤ A * 10 ^ k :=
        Nat.mul_le_mul_left A (pow_le_pow_right₀ (by decide) (by omega))
      norm_num at h5
      omega
    have hk1 : 1 ≤ k := by
      by_contra hk
      have : k = 0 := by omega
      subst this
      norm_num at e2
      omega
    rw [e1]
    have toNat6 : Int.toNat 6 = 6 := rfl
    have toNat7 : Int.toNat 7 = 7 := rfl
    have toNat8 : Int.toNat 8 = 8 := rfl
    have toNat9 : Int.toNat 9 = 9 := rfl
    interval_cases k
    · have r := rhe 1000 (by decide)
      norm_num [sixDigits, toNat6] at e2 e3 r ⊢
      rw [r]
      split_ifs <;> refine Prod.ext ?_ ?_ <;> simp only [] <;> omega
    · have r := rhe 10000 (by decide)
      norm_num [sixDigits, toNat7] at e2 e3 r ⊢
      rw [r]
      split_ifs <;> refine Prod.ext ?_ ?_ <;> simp only [] <;> omega
    · have r := rhe 100000 (by decide)
      norm_num [sixDigits, toNat8] at e2 e3 r ⊢
      rw [r]
      split_ifs <;> refine Prod.ext ?_ ?_ <;> simp only [] <;> omega
    · have r := rhe 1000000 (by decide)
      norm_num [sixDigits, toNat9] at e2 e3 r ⊢
      rw [r]
      split_ifs <;> refine Prod.ext ?_ ?_ <;> simp only [] <;> omega

/-! ## Decimal numerals -/

theorem digitChar_eq (d : Nat) (h : d < 10) : Nat.digitChar d = digitChar d := by
  interval_cases d <;> rfl

theorem digitChar_mod (v : Nat) : digitChar (v % 10) = digitChar v := by
  unfold digitChar
  rw [Nat.mod_mod]

theorem toDigitsCore_lastDigits (k : Nat) : ∀ (fuel v : Nat) (ds : List Char), k < fuel →
    v < 10 ^ (k + 1) → (k = 0 ∨ 10 ^ k ≤ v) →
    Nat.toDigitsCore 10 fuel v ds = lastDigits (k + 1) v ++ ds := by
  induction k with
  | zero =>
    intro fuel v ds hf hv _
    obtain ⟨f, rfl⟩ : ∃ f, fuel = f + 1 := ⟨fuel - 1, by omega⟩
    have h0 : v / 10 = 0 := by omega
    simp only [Nat.toDigitsCore, h0, if_true, lastDigits, List.nil_append, List.singleton_append]
    rw [digitChar_eq _ (Nat.mod_lt _ (by decide)), digitChar_mod]
  | succ k ih =>
    intro fuel v ds hf hv hlo
    obtain ⟨f, rfl⟩ : ∃ f, fuel = f + 1 := ⟨fuel - 1, by omega⟩
    have hlo2 : 10 ^ (k + 1) ≤ v := by
      rcases hlo with h | h
      · omega
      · exact h
    have hp : 0 < 10 ^ k := pow_pos (by decide) _
    have e1 : 10 ^ (k + 1) = 10 * 10 ^ k := by ring
    have e2 : 10 ^ (k + 1 + 1) = 10 * 10 ^ (k + 1) := by ring
    have h0 : ¬ v / 10 = 0 := by omega
    have hq1 : v / 10 < 10 ^ (k + 1) := by omega
    have hq2 : 10 ^ k ≤ v / 10 := by omega
    have hrec := ih f (v / 10) (Nat.digitChar (v % 10) :: ds) (by omega) hq1 (Or.inr hq2)
    have hl : lastDigits (k + 1 + 1) v = lastDigits (k + 1) (v / 10) ++ [digitChar v] := rfl
    rw [hl]
    simp only [Nat.toDigitsCore, h0, if_false]
    rw [hrec, digitChar_eq _ (Nat.mod_lt _ (by decide)), digitChar_mod]
    simp

theorem toString_lastDigits (k v : Nat) (hv : v < 10 ^ (k + 1)) (hlo : k = 0 ∨ 10 ^ k ≤ v) :
    toString v = String.mk (lastDigits (k + 1) v) := by
  have hf : k < v + 1 := by
    rcases hlo with h | h
    · omega
    · have : k < 10 ^ k := Nat.lt_pow_self (by decide) k
      omega
  have h := toDigitsCore_lastDigits k (v + 1) v [] hf hv hlo
  show Nat.repr v = _
  unfold Nat.repr Nat.toDigits
  rw [h]
  simp [List.asString]

theorem digit_count (v : Nat) : ∃ k, v < 10 ^ (k + 1) ∧ (k = 0 ∨ 10 ^ k ≤ v) := by
  induction v using Nat.strong_induction_on with
  | _ v ih =>
    by_cases h : v < 10
    · exact ⟨0, by simpa using h, Or.inl rfl⟩
    · obtain ⟨k, h1, h2⟩ := ih (v / 10) (by omega)
      refine ⟨k + 1, ?_, Or.inr ?_⟩
      · have e2 : 10 ^ (k + 1 + 1) = 10 * 10 ^ (k + 1) := by ring
        omega
      · have e1 : 10 ^ (k + 1) = 10 * 10 ^ k := by ring
        rcases h2 with h2 | h2
        · subst h2
          simp
          omega
        · omega

theorem lastDigits_length (k v : Nat) : (lastDigits k v).length = k := by
  induction k generalizing v with
  | zero => rfl
  | succ k ih => simp [lastDigits, ih]

theorem lastDigits_append (a b v : Nat) :
    lastDigits (a + b) v = lastDigits a (v / 10 ^ b) ++ lastDigits b v := by
  induction b generalizing v with
  | zero => simp [lastDigits]
  | succ b ih =>
    have hl : lastDigits (a + (b + 1)) v = lastDigits (a + b) (v / 10) ++ [digitChar v] := rfl
    have hr : lastDigits (b + 1) v = lastDigits b (v / 10) ++ [digitChar v] := rfl
    rw [hl, hr, ih, Nat.div_div_eq_div_mul, pow_succ, Nat.mul_comm (10 ^ b) 10]
    simp

theorem lastDigits_zero (k : Nat) : lastDigits k 0 = List.replicate k '0' := by
  induction k with
  | zero => rfl
  | succ k ih =>
    have hl : lastDigits (k + 1) 0 = lastDigits k (0 / 10) ++ [digitChar 0] := rfl
    rw [hl, List.replicate_succ', Nat.zero_div, ih]
    rfl

theorem lastDigits_pad (i j v : Nat) (hv : v < 10 ^ j) :
    lastDigits (i + j) v = List.replicate i '0' ++ lastDigits j v := by
  rw [lastDigits_append, Nat.div_eq_of_lt hv, lastDigits_zero]

theorem lastDigits_mod (k v : Nat) : lastDigits k (v % 10 ^ k) = lastDigits k v := by
  induction k generalizing v with
  | zero => rfl
  | succ k ih =>
    have hl : ∀ w, lastDigits (k + 1) w = lastDigits k (w / 10) ++ [digitChar w] := fun _ => rfl
    rw [hl, hl]
    have e1 : v % 10 ^ (k + 1) / 10 = v / 10 % 10 ^ k := by
      rw [pow_succ, Nat.mul_comm (10 ^ k) 10, Nat.mod_mul_right_div_self]
    have e2 : digitChar (v % 10 ^ (k + 1)) = digitChar v := by
      unfold digitChar
      rw [Nat.mod_mod_of_dvd v (dvd_pow_self 10 (Nat.succ_ne_zero k))]
    rw [e1, e2, ih]

theorem zeroPadded_data (k v : Nat) (hk : 0 < k) (hv : v < 10 ^ k) :
    (zeroPadded k v).data = lastDigits k v := by
  obtain ⟨j, h1, h2⟩ := digit_count v
  have hjk : j + 1 ≤ k := by
    rcases h2 with h | h
    · omega
    · by_contra hc
      have : 10 ^ k ≤ 10 ^ j := pow_le_pow_right₀ (by decide) (by omega)
      omega
  unfold zeroPadded
  rw [toString_lastDigits j v h1 h2]
  simp only [String.data_append, String.length, lastDigits_length]
  obtain ⟨i, rfl⟩ : ∃ i, k = i + (j + 1) := ⟨k - (j + 1), by omega⟩
  rw [lastDigits_pad i (j + 1) v h1]
  simp

/-! ## Zeros at the end of the decimals -/

theorem digitChar_zero_iff (v : Nat) : digitChar v = '0' ↔ v % 10 = 0 := by
  have h : v % 10 < 10 := Nat.mod_lt _ (by decide)
  rw [← digitChar_mod]
  generalize v % 10 = d at h
  interval_cases d <;> decide

theorem dropZeros_snoc_zero (l : List Char) : dropZeros (l ++ ['0']) = dropZeros l := by
  simp [dropZeros, List.dropWhile]

theorem dropZeros_snoc (l : List Char) (c : Char) (hc : c ≠ '0') :
    dropZeros (l ++ [c]) = l ++ [c] := by
  simp [dropZeros, List.dropWhile, hc]

theorem dropZeros_lastDigits (k r : Nat) :
    dropZeros (lastDigits (k + 1) r) =
      if r % 10 = 0 then dropZeros (lastDigits k (r / 10)) else lastDigits (k + 1) r := by
  have hl : lastDigits (k + 1) r = lastDigits k (r / 10) ++ [digitChar r] := rfl
  rw [hl]
  split_ifs with h
  · rw [(digitChar_zero_iff r).2 h, dropZeros_snoc_zero]
  · exact dropZeros_snoc _ _ (fun hc => h ((digitChar_zero_iff r).1 hc))

theorem fractionText_data (k : Nat) : ∀ r : Nat, r < 10 ^ k →
    (fractionText k r).data = dropZeros (lastDigits k r) := by
  induction k with
  | zero => intro r _; rfl
  | succ k ih =>
    intro r hr
    have e1 : 10 ^ (k + 1) = 10 * 10 ^ k := by ring
    rw [dropZeros_lastDigits]
    unfold fractionText
    split_ifs with h
    · exact ih (r / 10) (by omega)
    · exact zeroPadded_data (k + 1) r (Nat.succ_pos k) hr

theorem dropZeros_eq_nil (k : Nat) : ∀ r : Nat, r < 10 ^ k →
    (dropZeros (lastDigits k r) = [] ↔ r = 0) := by
  induction k with
  | zero =>
    intro r hr
    have : r = 0 := by simpa using hr
    subst this
    simp [dropZeros, lastDigits]
  | succ k ih =>
    intro r hr
    have e1 : 10 ^ (k + 1) = 10 * 10 ^ k := by ring
    rw [dropZeros_lastDigits]
    split_ifs with h
    · rw [ih (r / 10) (by omega)]
      omega
    · have hl : lastDigits (k + 1) r = lastDigits k (r / 10) ++ [digitChar r] := rfl
      rw [hl]
      constructor
      · intro hc
        simp at hc
      · intro hc
        omega

theorem dropZeros_replicate (i : Nat) (l : List Char) (hl : dropZeros l ≠ []) :
    dropZeros (List.replicate i '0' ++ l) = List.replicate i '0' ++ dropZeros l := by
  unfold dropZeros at hl ⊢
  rw [List.reverse_append, List.dropWhile_append]
  have h2 : ¬ (List.dropWhile (fun c => c == '0') l.reverse).isEmpty = true := by
    intro hc
    rw [List.isEmpty_iff] at hc
    rw [hc] at hl
    exact hl rfl
  rw [if_neg h2]
  simp

/-! ## The written digits as a decimal numeral -/

theorem decimalText_data (s x : Nat) (hs1 : 10 ^ 5 ≤ s) (hs2 : s < 10 ^ 6) (hx : x ≤ 5) :
    (decimalText s (5 - x)).data =
      if dropZeros ((lastDigits 6 s).drop (x + 1)) = [] then (lastDigits 6 s).take (x + 1)
      else (lastDigits 6 s).take (x + 1) ++ ['.'] ++ dropZeros ((lastDigits 6 s).drop (x + 1)) := by
  have hds : lastDigits 6 s = lastDigits (x + 1) (s / 10 ^ (5 - x)) ++ lastDigits (5 - x) s := by
    rw [← lastDigits_append]
    congr 1
    omega
  have hp : 0 < 10 ^ (5 - x) := pow_pos (by decide) _
  have hpow : 10 ^ (5 - x) * 10 ^ x = 10 ^ 5 := by
    rw [← pow_add]
    congr 1
    omega
  have hpow2 : 10 ^ (5 - x) * 10 ^ (x + 1) = 10 ^ 6 := by
    rw [← pow_add]
    congr 1
    omega
  have hw1 : s / 10 ^ (5 - x) < 10 ^ (x + 1) := by
    rw [Nat.div_lt_iff_lt_mul hp, Nat.mul_comm, hpow2]
    exact hs2
  have hw2 : 10 ^ x ≤ s / 10 ^ (5 - x) := by
    rw [Nat.le_div_iff_mul_le hp, Nat.mul_comm, hpow]
    exact hs1
  have htake : (lastDigits 6 s).take (x + 1) = lastDigits (x + 1) (s / 10 ^ (5 - x)) := by
    rw [hds]
    exact List.take_left' (lastDigits_length _ _)
  have hdrop : (lastDigits 6 s).drop (x + 1) = lastDigits (5 - x) s := by
    rw [hds]
    exact List.drop_left' (lastDigits_length _ _)
  have hr : s % 10 ^ (5 - x) < 10 ^ (5 - x) := Nat.mod_lt _ hp
  have hnil := dropZeros_eq_nil (5 - x) (s % 10 ^ (5 - x)) hr
  rw [lastDigits_mod] at hnil
  have hfrac := fractionText_data (5 - x) (s % 10 ^ (5 - x)) hr
  rw [lastDigits_mod] at hfrac
  rw [htake, hdrop]
  unfold decimalText
  rw [toString_lastDigits x _ hw1 (Or.inr hw2)]
  by_cases h0 : s % 10 ^ (5 - x) = 0
  · rw [if_pos h0, if_pos (hnil.2 h0)]
  · rw [if_neg h0, if_neg (fun hc => h0 (hnil.1 hc))]
    simp only [String.data_append, hfrac]

theorem writeDigits_fixed (s x : Nat) (hs1 : 10 ^ 5 ≤ s) (hs2 : s < 10 ^ 6) (hx : x ≤ 5) :
    writeDigits s (x : Int) = decimalText s (5 - x) := by
  apply String.ext
  rw [decimalText_data s x hs1 hs2 hx]
  unfold writeDigits
  have c1 : ¬ ((x : Int) < -4 ∨ (x : Int) ≥ 6) := by omega
  have c2 : (x : Int) ≥ 0 := by omega
  simp only [if_neg c1, if_pos c2, Int.toNat_ofNat]
  split_ifs <;> rfl

theorem writeDigits_scientific (s x : Nat) (hs1 : 10 ^ 5 ≤ s) (hs2 : s < 10 ^ 6) (hx1 : 6 ≤ x)
    (hx2 : x < 100) :
    writeDigits s (x : Int) = decimalText s 5 ++ "e+" ++ zeroPadded 2 x := by
  apply String.ext
  have h := decimalText_data s 0 hs1 hs2 (by decide)
  simp only [String.data_append]
  rw [zeroPadded_data 2 x (by decide) (by simpa using hx2)]
  rw [show decimalText s 5 = decimalText s (5 - 0) from rfl, h]
  unfold writeDigits
  have c1 : ((x : Int) < -4 ∨ (x : Int) ≥ 6) := by omega
  have c2 : ¬ ((x : Int) < 0) := by omega
  have c3 : (x : Int).natAbs < 100 := by omega
  simp only [if_pos c1, if_neg c2, if_pos c3, Int.natAbs_ofNat]
  split_ifs <;> simp

theorem writeDigits_small (s m : Nat) (hs1 : 10 ^ 5 ≤ s) (hs2 : s < 10 ^ 6) (hm1 : 1 ≤ m)
    (hm2 : m ≤ 4) :
    writeDigits s (-(m : Int)) = decimalText s (5 + m) := by
  apply String.ext
  have hlt : s < 10 ^ (5 + m) :=
    lt_of_lt_of_le hs2 (pow_le_pow_right₀ (by decide) (by omega))
  have hmod : s % 10 ^ (5 + m) = s := Nat.mod_eq_of_lt hlt
  have hdiv : s / 10 ^ (5 + m) = 0 := Nat.div_eq_of_lt hlt
  have hs0 : ¬ s = 0 := by
    intro h
    rw [h] at hs1
    exact absurd hs1 (by decide)
  have hnz : dropZeros (lastDigits 6 s) ≠ [] := fun hc => hs0 ((dropZeros_eq_nil 6 s hs2).1 hc)
  have hfrac := fractionText_data (5 + m) s hlt
  have hpad : lastDigits (5 + m) s = List.replicate (m - 1) '0' ++ lastDigits 6 s := by
    rw [← lastDigits_pad (m - 1) 6 s hs2]
    congr 1
    omega
  rw [hpad, dropZeros_replicate _ _ hnz] at hfrac
  unfold decimalText
  rw [hmod, hdiv, if_neg hs0]
  simp only [String.data_append, hfrac]
  unfold writeDigits
  have c1 : ¬ (-(m : Int) < -4 ∨ -(m : Int) ≥ 6) := by omega
  have c2 : ¬ (-(m : Int) ≥ 0) := by omega
  have c3 : (- -(m : Int)).toNat = m := by simp
  simp only [if_neg c1, if_neg c2, c3]
  rfl

theorem decimalText_scale (m k : Nat) : decimalText (m * 10) (k + 1) = decimalText m k := by
  have e1 : m * 10 % 10 ^ (k + 1) = 10 * (m % 10 ^ k) := by
    rw [pow_succ, Nat.mul_comm m 10, Nat.mul_comm (10 ^ k) 10, Nat.mul_mod_mul_left]
  have e2 : m * 10 / 10 ^ (k + 1) = m / 10 ^ k := by
    rw [pow_succ, Nat.mul_comm m 10, Nat.mul_comm (10 ^ k) 10,
      Nat.mul_div_mul_left _ _ (by decide : 0 < 10)]
  have e3 : fractionText (k + 1) (10 * (m % 10 ^ k)) = fractionText k (m % 10 ^ k) := by
    have h1 : 10 * (m % 10 ^ k) % 10 = 0 := by omega
    have h2 : 10 * (m % 10 ^ k) / 10 = m % 10 ^ k := by omega
    show (if 10 * (m % 10 ^ k) % 10 = 0 then fractionText k (10 * (m % 10 ^ k) / 10)
      else zeroPadded (k + 1) (10 * (m % 10 ^ k))) = _
    rw [if_pos h1, h2]
  unfold decimalText
  rw [e1, e2, e3]
  by_cases h : m % 10 ^ k = 0
  · rw [if_pos h, if_pos (by omega)]
  · rw [if_neg h, if_neg (by omega)]

theorem decimalText_scale_pow (m k i : Nat) :
    decimalText (m * 10 ^ i) (k + i) = decimalText m k := by
  induction i with
  | zero => simp
  | succ i ih =>
    rw [pow_succ, ← Nat.mul_assoc, ← Nat.add_assoc, decimalText_scale, ih]

/-- Below a million milliseconds the stream writes the seconds exactly: the
whole seconds, and the thousandths without zeros at the end. -/
theorem magnitude_exact (n : Nat) (hlt : n < 10 ^ 6) :
    streamDouble (secondsDouble n).1 (secondsDouble n).2 = decimalText n 3 := by
  rw [streamDouble_eq]
  by_cases h0 : n = 0
  · subst h0
    have hz : secondsDouble 0 = (0, 1) := by simp [secondsDouble, nearestDouble]
    rw [hz]
    simp only [decimalText, if_true, Nat.zero_mod, Nat.zero_div]
    rfl
  have hn : 0 < n := Nat.pos_of_ne_zero h0
  obtain ⟨hB, R1, R2⟩ := secondsDouble_close n hn
    (lt_trans hlt (by decide))
  have hA : ¬ (secondsDouble n).1 = 0 := by
    intro hc
    rw [hc] at R1
    have hV : 0 < n * (secondsDouble n).2 := Nat.mul_pos hn hB
    generalize n * (secondsDouble n).2 = V at *
    omega
  rw [if_neg hA, sixSignificant_exact n _ _ hn hlt hB R1 R2]
  have hm : ∀ c : Nat, 10 ^ 5 ≤ n * c → n * c < 10 ^ 6 → True := fun _ _ _ => trivial
  split_ifs with h1 h2 h3 h4 h5
  · have e := writeDigits_small (n * 100000) 3 (by omega) (by omega) (by decide) (by decide)
    have d := decimalText_scale_pow n 3 5
    norm_num at e d
    rw [← d]
    exact e
  · have e := writeDigits_small (n * 10000) 2 (by omega) (by omega) (by decide) (by decide)
    have d := decimalText_scale_pow n 3 4
    norm_num at e d
    rw [← d]
    exact e
  · have e := writeDigits_small (n * 1000) 1 (by omega) (by omega) (by decide) (by decide)
    have d := decimalText_scale_pow n 3 3
    norm_num at e d
    rw [← d]
    exact e
  · have e := writeDigits_fixed (n * 100) 0 (by omega) (by omega) (by decide)
    have d := decimalText_scale_pow n 3 2
    norm_num at e d
    rw [← d]
    exact e
  · have e := writeDigits_fixed (n * 10) 1 (by omega) (by omega) (by decide)
    have d := decimalText_scale_pow n 3 1
    norm_num at e d
    rw [← d]
    exact e
  · have e := writeDigits_fixed n 2 (by omega) (by omega) (by decide)
    exact e

/-- The value of `(double)duration_ms / 1000.0` for a positive duration of at
most 64 bits: the conversion and the division each round by at most one part
in two to the 53. -/
theorem secondsDouble_near (n : Nat) (hn : 0 < n) (hlt : n < 2 ^ 64) :
    0 < (secondsDouble n).2 ∧
    (2 ^ 53 - 1) ^ 2 * (n * (secondsDouble n).2) ≤ 2 ^ 106 * (1000 * (secondsDouble n).1) ∧
    2 ^ 106 * (1000 * (secondsDouble n).1) ≤ (2 ^ 53 + 1) ^ 2 * (n * (secondsDouble n).2) := by
  have big : (2 : Nat) ^ 64 ≤ 2 ^ 2200 := pow_le_pow_right₀ (by decide) (by decide)
  have big2 : (2 : Nat) ^ 2200 ≤ 2 ^ (53 + 2200) := pow_le_pow_right₀ (by decide) (by decide)
  have hlo1 : 2 ^ 52 ≤ n * 2 ^ 2200 / 1 := by
    rw [Nat.div_one]
    calc 2 ^ 52 ≤ 2 ^ 64 := by decide
      _ ≤ 2 ^ 2200 := big
      _ = 1 * 2 ^ 2200 := (Nat.one_mul _).symm
      _ ≤ n * 2 ^ 2200 := Nat.mul_le_mul_right _ hn
  have hhi1 : n / 1 < 2 ^ (53 + 2200) := by
    rw [Nat.div_one]
    exact lt_of_lt_of_le hlt (le_trans big big2)
  obtain ⟨c1, c2, c3, -⟩ := nearestDouble_close n 1 hn (by decide) hlo1 hhi1
  unfold secondsDouble
  generalize (nearestDouble n 1).1 = A1 at *
  generalize (nearestDouble n 1).2 = B1 at *
  rw [Nat.mul_one] at c2 c3
  have hnB : B1 ≤ n * B1 := Nat.le_mul_of_pos_left _ hn
  have hnB2 : n * B1 < 2 ^ 64 * B1 := Nat.mul_lt_mul_of_pos_right hlt c1
  have hA1 : 0 < A1 := by
    generalize n * B1 = V at *
    omega
  have hD : 0 < B1 * 1000 := by omega
  have hlo2 : 2 ^ 52 ≤ A1 * 2 ^ 2200 / (B1 * 1000) := by
    rw [Nat.le_div_iff_mul_le hD]
    have h1 : 2 ^ 52 * 1000 * 2 ≤ 2 ^ 2200 := by
      calc 2 ^ 52 * 1000 * 2 ≤ 2 ^ 64 := by decide
        _ ≤ 2 ^ 2200 := big
    have h2 : B1 ≤ 2 * A1 := by
      generalize n * B1 = V at *
      omega
    calc 2 ^ 52 * (B1 * 1000) = 2 ^ 52 * 1000 * B1 := by ring
      _ ≤ 2 ^ 52 * 1000 * (2 * A1) := Nat.mul_le_mul_left _ h2
      _ = A1 * (2 ^ 52 * 1000 * 2) := by ring
      _ ≤ A1 * 2 ^ 2200 := Nat.mul_le_mul_left _ h1
  have hhi2 : A1 / (B1 * 1000) < 2 ^ (53 + 2200) := by
    rw [Nat.div_lt_iff_lt_mul hD]
    have h2 : A1 < 2 ^ 65 * B1 := by
      generalize n * B1 = V at *
      omega
    calc A1 < 2 ^ 65 * B1 := h2
      _ ≤ 2 ^ 2200 * B1 := Nat.mul_le_mul_right _ (pow_le_pow_right₀ (by decide) (by decide))
      _ ≤ 2 ^ (53 + 2200) * B1 := Nat.mul_le_mul_right _ big2
      _ ≤ 2 ^ (53 + 2200) * (B1 * 1000) := Nat.mul_le_mul_left _ (by omega)
  obtain ⟨d1, d2, d3, -⟩ := nearestDouble_close A1 (B1 * 1000) hA1 hD hlo2 hhi2
  generalize (nearestDouble A1 (B1 * 1000)).1 = A at *
  generalize (nearestDouble A1 (B1 * 1000)).2 = B at *
  refine ⟨d1, ?_, ?_⟩
  · apply Nat.le_of_mul_le_mul_right _ c1
    calc (2 ^ 53 - 1) ^ 2 * (n * B) * B1
        = (2 ^ 53 - 1) * B * ((2 ^ 53 - 1) * (n * B1)) := by ring
      _ ≤ (2 ^ 53 - 1) * B * (2 ^ 53 * A1) := Nat.mul_le_mul_left _ c2
      _ = 2 ^ 53 * ((2 ^ 53 - 1) * (A1 * B)) := by ring
      _ ≤ 2 ^ 53 * (2 ^ 53 * (A * (B1 * 1000))) := Nat.mul_le_mul_left _ d2
      _ = 2 ^ 106 * (1000 * A) * B1 := by ring
  · apply Nat.le_of_mul_le_mul_right _ c1
    calc 2 ^ 106 * (1000 * A) * B1
        = 2 ^ 53 * (2 ^ 53 * (A * (B1 * 1000))) := by ring
      _ ≤ 2 ^ 53 * ((2 ^ 53 + 1) * (A1 * B)) := Nat.mul_le_mul_left _ d3
      _ = (2 ^ 53 + 1) * B * (2 ^ 53 * A1) := by ring
      _ ≤ (2 ^ 53 + 1) * B * ((2 ^ 53 + 1) * (n * B1)) := Nat.mul_le_mul_left _ c3
      _ = (2 ^ 53 + 1) ^ 2 * (n * B) * B1 := by ring

/-! ## Rounding to six significant digits -/

theorem roundHalfEven_tie (num den : Nat) (hd : 0 < den)
    (h : 2 * (roundHalfEven num den * den) = 2 * num + den ∨
      2 * num = 2 * (roundHalfEven num den * den) + den) :
    roundHalfEven num den % 2 = 0 := by
  have hdm := Nat.div_add_mod num den
  have hm := Nat.mod_lt num hd
  unfold roundHalfEven at h ⊢
  rw [Nat.mul_comm den (num / den)] at hdm
  split_ifs at h ⊢ with hc
  · rw [Nat.add_mul, Nat.one_mul] at h
    generalize num / den * den = P at *
    generalize num / den = q at *
    generalize num % den = m at *
    omega
  · generalize num / den * den = P at *
    generalize num / den = q at *
    generalize num % den = m at *
    omega

theorem sixDigits_scale (a b k : Nat) :
    ∃ p q m : Nat, 0 < m ∧ 0 < q ∧ p * m = 10 ^ 5 ∧ q * m = 10 ^ k ∧
      sixDigits a b (k : Int) = roundHalfEven (a * p) (b * q) := by
  by_cases hk : k ≤ 5
  · refine ⟨10 ^ (5 - k), 1, 10 ^ k, pow_pos (by decide) _, by decide, ?_, Nat.one_mul _, ?_⟩
    · rw [← pow_add]
      congr 1
      omega
    · unfold sixDigits
      have h1 : (k : Int) ≤ 5 := by omega
      have h2 : (5 - (k : Int)).toNat = 5 - k := by omega
      rw [if_pos h1, h2, Nat.mul_one]
  · refine ⟨1, 10 ^ (k - 5), 10 ^ 5, by decide, pow_pos (by decide) _, Nat.one_mul _, ?_, ?_⟩
    · rw [← pow_add]
      congr 1
      omega
    · unfold sixDigits
      have h1 : ¬ (k : Int) ≤ 5 := by omega
      have h2 : ((k : Int) - 5).toNat = k - 5 := by omega
      rw [if_neg h1, h2, Nat.mul_one]

/-- The six digits and the exponent that the stream takes for a fraction of at
least one: the fraction rounded to six significant digits. -/
theorem sixSignificant_close (a b : Nat) (hb : 0 < b) (h1 : b ≤ a) (h2 : a < b * 10 ^ (1200 + 1)) :
    ∃ s x k : Nat, sixSignificant a b = (s, (x : Int)) ∧ SixDigitRounding a b s x k := by
  obtain ⟨k, e1, e2, e3⟩ := decimalExponent_up 1200 a b 0 hb h1 h2
  obtain ⟨p, q, m, hm, hq, hpm, hqm, hsd⟩ := sixDigits_scale a b k
  have hD : 0 < b * q := Nat.mul_pos hb hq
  obtain ⟨r1, r2⟩ := roundHalfEven_bound (a * p) (b * q) hD
  have tie := roundHalfEven_tie (a * p) (b * q) hD
  have g1 : 10 ^ 5 * (b * q) ≤ a * p := by
    calc 10 ^ 5 * (b * q) = b * (q * m) * p := by rw [← hpm]; ring
      _ = b * 10 ^ k * p := by rw [hqm]
      _ ≤ a * p := Nat.mul_le_mul_right _ e2
  have hp : 0 < p := by
    rcases Nat.eq_zero_or_pos p with h | h
    · rw [h, Nat.zero_mul] at hpm
      exact absurd hpm (by decide)
    · exact h
  have g2 : a * p < 10 ^ 6 * (b * q) := by
    calc a * p < b * 10 ^ (k + 1) * p := Nat.mul_lt_mul_of_pos_right e3 hp
      _ = 10 * (b * (q * m) * p) := by rw [hqm]; ring
      _ = 10 ^ 6 * (b * q) := by rw [show (10 : Nat) ^ 6 = 10 * 10 ^ 5 from rfl, ← hpm]; ring
  have k1 : ∀ t : Nat, t * 10 ^ k * b = t * (b * q) * m := by
    intro t
    rw [← hqm]
    ring
  have k2 : a * 10 ^ 5 = a * p * m := by
    rw [← hpm]
    ring
  have k3 : 10 ^ k * b = b * q * m := by
    rw [← hqm]
    ring
  have e0 : decimalExponent 1200 a b 0 = (k : Int) := by
    rw [e1, Int.zero_add]
  unfold sixSignificant
  simp only []
  rw [e0, hsd]
  generalize hs0 : roundHalfEven (a * p) (b * q) = s0 at *
  have lo : 10 ^ 5 ≤ s0 := by
    by_contra hc
    have : s0 * (b * q) + b * q ≤ 10 ^ 5 * (b * q) := by
      have := Nat.mul_le_mul_right (b * q) (Nat.succ_le_of_lt (Nat.lt_of_not_le hc))
      rw [Nat.succ_mul] at this
      exact this
    generalize s0 * (b * q) = P at *
    generalize a * p = N at *
    generalize b * q = D at *
    norm_num at *
    omega
  have hi : s0 ≤ 10 ^ 6 := by
    by_contra hc
    have : (10 ^ 6 + 1) * (b * q) ≤ s0 * (b * q) :=
      Nat.mul_le_mul_right (b * q) (Nat.succ_le_of_lt (Nat.lt_of_not_le hc))
    rw [Nat.add_mul, Nat.one_mul] at this
    generalize s0 * (b * q) = P at *
    generalize a * p = N at *
    generalize b * q = D at *
    norm_num at *
    omega
  have m1 : 2 * (s0 * (b * q) * m) ≤ 2 * (a * p * m) + b * q * m := by
    have := Nat.mul_le_mul_right m r1
    linarith
  have m2 : 2 * (a * p * m) ≤ 2 * (s0 * (b * q) * m) + b * q * m := by
    have := Nat.mul_le_mul_right m r2
    linarith
  by_cases hc : s0 ≥ 10 ^ 6
  · have hs : s0 = 10 ^ 6 := Nat.le_antisymm hi hc
    rw [if_pos hc, if_pos hc]
    have k4 : 10 ^ 5 * 10 ^ (k + 1) * b = s0 * (b * q) * m := by
      rw [← k1, hs]
      ring
    refine ⟨10 ^ 5, k + 1, k, ?_, e2, e3, le_refl _, by decide, Nat.le_succ k, le_refl _, ?_, ?_, ?_⟩
    · rw [hs]
      rfl
    · rw [k4, k2, k3]
      exact m1
    · rw [k4, k2, k3]
      exact m2
    · intro _
      decide
  · rw [if_neg hc, if_neg hc]
    refine ⟨s0, k, k, rfl, e2, e3, lo, Nat.lt_of_not_le hc, le_refl _, Nat.le_succ k, ?_, ?_, ?_⟩
    · rw [k1, k2, k3]
      exact m1
    · rw [k1, k2, k3]
      exact m2
    · rw [k1, k2, k3]
      intro h
      apply tie
      rcases h with h | h
      · left
        apply Nat.eq_of_mul_eq_mul_right hm
        linarith
      · right
        apply Nat.eq_of_mul_eq_mul_right hm
        linarith

/-- A fraction has one rounding to six significant digits only. -/
theorem sixDigitRounding_unique (a b s x k t y j : Nat) (hb : 0 < b)
    (h : SixDigitRounding a b s x k) (g : SixDigitRounding a b t y j) : s = t ∧ x = y := by
  obtain ⟨h1, h2, h3, h4, h5, h6, h7, h8, h9⟩ := h
  obtain ⟨g1, g2, g3, g4, g5, g6, g7, g8, g9⟩ := g
  have hkj : k = j := by
    rcases Nat.lt_trichotomy k j with c | c | c
    · have : b * 10 ^ (k + 1) ≤ b * 10 ^ j :=
        Nat.mul_le_mul_left b (pow_le_pow_right₀ (by decide) c)
      omega
    · exact c
    · have : b * 10 ^ (j + 1) ≤ b * 10 ^ k :=
        Nat.mul_le_mul_left b (pow_le_pow_right₀ (by decide) c)
      omega
  subst hkj
  have hU : 0 < 10 ^ k * b := Nat.mul_pos (pow_pos (by decide) _) hb
  have e0 : ∀ r : Nat, r * 10 ^ k * b = r * (10 ^ k * b) := fun r => by ring
  have e1 : ∀ r : Nat, r * 10 ^ (k + 1) * b = 10 * (r * (10 ^ k * b)) := fun r => by ring
  have mono : ∀ c d : Nat, c ≤ d → c * (10 ^ k * b) ≤ d * (10 ^ k * b) :=
    fun c d hcd => Nat.mul_le_mul_right _ hcd
  have m1 : s < t → s * (10 ^ k * b) + 10 ^ k * b ≤ t * (10 ^ k * b) := by
    intro c
    have := mono (s + 1) t c
    rw [Nat.add_mul, Nat.one_mul] at this
    exact this
  have m2 : s + 2 ≤ t → s * (10 ^ k * b) + 2 * (10 ^ k * b) ≤ t * (10 ^ k * b) := by
    intro c
    have := mono (s + 2) t c
    rw [Nat.add_mul] at this
    exact this
  have n1 : t < s → t * (10 ^ k * b) + 10 ^ k * b ≤ s * (10 ^ k * b) := by
    intro c
    have := mono (t + 1) s c
    rw [Nat.add_mul, Nat.one_mul] at this
    exact this
  have n2 : t + 2 ≤ s → t * (10 ^ k * b) + 2 * (10 ^ k * b) ≤ s * (10 ^ k * b) := by
    intro c
    have := mono (t + 2) s c
    rw [Nat.add_mul] at this
    exact this
  have m3 := mono (10 ^ 5) s h3
  have n3 := mono (10 ^ 5) t g3
  have m4 : s ≤ 10 ^ 6 - 2 → s * (10 ^ k * b) ≤ (10 ^ 6 - 2) * (10 ^ k * b) := mono s _
  have n4 : t ≤ 10 ^ 6 - 2 → t * (10 ^ k * b) ≤ (10 ^ 6 - 2) * (10 ^ k * b) := mono t _
  have m5 := mono s (10 ^ 6 - 1) (by omega)
  have n5 := mono t (10 ^ 6 - 1) (by omega)
  have hx : k = x ∨ x = k + 1 := by omega
  have hy : k = y ∨ y = k + 1 := by omega
  rcases hx with hx | hx <;> rcases hy with hy | hy <;> subst hx <;> subst hy
  · simp only [e0] at h7 h8 h9 g7 g8 g9
    generalize s * (10 ^ k * b) = P at *
    generalize t * (10 ^ k * b) = Q at *
    generalize a * 10 ^ 5 = T at *
    generalize 10 ^ k * b = U at *
    norm_num at *
    omega
  · simp only [e0, e1] at h7 h8 h9 g7 g8 g9
    generalize s * (10 ^ k * b) = P at *
    generalize t * (10 ^ k * b) = Q at *
    generalize a * 10 ^ 5 = T at *
    generalize 10 ^ k * b = U at *
    norm_num at *
    omega
  · simp only [e0, e1] at h7 h8 h9 g7 g8 g9
    generalize s * (10 ^ k * b) = P at *
    generalize t * (10 ^ k * b) = Q at *
    generalize a * 10 ^ 5 = T at *
    generalize 10 ^ k * b = U at *
    norm_num at *
    omega
  · simp only [e1] at h7 h8 h9 g7 g8 g9
    generalize s * (10 ^ k * b) = P at *
    generalize t * (10 ^ k * b) = Q at *
    generalize a * 10 ^ 5 = T at *
    generalize 10 ^ k * b = U at *
    norm_num at *
    omega

/-! ## The duration and the time stamp of the log line -/

/-- From a million milliseconds on the stream writes the `double` rounded to
six significant digits, in scientific form from the exponent 6 on. -/
theorem magnitude_rounded (n : Nat) (h1 : 10 ^ 6 ≤ n) (h2 : n < 2 ^ 64) :
    ∃ s x k : Nat, SixDigitRounding (secondsDouble n).1 (secondsDouble n).2 s x k ∧
      streamDouble (secondsDouble n).1 (secondsDouble n).2 =
        if x ≤ 5 then decimalText s (5 - x) else decimalText s 5 ++ "e+" ++ zeroPadded 2 x := by
  have hn : 0 < n := lt_of_lt_of_le (by decide) h1
  obtain ⟨hB, R1, R2⟩ := secondsDouble_near n hn h2
  generalize (secondsDouble n).1 = A at *
  generalize (secondsDouble n).2 = B at *
  have v1 : 10 ^ 6 * B ≤ n * B := Nat.mul_le_mul_right B h1
  have v2 : n * B < 2 ^ 64 * B := Nat.mul_lt_mul_of_pos_right h2 hB
  have hBA : B ≤ A := by
    generalize n * B = V at *
    norm_num at *
    omega
  have hA17 : A < B * 10 ^ 17 := by
    generalize n * B = V at *
    norm_num at *
    omega
  have hfuel : A < B * 10 ^ (1200 + 1) :=
    lt_of_lt_of_le hA17 (Nat.mul_le_mul_left B (pow_le_pow_right₀ (by decide) (by decide)))
  obtain ⟨s, x, k, e, hr⟩ := sixSignificant_close A B hB hBA hfuel
  have hk : k < 17 := by
    by_contra hc
    have : B * 10 ^ 17 ≤ B * 10 ^ k :=
      Nat.mul_le_mul_left B (pow_le_pow_right₀ (by decide) (by omega))
    have := hr.1
    omega
  obtain ⟨-, -, hs1, hs2, hkx, hxk, -⟩ := id hr
  refine ⟨s, x, k, hr, ?_⟩
  rw [streamDouble_eq, if_neg (by omega), e]
  simp only []
  by_cases hx : x ≤ 5
  · rw [if_pos hx]
    exact writeDigits_fixed s x hs1 hs2 hx
  · rw [if_neg hx]
    exact writeDigits_scientific s x hs1 hs2 (by omega) (by omega)

/-- The time stamp of `strftime` is the year, and month, day, hour, minute and
second in two digits each. -/
theorem strftime_stampText (tm : Tm)
    (hyear : 1000 ≤ tm.tm_year + 1900 ∧ tm.tm_year + 1900 ≤ 9999)
    (hfields : tm.tm_mon ≤ 11 ∧ tm.tm_mday ≤ 31 ∧ tm.tm_hour ≤ 23 ∧ tm.tm_min ≤ 59 ∧
      tm.tm_sec ≤ 60) :
    strftime tm = stampText tm := by
  obtain ⟨y1, y2⟩ := hyear
  obtain ⟨f1, f2, f3, f4, f5⟩ := hfields
  apply String.ext
  unfold stampText strftime
  simp only [String.data_append]
  rw [toString_lastDigits 3 (tm.tm_year + 1900) (by norm_num; omega) (Or.inr (by norm_num)),
    zeroPadded_data 2 (tm.tm_mon + 1) (by decide) (by norm_num; omega),
    zeroPadded_data 2 tm.tm_mday (by decide) (by norm_num; omega),
    zeroPadded_data 2 tm.tm_hour (by decide) (by norm_num; omega),
    zeroPadded_data 2 tm.tm_min (by decide) (by norm_num; omega),
    zeroPadded_data 2 tm.tm_sec (by decide) (by norm_num; omega)]

/-- Claim C12, as amended. For every winner, every duration of 64 bits and
every local time with a year up to 9999, the line that `logRaceResult` appends
is the time stamp `YYYY-MM-DD HH:MM:SS` (the year, and the month, the day, the
hour on the 24-hour clock, the minute and the second in two digits each), then
` | Winner: Racer `, the winner in decimal, ` | Duration: `, the seconds and
`s`; nothing is appended when the file cannot be opened. The seconds are `duration_ms / 1000` as the
stream writes a `double` by default, and the number of digits after the point
is not fixed. Below a million milliseconds they are exact: the whole seconds,
and when the thousandths are not zero a point and the thousandths without zeros
at the end, so none, one, two or three digits follow the point. From a million
milliseconds on they are the `double`, which is within two roundings of
`duration_ms / 1000`, rounded to six significant digits `s` with exponent `x`
(there is one such rounding, and every such rounding gives the seconds) and
written without zeros at the end, in the form `d.ddddde+XX` from the exponent
6 on. A negative duration is written with a minus sign before the
seconds of its absolute value. So 12345 ms is written as 12.345, 12300 ms as
12.3, 12000 ms as 12, 1234567 ms as 1234.57, 1234125 ms as 1234.12, 50 ms as
0.05, 0 ms as 0, 1234567890 ms as 1.23457e+06 and -1500 ms as -1.5. -/
theorem log_line_form (tm : Tm) (winner_id duration_ms : Int)
    (hyear : tm.tm_year + 1900 ≤ 9999)
    (hfields : tm.tm_mon ≤ 11 ∧ tm.tm_mday ≤ 31 ∧ tm.tm_hour ≤ 23 ∧ tm.tm_min ≤ 59 ∧
      tm.tm_sec ≤ 60)
    (hlong : -2 ^ 63 ≤ duration_ms ∧ duration_ms < 2 ^ 63) :
    logRaceResult false tm winner_id duration_ms = none ∧
    (∃ d : String,
      logRaceResult true tm winner_id duration_ms =
        some (stampText tm ++ " | Winner: Racer " ++ toString winner_id ++ " | Duration: " ++
          (if duration_ms < 0 then "-" else "") ++ d ++ "s") ∧
      (duration_ms.natAbs < 10 ^ 6 → d = decimalText duration_ms.natAbs 3) ∧
      (10 ^ 6 ≤ duration_ms.natAbs →
        (2 ^ 53 - 1) ^ 2 * (duration_ms.natAbs * (secondsDouble duration_ms.natAbs).2) ≤
          2 ^ 106 * (1000 * (secondsDouble duration_ms.natAbs).1) ∧
        2 ^ 106 * (1000 * (secondsDouble duration_ms.natAbs).1) ≤
          (2 ^ 53 + 1) ^ 2 * (duration_ms.natAbs * (secondsDouble duration_ms.natAbs).2) ∧
        (∃ s x k : Nat,
          SixDigitRounding (secondsDouble duration_ms.natAbs).1
            (secondsDouble duration_ms.natAbs).2 s x k) ∧
        ∀ s x k : Nat,
          SixDigitRounding (secondsDouble duration_ms.natAbs).1
            (secondsDouble duration_ms.natAbs).2 s x k →
          d = if x ≤ 5 then decimalText s (5 - x)
            else decimalText s 5 ++ "e+" ++ zeroPadded 2 x)) ∧
    shape (strftime tm) = "9999-99-99 99:99:99" ∧ (strftime tm).length = 19 ∧
    durationText 12345 = "12.345" ∧ durationText 12300 = "12.3" ∧
    durationText 12000 = "12" ∧ durationText 1234567 = "1234.57" ∧
    durationText 50 = "0.05" ∧ durationText 0 = "0" ∧
    durationText 1234125 = "1234.12" ∧ durationText 1234567890 = "1.23457e+06" ∧
    durationText (-1500) = "-1.5" := by
  obtain ⟨s1, s2⟩ := strftime_shape tm
  have hn : duration_ms.natAbs < 2 ^ 64 := by omega
  refine ⟨rfl, ⟨streamDouble (secondsDouble duration_ms.natAbs).1
    (secondsDouble duration_ms.natAbs).2, ?_, ?_, ?_⟩, s1, s2, rfl, rfl, rfl, rfl, rfl, rfl,
    rfl, rfl, rfl⟩
  · have hd : durationText duration_ms = (if duration_ms < 0 then "-" else "") ++
        streamDouble (secondsDouble duration_ms.natAbs).1
          (secondsDouble duration_ms.natAbs).2 := by
      unfold durationText
      split_ifs
      · rfl
      · apply String.ext
        simp
    unfold logRaceResult
    rw [if_pos rfl, strftime_stampText tm ⟨by omega, hyear⟩ hfields, hd]
    simp only [String.append_assoc]
  · intro h
    exact magnitude_exact _ h
  · intro h
    obtain ⟨hB, c1, c2⟩ := secondsDouble_near duration_ms.natAbs (by omega) hn
    obtain ⟨s, x, k, hr, hd⟩ := magnitude_rounded _ h hn
    refine ⟨c1, c2, ⟨s, x, k, hr⟩, ?_⟩
    intro t y j g
    obtain ⟨e1, e2⟩ := sixDigitRounding_unique _ _ t y j s x k hB g hr
    rw [e1, e2]
    exact hd

/-- Claim C12 as amended, at samples. Racer 1 wins in 12345 ms and the result
is logged at 2026-10-30 09:05:07: the seconds are the exact decimal 12.345.
Racer 2 wins in 1234567 ms: the seconds are the `double` rounded to six
significant digits, and these are the digits 123457 with the exponent 3,
written as 1234.57. -/
theorem log_line_form_witness :
    logRaceResult true sampleTm 1 12345 =
      some "2026-10-30 09:05:07 | Winner: Racer 1 | Duration: 12.345s" ∧
    shape (strftime sampleTm) = "9999-99-99 99:99:99" ∧
    stampText sampleTm = "2026-10-30 09:05:07" ∧
    (∃ d : String,
      logRaceResult true sampleTm 1 12345 =
        some (stampText sampleTm ++ " | Winner: Racer " ++ toString (1 : Int) ++
          " | Duration: " ++ (if (12345 : Int) < 0 then "-" else "") ++ d ++ "s") ∧
      d = decimalText 12345 3) ∧
    decimalText 12345 3 = "12.345" ∧
    SixDigitRounding (secondsDouble 1234567).1 (secondsDouble 1234567).2 123457 3 3 ∧
    (∃ d : String,
      logRaceResult true sampleTm 2 1234567 =
        some (stampText sampleTm ++ " | Winner: Racer " ++ toString (2 : Int) ++
          " | Duration: " ++ (if (1234567 : Int) < 0 then "-" else "") ++ d ++ "s") ∧
      d = decimalText 123457 2) ∧
    decimalText 123457 2 = "1234.57" := by
  obtain ⟨-, ⟨d, h1, h2, -⟩, h3, -⟩ :=
    log_line_form sampleTm 1 12345 (by decide) (by decide) (by decide)
  obtain ⟨-, ⟨e, g1, -, g2⟩, -⟩ :=
    log_line_form sampleTm 2 1234567 (by decide) (by decide) (by decide)
  exact ⟨rfl, h3, by decide, ⟨d, h1, h2 (by decide)⟩, by decide, by decide,
    ⟨e, g1, (g2 (by decide)).2.2.2 123457 3 3 (by decide)⟩, by decide⟩

/-- Claim C12 as stated fails. For racer 1 and 12345 ms the line ends in
`Duration: 12.345s`, with three digits after the point, and not in
`Duration: 12.3s`; for 12000 ms it ends in `Duration: 12s`, with no digit after
the point. -/
theorem log_line_counterexample :
    logRaceResult true sampleTm 1 12345 =
      some "2026-10-30 09:05:07 | Winner: Racer 1 | Duration: 12.345s" ∧
    logRaceResult true sampleTm 1 12345 ≠
      some "2026-10-30 09:05:07 | Winner: Racer 1 | Duration: 12.3s" ∧
    logRaceResult true sampleTm 1 12000 =
      some "2026-10-30 09:05:07 | Winner: Racer 1 | Duration: 12s" := by
  refine ⟨rfl, by decide, rfl⟩

end RaceSim
